import Mathlib

/-!
Shallow embedding of the go-waveletmatrix repository (hideo55/go-waveletmatrix).

Conventions of the embedding:
* Go `uint64` values are modelled as `Nat`.  Arithmetic that can wrap in Go
  (additions, subtractions and shifts on query paths, and all offset
  arithmetic of the binary codec) is modelled with explicit `% 2^64`
  wrappers `add64` / `sub64` / `mul64` / `shl64`.  The builder
  (`waveletmatrix_builder.go`) uses plain `Nat` arithmetic: for any input the
  Go process can actually build (values below `2^63`, length below `2^63`)
  none of its operations wraps, and the theorems below carry those bounds.
* Go slice indexing that can panic is modelled with `Option` (`none` = panic).
  Calls into the external succinct bit-vector library whose error results the
  Go code discards with `_` are modelled as total functions on `List Bool`.
* The external packages go-sbvector and go-pq are not part of this
  repository; the bit-vector interface is modelled from the spec (§4.1).
-/

/-- `2^64`, the modulus of Go's `uint64` arithmetic. -/
def U64 : Nat := 2 ^ 64

/-- Go `uint64` addition. -/
def add64 (a b : Nat) : Nat := (a + b) % U64

/-- Go `uint64` subtraction (wraps on underflow). -/
def sub64 (a b : Nat) : Nat := (a + (U64 - b % U64)) % U64

/-- Go `uint64` multiplication. -/
def mul64 (a b : Nat) : Nat := (a * b) % U64

/-- Go `uint64` left shift. -/
def shl64 (a k : Nat) : Nat := (a <<< k) % U64

/-- Go `j & -j` on `uint64` (isolates the lowest set bit). -/
def lowBit64 (j : Nat) : Nat := j &&& (U64 - j)

/-- Source `toBool` (waveletmatrix.go): a bit as a boolean. -/
def toBool (bit : Nat) : Bool := if bit = 0 then false else true

/-! ### Bit-vector interface

Modelled from the spec (§4.1): the external go-sbvector package, absent from
`src/`, provides an immutable bit vector with `get`, `rank0/rank1` counting in
the prefix `[0, i)`, and `select0/select1` returning the position of the
`(k+1)`-th matching bit or a failure.  A bit vector is a `List Bool`. -/

/-- Modelled from the spec: `rank1(i)` = number of 1s in `[0, i)`. -/
def bvRank1 (bv : List Bool) (i : Nat) : Nat := (bv.take i).countP (fun b => b)

/-- Modelled from the spec: `rank0(i)` = number of 0s in `[0, i)`. -/
def bvRank0 (bv : List Bool) (i : Nat) : Nat := (bv.take i).countP (fun b => !b)

/-- Modelled from the spec: `get(i)`; the Go code discards the error result,
so out-of-range reads yield the zero value. -/
def bvGet (bv : List Bool) (i : Nat) : Bool := bv.getD i false

/-- Modelled from the spec: `Rank(i, b)` counts occurrences of bit `b` in `[0, i)`. -/
def bvRank (bv : List Bool) (i : Nat) (b : Bool) : Nat :=
  if b then bvRank1 bv i else bvRank0 bv i

/-- Modelled from the spec: `Select(k, b)` = position of the `(k+1)`-th
occurrence of bit `b`, or failure (`none`) when there are not that many. -/
def bvSelect : List Bool → Nat → Bool → Option Nat
  | [], _, _ => none
  | x :: xs, k, b =>
    if x = b then
      if k = 0 then some 0 else (bvSelect xs (k - 1) b).map (· + 1)
    else
      (bvSelect xs k b).map (· + 1)

/-! ### The wavelet matrix data (waveletmatrix.go, `WMData`) -/

/-- Source `WMData`: the wavelet matrix index.  `bv` are the bit planes,
`nodePos` the per-level node position tables. -/
structure WMData where
  size : Nat
  alphabetNum : Nat
  alphabetBitNum : Nat
  bv : List (List Bool)
  nodePos : List (List Nat)
  seps : List Nat
deriving DecidableEq, Repr

/-- Source constant `NotFound = 0xFFFFFFFFFFFFFFFF`. -/
def NotFound : Nat := U64 - 1

/-! ### Builder (waveletmatrix_builder.go) -/

/-- Source `getAlphabetNum`: one past the maximum of the array (0 if empty). -/
def getAlphabetNum (array : List Nat) : Nat :=
  array.foldl (fun alphabetNum x => if x ≥ alphabetNum then x + 1 else alphabetNum) 0

/-- The `for (x >> bitNum) != 0` loop of source `log2`, with fuel (the loop
runs at most `x + 64` times for the call below). -/
def log2Loop : Nat → Nat → Nat → Nat
  | 0, _, bitNum => bitNum
  | fuel + 1, x, bitNum =>
    if x >>> bitNum = 0 then bitNum else log2Loop fuel x (bitNum + 1)

/-- Source `log2`: `⌈log₂ x⌉` computed as the bit length of `x - 1`. -/
def log2go (x : Nat) : Nat :=
  if x = 0 then 0 else log2Loop (x + 64) (x - 1) 0

/-- One iteration of the builder's per-element loop at level `i`
(waveletmatrix_builder.go lines 53-63): write the level-`i` bit of `v` at the
cursor of `v`'s `i`-bit node, advance that cursor, and bump the child
histogram.  State is `(bit buffer, cursor table, histogram)`. -/
def writeStep (alphabetBitNum i : Nat)
    (st : List Bool × List Nat × List Nat) (v : Nat) :
    List Bool × List Nat × List Nat :=
  let buffer := st.1
  let cursors := st.2.1
  let hist := st.2.2
  let bit := (v >>> (alphabetBitNum - i - 1)) &&& 1
  let subscript := v >>> (alphabetBitNum - i)
  let bvElm := toBool bit
  let pos := cursors.getD subscript 0
  (buffer.set pos bvElm,
   cursors.set subscript (pos + 1),
   hist.set ((subscript <<< 1) ||| bit) (hist.getD ((subscript <<< 1) ||| bit) 0 + 1))

/-- The builder's per-element loop over the whole source array. -/
def writePass (alphabetBitNum i : Nat) (src : List Nat)
    (buffer : List Bool) (cursors hist : List Nat) :
    List Bool × List Nat × List Nat :=
  src.foldl (writeStep alphabetBitNum i) (buffer, cursors, hist)

/-- The cursor re-permutation loop (waveletmatrix_builder.go lines 69-73):
walk the node ids backwards in bit-reversed order, shifting each block end
down to become the next block's start.  `j` is the Go loop variable. -/
def permLoop (curMax : Nat) : Nat → Nat → Nat → List Nat → List Nat
  | 0, _, _, arr => arr
  | j + 1, rev, prevRev, arr =>
    let rev' := rev ^^^ (curMax - curMax / 2 / lowBit64 (j + 1))
    permLoop curMax j rev' rev' (arr.set prevRev (arr.getD rev' 0))

/-- Lines 65-74 of the builder: restore the mutated cursor table to block
starts (`cur_max = 1 << i`), then reset entry 0. -/
def restoreCursors (curMax : Nat) (arr : List Nat) : List Nat :=
  (permLoop curMax (curMax - 1) (curMax - 1) (curMax - 1) arr).set 0 0

/-- The histogram-to-offsets prefix sum in bit-reversed order
(waveletmatrix_builder.go lines 76-85).  The first argument after `curMax`
is fuel; the loop runs exactly `curMax` times. -/
def psLoop (curMax : Nat) : Nat → Nat → Nat → Nat → List Nat → List Nat
  | 0, _, _, _, arr => arr
  | fuel + 1, j, rev, sum, arr =>
    if j < curMax then
      let t := arr.getD rev 0
      let arr' := arr.set rev sum
      let sum' := sum + t
      let j' := j + 1
      let rev' := rev ^^^ (curMax - curMax / 2 / lowBit64 j')
      psLoop curMax fuel j' rev' sum' arr'
    else arr

/-- One level of the builder (body of the loop at lines 51-89): returns the
sealed bit plane, the restored previous cursor table (the Go code mutates
`nodePos[i-1]` in place and this loop restores it), and the fresh
`nodePos[i]` table. -/
def buildLevel (alphabetBitNum n : Nat) (src : List Nat) (i : Nat)
    (prevBegin : List Nat) : List Bool × List Nat × List Nat :=
  let histInit := List.replicate (1 <<< (i + 1)) 0
  let bufInit := List.replicate n false
  let st := writePass alphabetBitNum i src bufInit prevBegin histInit
  let restored := restoreCursors (1 <<< i) st.2.1
  let np := psLoop (1 <<< (i + 1)) (1 <<< (i + 1)) 0 0 0 st.2.2
  (st.1, restored, np)

/-- The level loop of `Build`.  Because the cursor table of level `i+1` is
the very array `nodePos[i]` (aliased through `prev_begin_pos`), the final
value of `nodePos[i]` is the version restored by level `i+1`; the recursion
returns, along with the planes and tables from level `i` on, the restored
version of the incoming cursor table. -/
def buildFrom (alphabetBitNum n : Nat) (src : List Nat) :
    Nat → Nat → List Nat → List (List Bool) × List (List Nat) × List Nat
  | 0, _, prevBegin => ([], [], prevBegin)
  | levels + 1, i, prevBegin =>
    let lv := buildLevel alphabetBitNum n src i prevBegin
    let rest := buildFrom alphabetBitNum n src levels (i + 1) lv.2.2
    (lv.1 :: rest.1, rest.2.2 :: rest.2.1, lv.2.1)

/-- Source `Build` (waveletmatrix_builder.go lines 26-91): `none` models the
`ErrorEmpty` failure for an empty input. -/
def buildWM (src : List Nat) : Option WMData :=
  let alphabetNum := getAlphabetNum src
  if alphabetNum = 0 then none
  else
    let alphabetBitNum := log2go alphabetNum
    let n := src.length
    let res := buildFrom alphabetBitNum n src alphabetBitNum 0 [0, n]
    some ⟨n, alphabetNum, alphabetBitNum, res.1, res.2.1, []⟩

/-! ### Queries (waveletmatrix.go)

Query results are `Option`-valued: `none` models a Go runtime panic from an
out-of-range slice index (the relevant accesses are the `nodePos[...]`
lookups); `some` carries the value the Go function returns. -/

/-- The level loop of source `Lookup` (lines 125-137), peeling the plane list
and the `nodePos` table in step. -/
def lookupLoop : List (List Bool) → List (List Nat) → Nat → Nat → Option (Nat × Bool)
  | [], _, _, c => some (c, true)
  | plane :: bvs, nps, index, c =>
    let b := bvGet plane index
    let bit : Nat := if b then 1 else 0
    let c' := shl64 c 1 ||| bit
    let index' := bvRank plane index b
    if b then do
      let row ← nps.head?
      let v ← row[1]?
      lookupLoop bvs nps.tail (add64 index' v) c'
    else
      lookupLoop bvs nps.tail index' c'

/-- Source `Lookup` (lines 118-139). -/
def WMData.Lookup (wm : WMData) (pos : Nat) : Option (Nat × Bool) :=
  if pos ≥ wm.size then some (NotFound, false)
  else lookupLoop wm.bv wm.nodePos pos 0

/-- The level loop of source `Rank` (lines 154-162).  The loop bound is
`alphabetBitNum` (the first argument is the remaining iteration count,
`i` the Go loop variable). -/
def rankLoop (alphabetBitNum c : Nat) :
    Nat → List (List Bool) → List (List Nat) → Nat → Nat → Option Nat
  | 0, _, _, _, endPos => some endPos
  | rem + 1, bvs, nps, i, endPos => do
    let plane ← bvs.head?
    let bit := (c >>> (alphabetBitNum - i - 1)) &&& 1
    let b := toBool bit
    let e := bvRank plane endPos b
    let e' ← if b then do
        let row ← nps.head?
        let v ← row[1]?
        pure (add64 e v)
      else pure e
    rankLoop alphabetBitNum c rem bvs.tail nps.tail (i + 1) e'

/-- Source `Rank` (lines 142-165).  Note line 148: `pos = 0` returns
`(0, false)`, and line 151 reads `nodePos[alphabetBitNum-1][c]` with
wrapping `uint64` subtraction. -/
def WMData.Rank (wm : WMData) (c pos : Nat) : Option (Nat × Bool) :=
  if c ≥ wm.alphabetNum ∨ pos > wm.size then some (NotFound, false)
  else if pos = 0 then some (0, false)
  else do
    let row ← wm.nodePos[sub64 wm.alphabetBitNum 1]?
    let beginPos ← row[c]?
    let endPos ← rankLoop wm.alphabetBitNum c wm.alphabetBitNum wm.bv wm.nodePos 0 pos
    some (sub64 endPos beginPos, true)

/-- The level loop of source `RankAll` (lines 185-206).  `bp`/`ep` are the
unmodified `beginPos`/`endPos` arguments appearing in the loop condition;
the state is `(begNode, endNode, pos, rankLessThan, rankMoreThan)`. -/
def rankAllLoop (alphabetBitNum c bp ep : Nat) :
    Nat → Nat → List (List Bool) → Nat → Nat → Nat → Nat → Nat →
    Option (Nat × Nat × Nat × Nat)
  | 0, _, _, begNode, _, pos, less, more => some (begNode, pos, less, more)
  | rem + 1, i, bvs, begNode, endNode, pos, less, more =>
    if bp < ep then do
      let plane ← bvs.head?
      let bit := (c >>> (alphabetBitNum - i - 1)) &&& 1
      let b := toBool bit
      let begNodeZero := bvRank0 plane begNode
      let begNodeOne := sub64 begNode begNodeZero
      let endNodeZero := bvRank0 plane endNode
      let boundary := sub64 (add64 begNode endNodeZero) begNodeZero
      let rankZero := bvRank0 plane pos
      let rankOne := bvRank1 plane pos
      if b then
        rankAllLoop alphabetBitNum c bp ep rem (i + 1) bvs.tail boundary endNode
          (sub64 (add64 boundary rankOne) (sub64 begNode begNodeZero))
          (add64 less (sub64 rankZero begNodeZero)) more
      else
        rankAllLoop alphabetBitNum c bp ep rem (i + 1) bvs.tail begNode boundary
          (sub64 (add64 begNode rankZero) begNodeZero)
          less (add64 more (sub64 rankOne begNodeOne))
    else some (begNode, pos, less, more)

/-- Source `RankAll` (lines 168-209): frequency of `c' = c`, `c' < c`,
`c' > c` in `A[beginPos, endPos)`. -/
def WMData.RankAll (wm : WMData) (c beginPos endPos : Nat) :
    Option (Nat × Nat × Nat) :=
  if c ≥ wm.alphabetNum ∨ beginPos ≥ wm.size ∨ endPos > wm.size then
    some (NotFound, NotFound, NotFound)
  else if beginPos ≥ endPos then some (0, 0, 0)
  else do
    let r ← rankAllLoop wm.alphabetBitNum c beginPos endPos
      wm.alphabetBitNum 0 wm.bv 0 wm.size endPos 0 0
    some (sub64 r.2.1 r.1, r.2.2.1, r.2.2.2)

/-- Source `RankLessThan` (lines 212-215). -/
def WMData.RankLessThan (wm : WMData) (c pos : Nat) : Option Nat :=
  (wm.RankAll c 0 pos).map (fun r => r.2.1)

/-- Source `RankMoreThan` (lines 218-221). -/
def WMData.RankMoreThan (wm : WMData) (c pos : Nat) : Option Nat :=
  (wm.RankAll c 0 pos).map (fun r => r.2.2)

/-- Source `Freq` (lines 268-271): `Rank(c, size)` with the success flag
discarded. -/
def WMData.Freq (wm : WMData) (c : Nat) : Option Nat :=
  (wm.Rank c wm.size).map (fun r => r.1)

/-- The descending loop of source `SelectFromPos` for `pos > 0`
(lines 239-246); note the source shift `alphabetBitNum - i + 1`. -/
def sfpDescLoop (alphabetBitNum c : Nat) :
    Nat → List (List Bool) → List (List Nat) → Nat → Nat → Option Nat
  | 0, _, _, _, index => some index
  | rem + 1, bvs, nps, i, index => do
    let plane ← bvs.head?
    let bit := (c >>> (alphabetBitNum - i + 1)) &&& 1
    let b := toBool bit
    let idx := bvRank plane index b
    let idx' ← if b then do
        let row ← nps.head?
        let v ← row[1]?
        pure (add64 idx v)
      else pure idx
    sfpDescLoop alphabetBitNum c rem bvs.tail nps.tail (i + 1) idx'

/-- The ascending loop of source `SelectFromPos` (lines 251-263), `i`
running from `alphabetBitNum - 1` down to 0 (the matched argument is
`i + 1`).  A failing bit-vector `Select` returns `(NotFound, false)`. -/
def sfpAscLoop (wm : WMData) (c : Nat) : Nat → Nat → Option (Nat × Bool)
  | 0, index => some (sub64 index 1, true)
  | rem + 1, index => do
    let i := rem
    let bit := (c >>> (wm.alphabetBitNum - i - 1)) &&& 1
    let b := toBool bit
    let index1 ← if b then do
        let row ← wm.nodePos[i]?
        let v ← row[1]?
        pure (sub64 index v)
      else pure index
    let plane ← wm.bv[i]?
    match bvSelect plane (sub64 index1 1) b with
    | none => some (NotFound, false)
    | some s => sfpAscLoop wm c rem (add64 s 1)

/-- Source `SelectFromPos` (lines 229-265). -/
def WMData.SelectFromPos (wm : WMData) (c pos rank : Nat) : Option (Nat × Bool) :=
  if c ≥ wm.alphabetNum then some (NotFound, false)
  else if pos ≥ wm.size then some (NotFound, false)
  else do
    let fr ← wm.Freq c
    if rank > fr then some (NotFound, false)
    else do
      let index ← if pos = 0 then do
          let row ← wm.nodePos[sub64 wm.alphabetBitNum 1]?
          row[c]?
        else
          sfpDescLoop wm.alphabetBitNum c wm.alphabetBitNum wm.bv wm.nodePos 0 pos
      sfpAscLoop wm c wm.alphabetBitNum (add64 index rank)

/-- Source `Select` (lines 224-226). -/
def WMData.Select (wm : WMData) (c rank : Nat) : Option (Nat × Bool) :=
  wm.SelectFromPos c 0 rank

/-- Source `FreqSum` (lines 274-280): plain sum of `Freq` over `[minC, maxC)`
in wrapping `uint64` arithmetic. -/
def WMData.FreqSum (wm : WMData) (minC maxC : Nat) : Option Nat :=
  (List.range' minC (maxC - minC)).foldlM
    (fun sum i => (wm.Freq i).map (fun f => add64 sum f)) 0

/-- Source `FreqRange` (lines 283-296). -/
def WMData.FreqRange (wm : WMData) (minC maxC begPos endPos : Nat) : Option Nat :=
  if minC ≥ wm.alphabetNum then some 0
  else if maxC ≤ minC then some 0
  else if endPos > wm.size ∨ begPos ≥ endPos then some 0
  else do
    let rMax ← wm.RankAll maxC begPos endPos
    let rMin ← wm.RankAll minC begPos endPos
    some (sub64 rMax.2.1 rMin.2.1)

/-- The level loop of source `QuantileRange` (lines 315-347).  State is
`(begPos, endPos, k, nodeNum, val)`; `fromZero`/`toEnd` are the flags
computed before the loop.  Returns the final `(begPos, k, val)`. -/
def qrLoop (wm : WMData) (fromZero toEnd : Bool) :
    Nat → Nat → Nat → Nat → Nat → Nat → Nat → Option (Nat × Nat × Nat)
  | 0, _, begPos, _, k, _, val => some (begPos, k, val)
  | rem + 1, i, begPos, endPos, k, nodeNum, val => do
    let plane ← wm.bv[i]?
    let begZero ← if fromZero then do
        let row ← wm.nodePos[i]?
        row[nodeNum]?
      else pure (bvRank0 plane begPos)
    let endZero ← if toEnd then do
        let row ← wm.nodePos[i]?
        row[add64 nodeNum 1]?
      else pure (bvRank0 plane endPos)
    let zeroBits := sub64 endZero begZero
    let bit : Nat := if k < zeroBits then 0 else 1
    if bit = 1 then do
      let row ← wm.nodePos[i]?
      let v ← row[1]?
      qrLoop wm fromZero toEnd rem (i + 1)
        (add64 begPos (sub64 v begZero)) (add64 endPos (sub64 v endZero))
        (sub64 k zeroBits) (nodeNum ||| shl64 bit i) (shl64 val 1 ||| bit)
    else
      qrLoop wm fromZero toEnd rem (i + 1)
        begZero endZero k (nodeNum ||| shl64 bit i) (shl64 val 1 ||| bit)

/-- Source `QuantileRange` (lines 299-350): the `(k+1)`-th smallest value and
a position of it in `A[begPos, endPos)`.  Note the guard rejects
`endPos ≥ size` (strict, so `endPos = n` is rejected). -/
def WMData.QuantileRange (wm : WMData) (begPos endPos k : Nat) : Option (Nat × Nat) :=
  if endPos ≥ wm.size ∨ begPos ≥ endPos ∨ k ≥ sub64 endPos begPos then
    some (NotFound, NotFound)
  else do
    let r ← qrLoop wm (begPos = 0) (endPos = wm.size)
      wm.alphabetBitNum 0 begPos endPos k 0 0
    let row ← wm.nodePos[sub64 wm.alphabetBitNum 1]?
    let npv ← row[r.2.2]?
    let s ← wm.Select r.2.2 (add64 (sub64 (add64 r.1 r.2.1) npv) 1)
    some (s.1, r.2.2)

/-- Source `MaxRange` (lines 353-356). -/
def WMData.MaxRange (wm : WMData) (begPos endPos : Nat) : Option (Nat × Nat) :=
  wm.QuantileRange begPos endPos (sub64 (sub64 endPos begPos) 1)

/-- Source `MinRange` (lines 359-362). -/
def WMData.MinRange (wm : WMData) (begPos endPos : Nat) : Option (Nat × Nat) :=
  wm.QuantileRange begPos endPos 0

/-! ### Binary codec (waveletmatrix.go, `MarshalBinary` / `UnmarshalBinary`)

Byte streams are `List Nat` with every entry below 256. -/

/-- Little-endian `uint64` encoding (Go `binary.Write` / `binary.LittleEndian`). -/
def u64ToBytes (x : Nat) : List Nat :=
  [x % 256, (x >>> 8) % 256, (x >>> 16) % 256, (x >>> 24) % 256,
   (x >>> 32) % 256, (x >>> 40) % 256, (x >>> 48) % 256, (x >>> 56) % 256]

/-- Little-endian `uint64` decoding of (the first 8 bytes of) a buffer
(Go `binary.LittleEndian.Uint64`). -/
def bytesToU64 (l : List Nat) : Nat :=
  l.getD 0 0 % 256 + (l.getD 1 0 % 256) * 2 ^ 8 + (l.getD 2 0 % 256) * 2 ^ 16 +
  (l.getD 3 0 % 256) * 2 ^ 24 + (l.getD 4 0 % 256) * 2 ^ 32 +
  (l.getD 5 0 % 256) * 2 ^ 40 + (l.getD 6 0 % 256) * 2 ^ 48 +
  (l.getD 7 0 % 256) * 2 ^ 56

/-- Modelled from the spec: the serialized form of the external bit vector
(go-sbvector `MarshalBinary`, absent from `src/`).  The spec fixes only that
serialization is deterministic and round-trips; this model writes the length
followed by one byte per bit. -/
def bvMarshal (bv : List Bool) : List Nat :=
  u64ToBytes bv.length ++ bv.map (fun b => if b then 1 else 0)

/-- Modelled from the spec: go-sbvector `NewVectorFromBinary`; fails (`none`)
on a buffer that is not exactly a serialized bit vector. -/
def bvUnmarshal (data : List Nat) : Option (List Bool) :=
  if data.length < 8 then none
  else
    let n := bytesToU64 (data.take 8)
    let rest := data.drop 8
    if rest.length = n ∧ rest.all (fun b => b ≤ 1) then
      some (rest.map (fun b => b == 1))
    else none

/-- Source `MarshalBinary` (lines 440-469). -/
def WMData.MarshalBinary (wm : WMData) : List Nat :=
  u64ToBytes wm.size ++ u64ToBytes wm.alphabetNum ++ u64ToBytes wm.alphabetBitNum ++
  u64ToBytes wm.bv.length ++
  (wm.bv.map (fun bv => u64ToBytes (bvMarshal bv).length ++ bvMarshal bv)).flatten ++
  u64ToBytes wm.nodePos.length ++
  (wm.nodePos.map (fun row => u64ToBytes row.length ++ (row.map u64ToBytes).flatten)).flatten ++
  u64ToBytes wm.seps.length ++ (wm.seps.map u64ToBytes).flatten

/-- Outcome of a Go function that may return an error or hit a runtime
fault: `ok` is a normal return, `invalidFormat` the `ErrorInvalidFormat`
error, `oob` an out-of-range slice access (a Go panic). -/
inductive GoResult (α : Type) where
  | ok (a : α) : GoResult α
  | invalidFormat : GoResult α
  | oob : GoResult α
deriving DecidableEq, Repr

/-- Go slice expression `data[a:b]`: panics (`none`) unless `a ≤ b ≤ len`. -/
def goSlice (data : List Nat) (a b : Nat) : Option (List Nat) :=
  if a ≤ b ∧ b ≤ data.length then some ((data.drop a).take (b - a)) else none

/-- The unchecked 8-byte reads of `UnmarshalBinary`'s inner loops
(lines 540-544 and 556-559): `count` values read at `offset`, with Go's
slice bounds semantics and wrapping offset arithmetic. -/
def readU64sLoop : Nat → List Nat → Nat → List Nat → GoResult (List Nat × Nat)
  | 0, _, offset, acc => .ok (acc.reverse, offset)
  | count + 1, data, offset, acc =>
    match goSlice data offset (add64 offset 8) with
    | none => .oob
    | some buf => readU64sLoop count data (add64 offset 8) (bytesToU64 buf :: acc)

/-- The bit-vector reading loop of `UnmarshalBinary` (lines 503-521). -/
def readPlanesLoop : Nat → List Nat → Nat → List (List Bool) →
    GoResult (List (List Bool) × Nat)
  | 0, _, offset, acc => .ok (acc.reverse, offset)
  | count + 1, data, offset, acc =>
    if data.length < add64 offset 8 then .invalidFormat
    else
      match goSlice data offset (add64 offset 8) with
      | none => .oob
      | some buf =>
        let offset1 := add64 offset 8
        let vsize := bytesToU64 buf
        if data.length < add64 offset1 vsize then .invalidFormat
        else
          match goSlice data offset1 (add64 offset1 vsize) with
          | none => .oob
          | some buf2 =>
            match bvUnmarshal buf2 with
            | none => .invalidFormat
            | some bv => readPlanesLoop count data (add64 offset1 vsize) (bv :: acc)

/-- The `nodePos` reading loop of `UnmarshalBinary` (lines 529-545): per
table, a checked length read, one bounds check `dataLen < offset + 8*len`
(in wrapping arithmetic), then unchecked entry reads. -/
def readNodePosLoop : Nat → List Nat → Nat → List (List Nat) →
    GoResult (List (List Nat) × Nat)
  | 0, _, offset, acc => .ok (acc.reverse, offset)
  | count + 1, data, offset, acc =>
    if data.length < add64 offset 8 then .invalidFormat
    else
      match goSlice data offset (add64 offset 8) with
      | none => .oob
      | some buf =>
        let offset1 := add64 offset 8
        let arrayLen := bytesToU64 buf
        if data.length < add64 offset1 (mul64 8 arrayLen) then .invalidFormat
        else
          match readU64sLoop arrayLen data offset1 [] with
          | .oob => .oob
          | .invalidFormat => .invalidFormat
          | .ok (row, offset2) => readNodePosLoop count data offset2 (row :: acc)

/-- Source `UnmarshalBinary` (lines 471-563), with Go's wrapping offset
arithmetic and panicking slice semantics. -/
def UnmarshalBinary (data : List Nat) : GoResult WMData :=
  let dataLen := data.length
  if dataLen < add64 0 8 then .invalidFormat
  else
    match goSlice data 0 (add64 0 8) with
    | none => .oob
    | some buf0 =>
      let size := bytesToU64 buf0
      let o1 := add64 0 8
      if dataLen < add64 o1 8 then .invalidFormat
      else
        match goSlice data o1 (add64 o1 8) with
        | none => .oob
        | some buf1 =>
          let alphabetNum := bytesToU64 buf1
          let o2 := add64 o1 8
          if dataLen < add64 o2 8 then .invalidFormat
          else
            match goSlice data o2 (add64 o2 8) with
            | none => .oob
            | some buf2 =>
              let alphabetBitNum := bytesToU64 buf2
              let o3 := add64 o2 8
              if dataLen < add64 o3 8 then .invalidFormat
              else
                match goSlice data o3 (add64 o3 8) with
                | none => .oob
                | some buf3 =>
                  let bvSize := bytesToU64 buf3
                  let o4 := add64 o3 8
                  match readPlanesLoop bvSize data o4 [] with
                  | .oob => .oob
                  | .invalidFormat => .invalidFormat
                  | .ok (planes, o5) =>
                    if dataLen < add64 o5 8 then .invalidFormat
                    else
                      match goSlice data o5 (add64 o5 8) with
                      | none => .oob
                      | some buf5 =>
                        let npSize := bytesToU64 buf5
                        let o6 := add64 o5 8
                        match readNodePosLoop npSize data o6 [] with
                        | .oob => .oob
                        | .invalidFormat => .invalidFormat
                        | .ok (nodePos, o7) =>
                          if dataLen < add64 o7 8 then .invalidFormat
                          else
                            match goSlice data o7 (add64 o7 8) with
                            | none => .oob
                            | some buf7 =>
                              let sepSize := bytesToU64 buf7
                              let o8 := add64 o7 8
                              if dataLen < add64 o8 (mul64 sepSize 8) then .invalidFormat
                              else
                                match readU64sLoop sepSize data o8 [] with
                                | .oob => .oob
                                | .invalidFormat => .invalidFormat
                                | .ok (seps, _) =>
                                  .ok ⟨size, alphabetNum, alphabetBitNum,
                                       planes, nodePos, seps⟩

/-! ### Concrete instances

`srcEx` is the sequence used by the repository's own test suite
(`waveletmatrix_test.go`); `wmEx` is the index the builder produces for it. -/

def srcEx : List Nat := [5, 1, 0, 4, 2, 2, 0, 3]

def wmEx : WMData :=
  ⟨8, 6, 3,
   [[true, false, false, true, false, false, false, false],
    [false, false, true, true, false, true, false, false],
    [true, false, false, true, false, false, false, true]],
   [[0, 6], [0, 5, 3, 8], [0, 5, 3, 7, 2, 6, 5, 8]],
   []⟩

theorem buildWM_srcEx : buildWM srcEx = some wmEx := by decide

/-- The index built from the all-zero sequence `[0, 0]`: `σ = 1`, zero
bit planes, empty `nodePos`. -/
def zeroWM : WMData := ⟨2, 1, 0, [], [], []⟩

theorem buildWM_zero : buildWM [0, 0] = some zeroWM := by decide

/-- A 40-byte adversarial stream: valid header fields, `bvSize = 1`, and a
plane length field of `2^64 - 1`, which makes the deserializer's bounds
check `dataLen < offset + vsize` wrap around. -/
def advInput : List Nat :=
  u64ToBytes 8 ++ u64ToBytes 6 ++ u64ToBytes 3 ++ u64ToBytes 1 ++ u64ToBytes (2 ^ 64 - 1)

/-! ### Claims settled by evaluation -/

/-- C2: `RankAll(c, beg, end)` is claimed to return the numbers of positions
`j` in `[beg, end)` with `A[j] = c`, `A[j] < c`, `A[j] > c`, summing to
`end - beg`.  On the test sequence the code returns `(1, 2, 3)` for
`RankAll(2, 2, 6)` while the true counts over `A[2..6) = [0, 4, 2, 2]` are
`(2, 1, 1)`, and the returned components sum to 6, not `end - beg = 4`: the
descent uses per-node child boundaries (wavelet-tree layout) on
globally-regrouped wavelet-matrix planes. -/
theorem rankAll_wrong_counts :
    buildWM srcEx = some wmEx ∧
    wmEx.RankAll 2 2 6 = some (1, 2, 3) ∧
    ((srcEx.drop 2).take 4).countP (fun v => v = 2) = 2 ∧
    ((srcEx.drop 2).take 4).countP (fun v => v < 2) = 1 ∧
    ((srcEx.drop 2).take 4).countP (fun v => 2 < v) = 1 ∧
    1 + 2 + 3 ≠ 6 - 2 := by decide

/-- C5: `FreqRange(0, σ, beg, end)` is claimed to equal `end - beg`; in the
code the inner call `RankAll(σ, ...)` hits the `c ≥ alphabetNum` guard and
returns the `NotFound` sentinel for its `less` component, so
`FreqRange(0, 6, 2, 6)` on the test index is `2^64 - 1`, not `4`. -/
theorem freqRange_full_alphabet_sentinel :
    buildWM srcEx = some wmEx ∧
    wmEx.alphabetNum = 6 ∧
    wmEx.FreqRange 0 6 2 6 = some NotFound ∧
    NotFound ≠ 6 - 2 := by decide

/-- C6: `Rank(c, 0)` for a valid character is claimed to return `(0, true)`;
the source (waveletmatrix.go line 148) returns `(0, false)`. -/
theorem rank_at_zero_returns_false (wm : WMData) (c : Nat)
    (h : c < wm.alphabetNum) : wm.Rank c 0 = some (0, false) := by
  simp [WMData.Rank, Nat.not_le.mpr h]

theorem rank_at_zero_returns_false_witness :
    (0 : Nat) < wmEx.alphabetNum ∧ wmEx.Rank 0 0 = some (0, false) :=
  ⟨by decide, rank_at_zero_returns_false wmEx 0 (by decide)⟩

/-- C7: on an all-zero sequence (`σ = 1`, no bit planes) every query is
claimed to return its trivial answer with no out-of-bounds access.
`Lookup` does, but `Rank(0, 1)` evaluates `nodePos[alphabetBitNum - 1]`
with `alphabetBitNum = 0`, i.e. `nodePos[2^64 - 1]` on an empty table —
an out-of-range access (Go panic, modelled as `none`) instead of the
claimed `(1, true)`. -/
theorem rank_panics_on_sigma_one :
    buildWM [0, 0] = some zeroWM ∧
    zeroWM.Lookup 0 = some (0, true) ∧
    zeroWM.Lookup 1 = some (0, true) ∧
    zeroWM.Rank 0 1 = none := by decide

/-- C9: `UnmarshalBinary` is claimed to bounds-check every length field and
fail only with `ErrorInvalidFormat`.  On the 40-byte input `advInput` the
plane length field is `2^64 - 1`; the check `dataLen < offset + vsize`
wraps to `40 < 39` and passes, and the subsequent slice `data[40:39]` is an
out-of-range access (Go panic), not `ErrorInvalidFormat`. -/
theorem unmarshal_oob_on_length_overflow :
    advInput.length = 40 ∧
    UnmarshalBinary advInput = GoResult.oob ∧
    GoResult.oob ≠ (GoResult.invalidFormat : GoResult WMData) := by decide

/-- C10: for `c ≥ σ`, `Freq(c)` forwards the `NotFound` sentinel from
`Rank`'s failure (the success flag is discarded), and `FreqSum` adds those
sentinels into its wrapping sum: on the test index (`σ = 6`, `n = 8`),
`FreqSum(0, 7)` is `(8 + (2^64 - 1)) mod 2^64 = 7`, not `8`. -/
theorem freq_sentinel_out_of_alphabet :
    (∀ (wm : WMData) (c : Nat), wm.alphabetNum ≤ c → wm.Freq c = some NotFound) ∧
    wmEx.FreqSum 0 7 = some 7 ∧ wmEx.FreqSum 0 6 = some 8 := by
  refine ⟨fun wm c h => ?_, by decide, by decide⟩
  simp [WMData.Freq, WMData.Rank, h]

theorem freq_sentinel_out_of_alphabet_witness :
    wmEx.Freq 6 = some NotFound :=
  freq_sentinel_out_of_alphabet.1 wmEx 6 (by decide)

/-- C3 (counterexample): the claim says `Select(c, k)` returns the position
of the `(k+1)`-th occurrence of `c` for `0 ≤ k < Freq(c)`.  On the test
sequence `Freq(2) = 2` and `k = 1 < 2`, but `Select(2, 1) = (4, true)` is
the first occurrence of 2 (the second is at 5, as the repository's own test
asserts `Select(2,1) = 4` and `Select(2,2) = 5`): `Rank(2, 4+1) = 1 ≠ k+1`. -/
theorem select_is_one_indexed :
    buildWM srcEx = some wmEx ∧
    wmEx.Freq 2 = some 2 ∧
    wmEx.Select 2 1 = some (4, true) ∧
    wmEx.Select 2 2 = some (5, true) ∧
    wmEx.Rank 2 (4 + 1) = some (1, true) ∧
    (1 : Nat) ≠ 1 + 1 := by decide
/-! ### Bit toolkit: lowest set bit and bit reversal -/

theorem xor_two_pow_of_lt {r m : Nat} (h : r < 2 ^ m) : r ^^^ 2 ^ m = r + 2 ^ m := by
  apply Nat.eq_of_testBit_eq
  intro i
  rcases Nat.lt_trichotomy i m with hi | rfl | hi
  · rw [Nat.testBit_xor, Nat.testBit_two_pow, Nat.add_comm,
      Nat.testBit_two_pow_add_gt hi]
    simp [Nat.ne_of_gt hi]
  · rw [Nat.testBit_xor, Nat.testBit_two_pow, Nat.add_comm, Nat.testBit_two_pow_add_eq,
      Nat.testBit_lt_two_pow h]
    simp
  · have h1 : r + 2 ^ m < 2 ^ i := by
      have : 2 ^ (m + 1) ≤ 2 ^ i := Nat.pow_le_pow_right (by omega) (by omega)
      have := Nat.pow_succ 2 m
      omega
    rw [Nat.testBit_xor, Nat.testBit_two_pow, Nat.testBit_lt_two_pow h1,
      Nat.testBit_lt_two_pow (lt_trans h (Nat.pow_lt_pow_right (by omega) hi))]
    simp [Nat.ne_of_lt hi]

theorem two_pow_add_xor {a b m : Nat} (ha : a < 2 ^ m) (hb : b < 2 ^ m) :
    (2 ^ m + a) ^^^ (2 ^ m + b) = a ^^^ b := by
  apply Nat.eq_of_testBit_eq
  intro i
  rcases Nat.lt_trichotomy i m with hi | rfl | hi
  · rw [Nat.testBit_xor, Nat.testBit_two_pow_add_gt hi, Nat.testBit_two_pow_add_gt hi,
      Nat.testBit_xor]
  · rw [Nat.testBit_xor, Nat.testBit_two_pow_add_eq, Nat.testBit_two_pow_add_eq,
      Nat.testBit_xor, Nat.testBit_lt_two_pow ha, Nat.testBit_lt_two_pow hb]
    decide
  · have hpow : 2 ^ (m + 1) ≤ 2 ^ i := Nat.pow_le_pow_right (by omega) (by omega)
    have hps := Nat.pow_succ 2 m
    rw [Nat.testBit_xor, Nat.testBit_lt_two_pow (x := 2 ^ m + a) (by omega),
      Nat.testBit_lt_two_pow (x := 2 ^ m + b) (by omega), Nat.testBit_xor,
      Nat.testBit_lt_two_pow (lt_trans ha (Nat.pow_lt_pow_right (by omega) hi)),
      Nat.testBit_lt_two_pow (lt_trans hb (Nat.pow_lt_pow_right (by omega) hi))]

theorem lowBit64_odd {j : Nat} (hodd : j % 2 = 1) (hj : j < 2 ^ 64) : lowBit64 j = 1 := by
  have h1 : 0 < j := by omega
  have hx : j - 1 < 2 ^ 64 := by omega
  have hsub : U64 - j = 2 ^ 64 - (j - 1 + 1) := by unfold U64; omega
  apply Nat.eq_of_testBit_eq
  intro i
  simp only [lowBit64]
  rw [Nat.testBit_land, hsub, Nat.testBit_two_pow_sub_succ hx]
  match i with
  | 0 =>
    have h2 : (j - 1) % 2 = 0 := by omega
    simp [Nat.testBit_zero, hodd, h2]
  | i + 1 =>
    have hhalf : (j - 1) / 2 = j / 2 := by omega
    have h1lt : (1 : Nat) < 2 ^ (i + 1) := Nat.one_lt_two_pow (by omega)
    rw [Nat.testBit_add_one, Nat.testBit_add_one, hhalf,
      Nat.testBit_lt_two_pow h1lt]
    cases h : (j / 2).testBit i <;> simp [h]

theorem land_two_mul (a b : Nat) : (2 * a) &&& (2 * b) = 2 * (a &&& b) := by
  apply Nat.eq_of_testBit_eq
  intro i
  match i with
  | 0 => simp [Nat.testBit_zero, Nat.testBit_land, Nat.mul_add_mod, Nat.testBit_zero,
      Nat.mul_mod_right]
  | i + 1 =>
    have l1 : ∀ x : Nat, (2 * x).testBit (i + 1) = x.testBit i := fun x => by
      rw [Nat.testBit_add_one, Nat.mul_div_cancel_left _ (by omega : 0 < 2)]
    rw [Nat.testBit_land, l1, l1, l1, Nat.testBit_land]

theorem land_sub_pow_congr {m k l : Nat} (h0 : 0 < m) (hk : m < 2 ^ k) (hkl : k ≤ l) :
    m &&& (2 ^ k - m) = m &&& (2 ^ l - m) := by
  have hx : m - 1 < 2 ^ k := by omega
  have hx' : m - 1 < 2 ^ l := lt_of_lt_of_le hx (Nat.pow_le_pow_right (by omega) hkl)
  have hsk : 2 ^ k - m = 2 ^ k - (m - 1 + 1) := by omega
  have hsl : 2 ^ l - m = 2 ^ l - (m - 1 + 1) := by omega
  apply Nat.eq_of_testBit_eq
  intro i
  rw [Nat.testBit_land, Nat.testBit_land, hsk, hsl, Nat.testBit_two_pow_sub_succ hx,
    Nat.testBit_two_pow_sub_succ hx']
  by_cases hik : i < k
  · simp [hik, lt_of_lt_of_le hik hkl]
  · have : m < 2 ^ i := lt_of_lt_of_le hk (Nat.pow_le_pow_right (by omega) (by omega))
    simp [Nat.testBit_lt_two_pow this]

theorem lowBit64_two_mul {m : Nat} (h0 : 0 < m) (hm : m < 2 ^ 63) :
    lowBit64 (2 * m) = 2 * lowBit64 m := by
  have h2m : U64 - 2 * m = 2 * (2 ^ 63 - m) := by unfold U64; rw [Nat.pow_succ]; omega
  simp only [lowBit64]
  rw [h2m, land_two_mul]
  congr 1
  rw [show U64 = 2 ^ 64 from rfl]
  exact land_sub_pow_congr h0 hm (by omega)

/-- The low-bit structure of `lowBit64`: on `j = 2^t * odd`, it is `2^t`. -/
theorem lowBit64_spec : ∀ j, 0 < j → j < 2 ^ 64 →
    ∃ t m, j = 2 ^ t * (2 * m + 1) ∧ lowBit64 j = 2 ^ t := by
  intro j
  induction j using Nat.strong_induction_on with
  | _ j ih =>
    intro h0 hj
    rcases Nat.even_or_odd j with he | ho
    · obtain ⟨a, ha⟩ := he
      have ha' : j = 2 * a := by omega
      have h0a : 0 < a := by omega
      obtain ⟨t, m, h1, h2⟩ := ih a (by omega) h0a (by omega)
      refine ⟨t + 1, m, by rw [ha', h1]; ring, ?_⟩
      rw [ha', lowBit64_two_mul h0a (by have := hj; unfold U64 at *; omega), h2]
      ring
    · obtain ⟨a, ha⟩ := ho
      refine ⟨0, a, by omega, ?_⟩
      simp [lowBit64_odd (by omega) hj]

/-- Reversal of the `k` low bits of a number. -/
def bitrev : Nat → Nat → Nat
  | 0, _ => 0
  | k + 1, q => q % 2 * 2 ^ k + bitrev k (q / 2)

theorem bitrev_lt (k q : Nat) : bitrev k q < 2 ^ k := by
  induction k generalizing q with
  | zero => simp [bitrev]
  | succ k ih =>
    have h1 : q % 2 ≤ 1 := by omega
    have h2 := ih (q / 2)
    have h3 : 2 ^ (k + 1) = 2 ^ k + 2 ^ k := by rw [Nat.pow_succ]; omega
    simp only [bitrev]
    nlinarith [h2, h1]

theorem bitrev_zero_eq (k : Nat) : bitrev k 0 = 0 := by
  induction k with
  | zero => rfl
  | succ k ih => simp [bitrev, ih]

theorem bitrev_two_mul_add (k q b : Nat) (hb : b ≤ 1) :
    bitrev (k + 1) (2 * q + b) = b * 2 ^ k + bitrev k q := by
  have h1 : (2 * q + b) % 2 = b := by omega
  have h2 : (2 * q + b) / 2 = q := by omega
  simp [bitrev, h1, h2]

theorem bitrev_msb (k : Nat) : ∀ q b, b ≤ 1 → q < 2 ^ k →
    bitrev (k + 1) (b * 2 ^ k + q) = 2 * bitrev k q + b := by
  induction k with
  | zero =>
    intro q b hb hq
    interval_cases q
    interval_cases b <;> simp [bitrev]
  | succ k ih =>
    intro q b hb hq
    obtain ⟨q', c, hc, hq'⟩ : ∃ q' c, c ≤ 1 ∧ q = 2 * q' + c :=
      ⟨q / 2, q % 2, by omega, by omega⟩
    have hq'lt : q' < 2 ^ k := by
      have : 2 ^ (k + 1) = 2 * 2 ^ k := by ring
      omega
    have hbig : b * 2 ^ (k + 1) + q = 2 * (b * 2 ^ k + q') + c := by
      subst hq'; ring
    rw [hbig, bitrev_two_mul_add _ _ _ hc, ih q' b hb hq'lt, hq',
      bitrev_two_mul_add _ _ _ hc]
    ring

theorem bitrev_bitrev (k : Nat) : ∀ q, q < 2 ^ k → bitrev k (bitrev k q) = q := by
  induction k with
  | zero => intro q hq; interval_cases q; rfl
  | succ k ih =>
    intro q hq
    obtain ⟨q', b, hb, rfl⟩ : ∃ q' b, b ≤ 1 ∧ q = 2 * q' + b :=
      ⟨q / 2, q % 2, by omega, by omega⟩
    have hq' : q' < 2 ^ k := by
      have : 2 ^ (k + 1) = 2 * 2 ^ k := by ring
      omega
    rw [bitrev_two_mul_add _ _ _ hb, bitrev_msb _ _ _ hb (bitrev_lt k q'), ih q' hq']

theorem bitrev_inj {k q r : Nat} (hq : q < 2 ^ k) (hr : r < 2 ^ k)
    (h : bitrev k q = bitrev k r) : q = r := by
  have := congrArg (bitrev k) h
  rwa [bitrev_bitrev k q hq, bitrev_bitrev k r hr] at this

theorem bitrev_all_ones (k : Nat) : bitrev k (2 ^ k - 1) = 2 ^ k - 1 := by
  induction k with
  | zero => rfl
  | succ k ih =>
    have h1 : 2 ^ (k + 1) - 1 = 2 * (2 ^ k - 1) + 1 := by
      have : 2 ^ (k + 1) = 2 * 2 ^ k := by ring
      have : 1 ≤ 2 ^ k := Nat.one_le_two_pow
      omega
    rw [h1, bitrev_two_mul_add _ _ _ (by omega), ih]
    have : 1 ≤ 2 ^ k := Nat.one_le_two_pow
    omega

/-- The XOR walk of the builder's bit-reversed loops: stepping the loop
counter from `j` to `j + 1` updates the bit-reversed value by XOR with
`2^k - 2^k / 2 / lowBit64 (j + 1)`. -/
theorem bitrev_succ_xor : ∀ k, k ≤ 64 → ∀ j, j + 1 < 2 ^ k →
    bitrev k (j + 1) = bitrev k j ^^^ (2 ^ k - 2 ^ k / 2 / lowBit64 (j + 1)) := by
  intro k
  induction k with
  | zero => intro _ j hj; simp at hj
  | succ k ih =>
    intro hk64 j hj
    rcases Nat.even_or_odd j with he | ho
    · obtain ⟨a, ha⟩ := he
      have hj' : j = 2 * a := by omega
      subst hj'
      have hodd : (2 * a + 1) % 2 = 1 := by omega
      have hlt64 : 2 * a + 1 < 2 ^ 64 :=
        lt_of_lt_of_le hj (Nat.pow_le_pow_right (by omega) hk64)
      rw [lowBit64_odd hodd hlt64]
      have hterm : 2 ^ (k + 1) - 2 ^ (k + 1) / 2 / 1 = 2 ^ k := by
        rw [Nat.pow_succ]; omega
      have e1 : bitrev (k + 1) (2 * a + 1) = 2 ^ k + bitrev k a := by
        rw [bitrev_two_mul_add k a 1 (by omega)]; omega
      have e2 : bitrev (k + 1) (2 * a) = bitrev k a := by
        simpa using bitrev_two_mul_add k a 0 (by omega)
      rw [hterm, e1, e2, xor_two_pow_of_lt (bitrev_lt k a)]
      omega
    · obtain ⟨a, ha⟩ := ho
      subst ha
      have hk1 : 1 ≤ k := by
        by_contra hcon
        have hzero : k = 0 := by omega
        subst hzero
        simp at hj
        omega
      have ha1 : a + 1 < 2 ^ k := by
        have : 2 ^ (k + 1) = 2 * 2 ^ k := by ring
        omega
      have h63 : a + 1 < 2 ^ 63 :=
        lt_of_lt_of_le ha1 (Nat.pow_le_pow_right (by omega) (by omega))
      have hlow : lowBit64 (2 * a + 1 + 1) = 2 * lowBit64 (a + 1) := by
        rw [show 2 * a + 1 + 1 = 2 * (a + 1) by ring, lowBit64_two_mul (by omega) h63]
      obtain ⟨t, m, hdecomp, hlbt⟩ := lowBit64_spec (a + 1) (by omega)
        (lt_of_lt_of_le h63 (Nat.pow_le_pow_right (by omega) (by omega)))
      have ht : 2 ^ t ≤ a + 1 := by nlinarith [hdecomp]
      have htk : t + 1 ≤ k := by
        by_contra hcon
        have hkt : k ≤ t := by omega
        have : 2 ^ k ≤ 2 ^ t := Nat.pow_le_pow_right (by omega) hkt
        omega
      have hsplit : 2 ^ (k + 1) / 2 / lowBit64 (2 * a + 1 + 1) = 2 ^ (k - 1 - t) := by
        rw [hlow, hlbt]
        have h1 : 2 ^ (k + 1) / 2 = 2 ^ k := by rw [Nat.pow_succ]; omega
        have h2 : (2 : Nat) * 2 ^ t = 2 ^ (t + 1) := by ring
        rw [h1, h2, Nat.pow_div htk (by omega)]
        congr 1
        omega
      have hihdiv : 2 ^ k / 2 / lowBit64 (a + 1) = 2 ^ (k - 1 - t) := by
        rw [hlbt]
        have h1 : 2 ^ k / 2 = 2 ^ (k - 1) := by
          conv_lhs => rw [show k = k - 1 + 1 by omega, Nat.pow_succ]
          omega
        rw [h1, Nat.pow_div (by omega) (by omega)]
      have hih := ih (by omega) a ha1
      rw [hihdiv] at hih
      have e1 : bitrev (k + 1) (2 * a + 1 + 1) = bitrev k (a + 1) := by
        rw [show 2 * a + 1 + 1 = 2 * (a + 1) + 0 by ring]
        simpa using bitrev_two_mul_add k (a + 1) 0 (by omega)
      have e2 : bitrev (k + 1) (2 * a + 1) = 2 ^ k + bitrev k a := by
        rw [bitrev_two_mul_add k a 1 (by omega)]; omega
      have hsk1 : (1 : Nat) ≤ 2 ^ (k - 1 - t) := Nat.one_le_two_pow
      have hskk : 2 ^ (k - 1 - t) ≤ 2 ^ k := Nat.pow_le_pow_right (by omega) (by omega)
      have hT : 2 ^ (k + 1) - 2 ^ (k - 1 - t) = 2 ^ k + (2 ^ k - 2 ^ (k - 1 - t)) := by
        have : 2 ^ (k + 1) = 2 ^ k + 2 ^ k := by rw [Nat.pow_succ]; omega
        omega
      rw [hsplit, e1, e2, hT, two_pow_add_xor (bitrev_lt k a) (by omega), hih]

/-! ### Semantic model of the wavelet matrix

`seqAt L A i` is the sequence at level `i`: `A` stably partitioned `i` times
by the most-significant bits.  The builder's planes and node tables are
proved below to coincide with `planeModel` and `npModel`. -/

/-- The level-`i` bit of `v` (bit `L - i - 1`, MSB first). -/
def bitAt (L i v : Nat) : Nat := (v >>> (L - i - 1)) &&& 1

/-- The `i`-bit prefix of `v` (its top `i` bits). -/
def prefixAt (L i v : Nat) : Nat := v >>> (L - i)

/-- The sequence at level `i`: level `i+1` stably partitions level `i` by
the level-`i` bit, zeros first. -/
def seqAt (L : Nat) (A : List Nat) : Nat → List Nat
  | 0 => A
  | i + 1 =>
    (seqAt L A i).filter (fun v => decide (bitAt L i v = 0)) ++
    (seqAt L A i).filter (fun v => !decide (bitAt L i v = 0))

/-- The level-`i` bit plane: the level-`i` bits in level-`i` order. -/
def planeModel (L : Nat) (A : List Nat) (i : Nat) : List Bool :=
  (seqAt L A i).map (fun v => toBool (bitAt L i v))

/-- Start of the block of `i`-bit prefix `p` in the level-`i` layout: the
number of elements whose bit-reversed prefix is smaller. -/
def startOf (L : Nat) (A : List Nat) (i p : Nat) : Nat :=
  A.countP (fun v => decide (bitrev i (prefixAt L i v) < bitrev i p))

/-- Number of elements with `i`-bit prefix `p`. -/
def cntOf (L : Nat) (A : List Nat) (i p : Nat) : Nat :=
  A.countP (fun v => decide (prefixAt L i v = p))

/-- The model of `nodePos[i]`: for each `(i+1)`-bit prefix `q`, the start of
its block in the level-`(i+1)` layout. -/
def npModel (L : Nat) (A : List Nat) (i : Nat) : List Nat :=
  (List.range (2 ^ (i + 1))).map (fun q => startOf L A (i + 1) q)

theorem bitAt_le_one (L i v : Nat) : bitAt L i v ≤ 1 := by
  unfold bitAt
  rw [Nat.and_one_is_mod]
  omega

theorem prefixAt_succ {L i : Nat} (v : Nat) (hi : i < L) :
    prefixAt L (i + 1) v = 2 * prefixAt L i v + bitAt L i v := by
  unfold prefixAt bitAt
  obtain ⟨M, hM1, hM2⟩ : ∃ M, L - i = M + 1 ∧ L - (i + 1) = M :=
    ⟨L - i - 1, by omega, by omega⟩
  rw [hM1, hM2]
  simp only [Nat.add_sub_cancel]
  rw [Nat.shiftRight_succ, Nat.and_one_is_mod]
  omega

theorem prefixAt_lt {L i : Nat} {v : Nat} (hv : v < 2 ^ L) (hi : i ≤ L) :
    prefixAt L i v < 2 ^ i := by
  unfold prefixAt
  rw [Nat.shiftRight_eq_div_pow]
  have h1 : 2 ^ L = 2 ^ (L - i) * 2 ^ i := by
    rw [← Nat.pow_add]
    congr 1
    omega
  exact Nat.div_lt_of_lt_mul (by omega)

theorem prefixAt_self (L v : Nat) : prefixAt L L v = v := by
  simp [prefixAt]

theorem prefixAt_zero {L : Nat} {v : Nat} (hv : v < 2 ^ L) : prefixAt L 0 v = 0 := by
  unfold prefixAt
  rw [Nat.sub_zero, Nat.shiftRight_eq_div_pow]
  exact Nat.div_eq_of_lt hv

theorem countP_not_add {α : Type} (p : α → Bool) (l : List α) :
    l.countP p + l.countP (fun a => !p a) = l.length := by
  induction l with
  | nil => simp
  | cons x xs ih =>
    rw [List.countP_cons, List.countP_cons]
    cases h : p x <;> simp [h] <;> omega

theorem seqAt_length (L : Nat) (A : List Nat) (i : Nat) :
    (seqAt L A i).length = A.length := by
  induction i with
  | zero => rfl
  | succ i ih =>
    rw [seqAt, List.length_append, ← ih,
      ← List.countP_eq_length_filter, ← List.countP_eq_length_filter]
    exact countP_not_add _ _

theorem countP_or_disjoint {α : Type} (f g : α → Bool) (l : List α)
    (h : ∀ v ∈ l, ¬(f v = true ∧ g v = true)) :
    l.countP (fun v => f v || g v) = l.countP f + l.countP g := by
  induction l with
  | nil => simp
  | cons x xs ih =>
    rw [List.countP_cons, List.countP_cons, List.countP_cons,
      ih (fun v hv => h v (List.mem_cons_of_mem x hv))]
    have := h x (List.mem_cons_self x xs)
    cases hf : f x <;> cases hg : g x <;> simp [hf, hg] at this ⊢ <;> omega

theorem countP_mono_pred {α : Type} (f g : α → Bool) (l : List α)
    (h : ∀ v ∈ l, f v = true → g v = true) : l.countP f ≤ l.countP g := by
  induction l with
  | nil => simp
  | cons x xs ih =>
    rw [List.countP_cons, List.countP_cons]
    have hx := h x (List.mem_cons_self x xs)
    have := ih (fun v hv => h v (List.mem_cons_of_mem x hv))
    cases hf : f x
    · simp; omega
    · simp [hx hf]; omega

theorem countP_congr_pred {α : Type} (f g : α → Bool) (l : List α)
    (h : ∀ v ∈ l, f v = g v) : l.countP f = l.countP g := by
  induction l with
  | nil => simp
  | cons x xs ih =>
    rw [List.countP_cons, List.countP_cons,
      ih (fun v hv => h v (List.mem_cons_of_mem x hv)), h x (List.mem_cons_self x xs)]

/-! ### Layout: block order, cumulative starts, flatten form of `seqAt` -/

theorem sum_cnt_eq_countP (L : Nat) (A : List Nat) (i : Nat)
    (hA : ∀ v ∈ A, prefixAt L i v < 2 ^ i) :
    ∀ m, m ≤ 2 ^ i →
    ((List.range m).map (fun j => cntOf L A i (bitrev i j))).sum =
      A.countP (fun v => decide (bitrev i (prefixAt L i v) < m)) := by
  intro m
  induction m with
  | zero =>
    intro _
    simp
  | succ m ih =>
    intro hm
    rw [List.range_succ, List.map_append, List.sum_append, ih (by omega)]
    simp only [List.map_cons, List.map_nil, List.sum_cons, List.sum_nil]
    have hsplit : A.countP (fun v => decide (bitrev i (prefixAt L i v) < m + 1)) =
        A.countP (fun v => decide (bitrev i (prefixAt L i v) < m)) +
        A.countP (fun v => decide (bitrev i (prefixAt L i v) = m)) := by
      rw [← countP_or_disjoint _ _ _ (by intro v _ ⟨h1, h2⟩; simp at h1 h2; omega)]
      apply countP_congr_pred
      intro v _
      by_cases h : bitrev i (prefixAt L i v) < m + 1 <;> simp [h] <;> omega
    rw [hsplit]
    have hcnt : A.countP (fun v => decide (bitrev i (prefixAt L i v) = m)) =
        cntOf L A i (bitrev i m) := by
      apply countP_congr_pred
      intro v hv
      have hp := hA v hv
      by_cases h : prefixAt L i v = bitrev i m
      · simp [h, bitrev_bitrev i m (by omega)]
      · have : bitrev i (prefixAt L i v) ≠ m := by
          intro hcon
          exact h (by rw [← bitrev_bitrev i (prefixAt L i v) hp, hcon])
        simp [h, this]
    rw [hcnt]
    omega

theorem startOf_layout (L : Nat) (A : List Nat) (i : Nat)
    (hA : ∀ v ∈ A, prefixAt L i v < 2 ^ i) (m : Nat) (hm : m < 2 ^ i) :
    startOf L A i (bitrev i m) =
      ((List.range m).map (fun j => cntOf L A i (bitrev i j))).sum := by
  rw [sum_cnt_eq_countP L A i hA m (by omega)]
  unfold startOf
  apply countP_congr_pred
  intro v hv
  rw [bitrev_bitrev i m hm]

theorem startOf_layout_succ (L : Nat) (A : List Nat) (i : Nat)
    (hA : ∀ v ∈ A, prefixAt L i v < 2 ^ i) (m : Nat) (hm : m + 1 < 2 ^ i) :
    startOf L A i (bitrev i (m + 1)) =
      startOf L A i (bitrev i m) + cntOf L A i (bitrev i m) := by
  rw [startOf_layout L A i hA (m + 1) hm, startOf_layout L A i hA m (by omega),
    List.range_succ, List.map_append, List.sum_append]
  simp

theorem seqAt_flatten (L : Nat) (A : List Nat) (hA : ∀ v ∈ A, v < 2 ^ L) :
    ∀ i, i ≤ L →
    seqAt L A i = ((List.range (2 ^ i)).map
      (fun m => A.filter (fun v => decide (prefixAt L i v = bitrev i m)))).flatten := by
  intro i
  induction i with
  | zero =>
    intro _
    simp only [seqAt, pow_zero, show List.range 1 = [0] from rfl, List.map_cons,
      List.map_nil, List.flatten_cons, List.flatten_nil, List.append_nil]
    symm
    rw [List.filter_eq_self]
    intro v hv
    simp [prefixAt_zero (hA v hv), bitrev]
  | succ i ih =>
    intro hi
    have hIH := ih (by omega)
    have hpow : 2 ^ (i + 1) = 2 ^ i + 2 ^ i := by rw [Nat.pow_succ]; omega
    have hL0 : ∀ m, m < 2 ^ i →
        List.filter (fun v => decide (bitAt L i v = 0))
          (A.filter (fun v => decide (prefixAt L i v = bitrev i m))) =
        A.filter (fun v => decide (prefixAt L (i + 1) v = bitrev (i + 1) m)) := by
      intro m hmlt
      rw [List.filter_filter]
      apply List.filter_congr
      intro v hv
      have hb := bitAt_le_one L i v
      have hpfx := prefixAt_succ v (show i < L by omega)
      have hbr : bitrev (i + 1) m = 2 * bitrev i m := by
        simpa using bitrev_msb i m 0 (by omega) hmlt
      rw [hpfx, hbr]
      by_cases h1 : bitAt L i v = 0 <;> by_cases h2 : prefixAt L i v = bitrev i m <;>
        simp [h1, h2] <;> omega
    have hL1 : ∀ m, m < 2 ^ i →
        List.filter (fun v => !decide (bitAt L i v = 0))
          (A.filter (fun v => decide (prefixAt L i v = bitrev i m))) =
        A.filter (fun v => decide (prefixAt L (i + 1) v = bitrev (i + 1) (2 ^ i + m))) := by
      intro m hmlt
      rw [List.filter_filter]
      apply List.filter_congr
      intro v hv
      have hb := bitAt_le_one L i v
      have hpfx := prefixAt_succ v (show i < L by omega)
      have hbr : bitrev (i + 1) (2 ^ i + m) = 2 * bitrev i m + 1 := by
        have h1 := bitrev_msb i m 1 (by omega) hmlt
        rw [Nat.one_mul] at h1
        exact h1
      rw [hpfx, hbr]
      by_cases h1 : bitAt L i v = 0 <;> by_cases h2 : prefixAt L i v = bitrev i m <;>
        simp [h1, h2] <;> omega
    rw [seqAt, hIH, List.filter_flatten, List.filter_flatten, List.map_map, List.map_map,
      hpow, List.range_add, List.map_append, List.flatten_append]
    congr 1
    · apply congrArg
      apply List.map_congr_left
      intro m hm
      exact hL0 m (List.mem_range.mp hm)
    · rw [List.map_map]
      apply congrArg
      apply List.map_congr_left
      intro m hm
      exact hL1 m (List.mem_range.mp hm)

theorem flatten_take {α : Type} :
    ∀ (Ls : List (List α)) (m : Nat),
    Ls.flatten.take (((Ls.take m).map List.length).sum) = (Ls.take m).flatten := by
  intro Ls
  induction Ls with
  | nil => intro m; simp
  | cons l ls ih =>
    intro m
    cases m with
    | zero => simp
    | succ m =>
      simp only [List.take_succ_cons, List.map_cons, List.sum_cons, List.flatten_cons]
      rw [List.take_append, ih m]

theorem flatten_drop {α : Type} :
    ∀ (Ls : List (List α)) (m : Nat),
    Ls.flatten.drop (((Ls.take m).map List.length).sum) = (Ls.drop m).flatten := by
  intro Ls
  induction Ls with
  | nil => intro m; simp
  | cons l ls ih =>
    intro m
    cases m with
    | zero => simp
    | succ m =>
      simp only [List.take_succ_cons, List.map_cons, List.sum_cons, List.flatten_cons,
        List.drop_succ_cons]
      rw [List.drop_append, ih m]

/-! ### Correctness of the builder's per-level write pass -/

theorem getD_set_self {α : Type} (l : List α) (m : Nat) (a d : α) (h : m < l.length) :
    (l.set m a).getD m d = a := by
  rw [List.getD_eq_getElem?_getD, List.getElem?_set_self h]
  rfl

theorem getD_set_ne {α : Type} (l : List α) (m k : Nat) (a d : α) (h : m ≠ k) :
    (l.set m a).getD k d = l.getD k d := by
  rw [List.getD_eq_getElem?_getD, List.getElem?_set_ne h, ← List.getD_eq_getElem?_getD]

theorem two_mul_or_bit (a b : Nat) (hb : b ≤ 1) : 2 * a ||| b = 2 * a + b := by
  apply Nat.eq_of_testBit_eq
  intro i
  match i with
  | 0 =>
    rw [Nat.testBit_or]
    simp only [Nat.testBit_zero]
    have h2a : 2 * a % 2 = 0 := by omega
    have h2ab : (2 * a + b) % 2 = b := by omega
    rw [h2a, h2ab]
    cases hb' : b <;> simp_all
  | i + 1 =>
    rw [Nat.testBit_or, Nat.testBit_add_one, Nat.testBit_add_one, Nat.testBit_add_one]
    have h1 : 2 * a / 2 = a := by omega
    have h2 : (2 * a + b) / 2 = a := by omega
    have h3 : b / 2 = 0 := by omega
    rw [h1, h2, h3]
    simp

theorem startOf_add_cnt_le (L : Nat) (A : List Nat) (i p : Nat) :
    startOf L A i p + cntOf L A i p ≤ A.length := by
  unfold startOf cntOf
  rw [← countP_or_disjoint _ _ _ ?hdisj]
  · exact List.countP_le_length _
  case hdisj =>
    intro v _ ⟨h1, h2⟩
    simp only [decide_eq_true_eq] at h1 h2
    rw [h2] at h1
    omega

theorem startOf_block_le (L : Nat) (A : List Nat) (i p p' : Nat)
    (h : bitrev i p < bitrev i p') :
    startOf L A i p + cntOf L A i p ≤ startOf L A i p' := by
  unfold startOf cntOf
  rw [← countP_or_disjoint _ _ _ ?hdisj]
  · apply countP_mono_pred
    intro v _ hv
    simp only [Bool.or_eq_true, decide_eq_true_eq] at hv ⊢
    rcases hv with h1 | h2
    · omega
    · rw [h2]; omega
  case hdisj =>
    intro v _ ⟨h1, h2⟩
    simp only [decide_eq_true_eq] at h1 h2
    rw [h2] at h1
    omega

theorem countP_prefix_le {α : Type} (p : α → Bool) (P X : List α) :
    P.countP p ≤ (P ++ X).countP p := by
  rw [List.countP_append]
  omega

/-- Invariant of the builder's write loop at level `i` after processing the
prefix `P` of the source: the buffer holds the bits of each block's processed
elements, the cursors sit at block start plus processed count, and the
histogram counts `(i+1)`-bit prefixes. -/
def wpState (L : Nat) (A : List Nat) (i : Nat) (cur0 : List Nat) (P : List Nat)
    (st : List Bool × List Nat × List Nat) : Prop :=
  st.1.length = A.length ∧
  (∀ p, p < 2 ^ i → ∀ r, r < cntOf L P i p →
    st.1.getD (startOf L A i p + r) false =
      toBool (bitAt L i ((P.filter (fun v => decide (prefixAt L i v = p))).getD r 0))) ∧
  st.2.1.length = cur0.length ∧
  (∀ p, p < 2 ^ i → st.2.1.getD p 0 = startOf L A i p + cntOf L P i p) ∧
  (∀ p, 2 ^ i ≤ p → st.2.1.getD p 0 = cur0.getD p 0) ∧
  st.2.2.length = 2 ^ (i + 1) ∧
  (∀ q, q < 2 ^ (i + 1) → st.2.2.getD q 0 = cntOf L (i := i + 1) P q)

theorem writeStep_inv (L : Nat) (A : List Nat) (i : Nat) (hiL : i < L)
    (hA : ∀ v ∈ A, v < 2 ^ L) (cur0 : List Nat) (hcur0 : 2 ^ i ≤ cur0.length)
    (P R : List Nat) (v : Nat) (hPA : A = P ++ v :: R)
    (st : List Bool × List Nat × List Nat) (hst : wpState L A i cur0 P st) :
    wpState L A i cur0 (P ++ [v]) (writeStep L i st v) := by
  obtain ⟨hblen, hbuf, hclen, hcur, hcpre, hhlen, hhist⟩ := hst
  have hvA : v ∈ A := by rw [hPA]; exact List.mem_append_right _ (List.mem_cons_self v R)
  have hvL : v < 2 ^ L := hA v hvA
  have hp0lt : prefixAt L i v < 2 ^ i := prefixAt_lt hvL (by omega)
  have hbit := bitAt_le_one L i v
  have hidx : (prefixAt L i v <<< 1) ||| bitAt L i v = 2 * prefixAt L i v + bitAt L i v := by
    rw [Nat.shiftLeft_eq, pow_one, Nat.mul_comm, two_mul_or_bit _ _ hbit]
  have hws : writeStep L i st v =
      (st.1.set (st.2.1.getD (prefixAt L i v) 0) (toBool (bitAt L i v)),
       st.2.1.set (prefixAt L i v) (st.2.1.getD (prefixAt L i v) 0 + 1),
       st.2.2.set (2 * prefixAt L i v + bitAt L i v)
         (st.2.2.getD (2 * prefixAt L i v + bitAt L i v) 0 + 1)) := by
    show (st.1.set (st.2.1.getD (prefixAt L i v) 0) (toBool (bitAt L i v)),
       st.2.1.set (prefixAt L i v) (st.2.1.getD (prefixAt L i v) 0 + 1),
       st.2.2.set ((prefixAt L i v <<< 1) ||| bitAt L i v)
         (st.2.2.getD ((prefixAt L i v <<< 1) ||| bitAt L i v) 0 + 1)) = _
    rw [hidx]
  rw [hws]
  have hcntP : ∀ j p, cntOf L (P ++ [v]) j p =
      cntOf L P j p + if prefixAt L j v = p then 1 else 0 := by
    intro j p
    unfold cntOf
    rw [List.countP_append]
    simp [List.countP_cons]
  have hcntPlt : cntOf L P i (prefixAt L i v) < cntOf L A i (prefixAt L i v) := by
    conv_rhs => rw [hPA]
    unfold cntOf
    rw [List.countP_append, List.countP_cons]
    simp
  have hposlt : startOf L A i (prefixAt L i v) + cntOf L P i (prefixAt L i v) < A.length := by
    have h1 := startOf_add_cnt_le L A i (prefixAt L i v)
    omega
  have hfl : ∀ p, (P.filter (fun w => decide (prefixAt L i w = p))).length =
      cntOf L P i p := by
    intro p
    unfold cntOf
    rw [List.countP_eq_length_filter]
  refine ⟨?_, ?_, ?_, ?_, ?_, ?_, ?_⟩
  · show (st.1.set _ _).length = A.length
    rw [List.length_set]
    exact hblen
  · -- buffer contents
    intro p hp r hr
    show (st.1.set (st.2.1.getD (prefixAt L i v) 0) (toBool (bitAt L i v))).getD
        (startOf L A i p + r) false = _
    rw [hcur _ hp0lt]
    by_cases hpp : prefixAt L i v = p
    · rw [hpp] at hposlt hcntPlt ⊢
      rw [hcntP, if_pos hpp] at hr
      by_cases hrr : r = cntOf L P i p
      · subst hrr
        rw [getD_set_self _ _ _ _ (by rw [hblen]; exact hposlt)]
        rw [List.filter_append, show List.filter
            (fun w => decide (prefixAt L i w = p)) [v] = [v] by simp [hpp]]
        rw [List.getD_eq_getElem?_getD, List.getElem?_append, hfl p]
        simp
      · have hrlt : r < cntOf L P i p := by omega
        rw [getD_set_ne _ _ _ _ _ (by omega)]
        rw [hbuf p hp r hrlt]
        congr 2
        rw [List.filter_append,
          List.getD_eq_getElem?_getD, List.getD_eq_getElem?_getD,
          List.getElem?_append, hfl p, if_pos (by omega)]
    · have hrP : r < cntOf L P i p := by
        rw [hcntP, if_neg hpp] at hr
        omega
      have hbrne : bitrev i p ≠ bitrev i (prefixAt L i v) := by
        intro hcon
        exact hpp (bitrev_inj hp0lt hp hcon.symm)
      have hne : startOf L A i p + r ≠
          startOf L A i (prefixAt L i v) + cntOf L P i (prefixAt L i v) := by
        rcases Nat.lt_or_ge (bitrev i p) (bitrev i (prefixAt L i v)) with hlt | hge
        · have h1 := startOf_block_le L A i p (prefixAt L i v) hlt
          have h2 : cntOf L P i p ≤ cntOf L A i p := by
            conv_rhs => rw [hPA]
            unfold cntOf
            rw [List.countP_append]
            omega
          omega
        · have hlt2 : bitrev i (prefixAt L i v) < bitrev i p := by omega
          have h1 := startOf_block_le L A i (prefixAt L i v) p hlt2
          omega
      rw [getD_set_ne _ _ _ _ _ (by omega)]
      rw [hbuf p hp r hrP]
      congr 2
      rw [List.filter_append, show List.filter (fun w => decide (prefixAt L i w = p)) [v]
          = [] by simp [hpp]]
      rw [List.append_nil]
  · show (st.2.1.set _ _).length = cur0.length
    rw [List.length_set]; exact hclen
  · intro p hp
    show (st.2.1.set (prefixAt L i v) (st.2.1.getD (prefixAt L i v) 0 + 1)).getD p 0 = _
    by_cases hpp : prefixAt L i v = p
    · rw [hpp] at hp0lt ⊢
      rw [getD_set_self _ _ _ _ (by rw [hclen]; omega), hcur p hp, hcntP,
        if_pos hpp]
      omega
    · rw [getD_set_ne _ _ _ _ _ hpp, hcur p hp, hcntP, if_neg hpp]
      omega
  · intro p hp
    show (st.2.1.set (prefixAt L i v) _).getD p 0 = _
    rw [getD_set_ne _ _ _ _ _ (by omega), hcpre p hp]
  · show (st.2.2.set _ _).length = 2 ^ (i + 1)
    rw [List.length_set]; exact hhlen
  · intro q hq
    have hq0lt : prefixAt L (i + 1) v < 2 ^ (i + 1) := prefixAt_lt hvL (by omega)
    have hq0eq : 2 * prefixAt L i v + bitAt L i v = prefixAt L (i + 1) v :=
      (prefixAt_succ v hiL).symm
    show (st.2.2.set (2 * prefixAt L i v + bitAt L i v)
        (st.2.2.getD (2 * prefixAt L i v + bitAt L i v) 0 + 1)).getD q 0 = _
    rw [hq0eq]
    by_cases hqq : prefixAt L (i + 1) v = q
    · rw [hqq] at hq0lt ⊢
      rw [getD_set_self _ _ _ _ (by rw [hhlen]; omega), hhist _ hq, hcntP,
        if_pos hqq]
    · rw [getD_set_ne _ _ _ _ _ hqq, hhist q hq, hcntP, if_neg hqq]
      omega

theorem writePass_inv (L : Nat) (A : List Nat) (i : Nat) (hiL : i < L)
    (hA : ∀ v ∈ A, v < 2 ^ L) (cur0 : List Nat) (hcur0 : 2 ^ i ≤ cur0.length) :
    ∀ (R P : List Nat), A = P ++ R →
    ∀ st, wpState L A i cur0 P st →
    wpState L A i cur0 A (R.foldl (writeStep L i) st) := by
  intro R
  induction R with
  | nil =>
    intro P hPA st hst
    rw [List.foldl_nil]
    have hAP : P = A := by rw [hPA, List.append_nil]
    subst hAP
    exact hst
  | cons v R ih =>
    intro P hPA st hst
    rw [List.foldl_cons]
    exact ih (P ++ [v]) (by rw [hPA, List.append_assoc]; rfl) _
      (writeStep_inv L A i hiL hA cur0 hcur0 P R v hPA st hst)

/-! ### The final write buffer is the model bit plane -/

theorem getD_replicate_val {α : Type} (n m : Nat) (a d : α) :
    (List.replicate n a).getD m d = if m < n then a else d := by
  rw [List.getD_eq_getElem?_getD, List.getElem?_replicate]
  by_cases h : m < n <;> simp [h]

theorem cnt_total (L : Nat) (A : List Nat) (i : Nat)
    (hA : ∀ v ∈ A, prefixAt L i v < 2 ^ i) :
    ((List.range (2 ^ i)).map (fun j => cntOf L A i (bitrev i j))).sum = A.length := by
  rw [sum_cnt_eq_countP L A i hA (2 ^ i) (le_refl _)]
  conv_rhs => rw [← List.countP_true (α := Nat)]
  apply countP_congr_pred
  intro v _
  simp [bitrev_lt i (prefixAt L i v)]

theorem buffer_eq_planeModel (L : Nat) (A : List Nat) (i : Nat) (hiL : i < L)
    (hA : ∀ v ∈ A, v < 2 ^ L) (buffer : List Bool)
    (hlen : buffer.length = A.length)
    (hbuf : ∀ p, p < 2 ^ i → ∀ r, r < cntOf L A i p →
      buffer.getD (startOf L A i p + r) false =
        toBool (bitAt L i ((A.filter (fun v => decide (prefixAt L i v = p))).getD r 0))) :
    buffer = planeModel L A i := by
  have hApfx : ∀ v ∈ A, prefixAt L i v < 2 ^ i := fun v hv =>
    prefixAt_lt (hA v hv) (by omega)
  have hplane : planeModel L A i = ((List.range (2 ^ i)).map
      (fun m => (A.filter (fun v => decide (prefixAt L i v = bitrev i m))).map
        (fun v => toBool (bitAt L i v)))).flatten := by
    unfold planeModel
    rw [seqAt_flatten L A hA i (by omega), List.map_flatten, List.map_map]
    rfl
  have hflen : ∀ p, (A.filter (fun v => decide (prefixAt L i v = p))).length =
      cntOf L A i p := by
    intro p
    unfold cntOf
    rw [List.countP_eq_length_filter]
  -- prefix-by-prefix: the first `m` blocks of the buffer
  have aux : ∀ m, m ≤ 2 ^ i →
      buffer.take (((List.range m).map (fun j => cntOf L A i (bitrev i j))).sum) =
      ((List.range m).map
        (fun mm => (A.filter (fun v => decide (prefixAt L i v = bitrev i mm))).map
          (fun v => toBool (bitAt L i v)))).flatten := by
    intro m
    induction m with
    | zero => intro _; simp
    | succ m ih =>
      intro hm
      rw [List.range_succ, List.map_append, List.sum_append, List.map_append,
        List.flatten_append, ← ih (by omega)]
      simp only [List.map_cons, List.map_nil, List.sum_cons, List.sum_nil,
        List.flatten_cons, List.flatten_nil, List.append_nil]
      rw [Nat.add_zero, List.take_add]
      congr 1
      -- the m-th segment
      have hoff : ((List.range m).map (fun j => cntOf L A i (bitrev i j))).sum =
          startOf L A i (bitrev i m) := (startOf_layout L A i hApfx m (by omega)).symm
      rw [hoff]
      have hole : startOf L A i (bitrev i m) + cntOf L A i (bitrev i m) ≤ A.length :=
        startOf_add_cnt_le L A i (bitrev i m)
      apply List.ext_getElem
      · rw [List.length_take, List.length_drop, List.length_map, hflen, hlen]
        omega
      · intro r h1 h2
        rw [List.getElem_take, List.getElem_drop, List.getElem_map]
        have hr : r < cntOf L A i (bitrev i m) := by
          rw [List.length_map, hflen] at h2
          exact h2
        have := hbuf (bitrev i m) (bitrev_lt i m) r hr
        rw [List.getD_eq_getElem?_getD, List.getElem?_eq_getElem
          (by omega : startOf L A i (bitrev i m) + r < buffer.length)] at this
        simp only [Option.getD_some] at this
        rw [this, List.getD_eq_getElem?_getD, List.getElem?_eq_getElem
          (by rw [hflen]; exact hr)]
        rfl
  have hfinal := aux (2 ^ i) (le_refl _)
  rw [cnt_total L A i hApfx, ← hlen, List.take_length] at hfinal
  rw [hfinal, hplane]

/-! ### The bit-reversed prefix-sum and cursor-restore loops -/

theorem psLoop_succ_step (curMax fuel j rev sum : Nat) (arr : List Nat)
    (h : j < curMax) :
    psLoop curMax (fuel + 1) j rev sum arr =
    psLoop curMax fuel (j + 1) (rev ^^^ (curMax - curMax / 2 / lowBit64 (j + 1)))
      (sum + arr.getD rev 0) (arr.set rev sum) := by
  simp only [psLoop, if_pos h]

theorem permLoop_succ_step (curMax j rev prevRev : Nat) (arr : List Nat) :
    permLoop curMax (j + 1) rev prevRev arr =
    permLoop curMax j (rev ^^^ (curMax - curMax / 2 / lowBit64 (j + 1)))
      (rev ^^^ (curMax - curMax / 2 / lowBit64 (j + 1)))
      (arr.set prevRev (arr.getD (rev ^^^ (curMax - curMax / 2 / lowBit64 (j + 1))) 0)) := by
  simp only [permLoop]

theorem psLoop_inv (k : Nat) (hk : k ≤ 64) (h0 : List Nat) :
    ∀ fuel j arr,
    j + fuel = 2 ^ k →
    arr.length = 2 ^ k →
    (∀ q, q < 2 ^ k → arr.getD q 0 =
      if bitrev k q < j then
        ((List.range (bitrev k q)).map (fun m => h0.getD (bitrev k m) 0)).sum
      else h0.getD q 0) →
    (psLoop (2 ^ k) fuel j (bitrev k j)
        (((List.range j).map (fun m => h0.getD (bitrev k m) 0)).sum) arr).length = 2 ^ k ∧
    ∀ q, q < 2 ^ k → (psLoop (2 ^ k) fuel j (bitrev k j)
        (((List.range j).map (fun m => h0.getD (bitrev k m) 0)).sum) arr).getD q 0 =
      ((List.range (bitrev k q)).map (fun m => h0.getD (bitrev k m) 0)).sum := by
  intro fuel
  induction fuel with
  | zero =>
    intro j arr hj hlen hinv
    rw [psLoop]
    refine ⟨hlen, fun q hq => ?_⟩
    rw [hinv q hq, if_pos (by have := bitrev_lt k q; omega)]
  | succ fuel ih =>
    intro j arr hj hlen hinv
    have hjlt : j < 2 ^ k := by omega
    rw [psLoop_succ_step _ _ _ _ _ _ hjlt]
    have hread : arr.getD (bitrev k j) 0 = h0.getD (bitrev k j) 0 := by
      rw [hinv (bitrev k j) (bitrev_lt k j), bitrev_bitrev k j hjlt,
        if_neg (by omega)]
    have hsum : ((List.range j).map (fun m => h0.getD (bitrev k m) 0)).sum +
        arr.getD (bitrev k j) 0 =
        ((List.range (j + 1)).map (fun m => h0.getD (bitrev k m) 0)).sum := by
      rw [hread, List.range_succ, List.map_append, List.sum_append]
      simp
    have hinv' : ∀ q, q < 2 ^ k →
        (arr.set (bitrev k j) (((List.range j).map
          (fun m => h0.getD (bitrev k m) 0)).sum)).getD q 0 =
        if bitrev k q < j + 1 then
          ((List.range (bitrev k q)).map (fun m => h0.getD (bitrev k m) 0)).sum
        else h0.getD q 0 := by
      intro q hq
      by_cases hqj : q = bitrev k j
      · subst hqj
        rw [getD_set_self _ _ _ _ (by rw [hlen]; exact bitrev_lt k j),
          bitrev_bitrev k j hjlt, if_pos (by omega)]
      · rw [getD_set_ne _ _ _ _ _ (fun hx => hqj hx.symm), hinv q hq]
        have hbne : bitrev k q ≠ j := by
          intro hcon
          exact hqj (by rw [← hcon, bitrev_bitrev k q hq])
        by_cases hlt : bitrev k q < j
        · rw [if_pos hlt, if_pos (by omega)]
        · rw [if_neg hlt, if_neg (by omega)]
    by_cases hj1 : j + 1 < 2 ^ k
    · have hrev : bitrev k j ^^^ (2 ^ k - 2 ^ k / 2 / lowBit64 (j + 1)) =
          bitrev k (j + 1) := (bitrev_succ_xor k hk j hj1).symm
      rw [hsum, hrev]
      exact ih (j + 1) _ (by omega) (by rw [List.length_set]; exact hlen) hinv'
    · have hfuel : fuel = 0 := by omega
      subst hfuel
      rw [psLoop]
      refine ⟨by rw [List.length_set]; exact hlen, fun q hq => ?_⟩
      rw [hinv' q hq, if_pos (by have := bitrev_lt k q; omega)]

theorem permLoop_inv (k : Nat) (hk : k ≤ 64) (a0 : List Nat)
    (hlen0 : 2 ^ k ≤ a0.length) :
    ∀ j arr, j < 2 ^ k →
    arr.length = a0.length →
    (∀ q, arr.getD q 0 =
      if j < bitrev k q ∧ q < 2 ^ k then a0.getD (bitrev k (bitrev k q - 1)) 0
      else a0.getD q 0) →
    (permLoop (2 ^ k) j (bitrev k j) (bitrev k j) arr).length = a0.length ∧
    ∀ q, (permLoop (2 ^ k) j (bitrev k j) (bitrev k j) arr).getD q 0 =
      if 0 < bitrev k q ∧ q < 2 ^ k then a0.getD (bitrev k (bitrev k q - 1)) 0
      else a0.getD q 0 := by
  intro j
  induction j with
  | zero =>
    intro arr hj hlen hinv
    rw [permLoop]
    exact ⟨hlen, hinv⟩
  | succ j ih =>
    intro arr hj hlen hinv
    rw [permLoop_succ_step]
    have hrev : bitrev k (j + 1) ^^^ (2 ^ k - 2 ^ k / 2 / lowBit64 (j + 1)) =
        bitrev k j := by
      rw [bitrev_succ_xor k hk j hj]
      exact Nat.xor_cancel_right _ _
    rw [hrev]
    have hread : arr.getD (bitrev k j) 0 = a0.getD (bitrev k j) 0 := by
      rw [hinv (bitrev k j)]
      rw [if_neg (by rw [bitrev_bitrev k j (by omega)]; omega)]
    have hinv' : ∀ q, (arr.set (bitrev k (j + 1)) (arr.getD (bitrev k j) 0)).getD q 0 =
        if j < bitrev k q ∧ q < 2 ^ k then a0.getD (bitrev k (bitrev k q - 1)) 0
        else a0.getD q 0 := by
      intro q
      by_cases hqj : q = bitrev k (j + 1)
      · subst hqj
        rw [getD_set_self _ _ _ _ (by rw [hlen]; have := bitrev_lt k (j + 1); omega), hread,
          bitrev_bitrev k (j + 1) hj]
        rw [if_pos ⟨by omega, bitrev_lt k (j + 1)⟩]
        simp
      · rw [getD_set_ne _ _ _ _ _ (fun hx => hqj hx.symm), hinv q]
        by_cases hq2 : q < 2 ^ k
        · have hbne : bitrev k q ≠ j + 1 := by
            intro hcon
            exact hqj (by rw [← hcon, bitrev_bitrev k q hq2])
          by_cases hlt : j + 1 < bitrev k q
          · rw [if_pos ⟨by omega, hq2⟩, if_pos ⟨by omega, hq2⟩]
          · rw [if_neg (by omega), if_neg (by omega)]
        · rw [if_neg (by omega), if_neg (by omega)]
    exact ih _ (by omega) (by rw [List.length_set]; exact hlen) hinv'

/-! ### Per-level builder correctness -/

theorem startOf_zero (L : Nat) (A : List Nat) (i : Nat) : startOf L A i 0 = 0 := by
  unfold startOf
  rw [bitrev_zero_eq]
  simp

theorem restoreCursors_spec (k : Nat) (hk : k ≤ 64) (a0 : List Nat)
    (hlen0 : 2 ^ k ≤ a0.length) :
    (restoreCursors (2 ^ k) a0).length = a0.length ∧
    (∀ q, q < 2 ^ k → (restoreCursors (2 ^ k) a0).getD q 0 =
      if q = 0 then 0 else a0.getD (bitrev k (bitrev k q - 1)) 0) ∧
    (∀ q, 2 ^ k ≤ q → (restoreCursors (2 ^ k) a0).getD q 0 = a0.getD q 0) := by
  have h1 : (1 : Nat) ≤ 2 ^ k := Nat.one_le_two_pow
  have hperm := permLoop_inv k hk a0 hlen0 (2 ^ k - 1) a0 (by omega) rfl ?hinv0
  case hinv0 =>
    intro q
    rw [if_neg]
    intro ⟨hc, hq⟩
    have := bitrev_lt k q
    omega
  rw [bitrev_all_ones k] at hperm
  obtain ⟨hplen, hpval⟩ := hperm
  unfold restoreCursors
  refine ⟨by rw [List.length_set]; exact hplen, ?_, ?_⟩
  · intro q hq
    by_cases hq0 : q = 0
    · subst hq0
      rw [if_pos rfl, getD_set_self _ _ _ _ (by rw [hplen]; omega)]
    · rw [if_neg hq0, getD_set_ne _ _ _ _ _ (fun hx => hq0 hx.symm), hpval q]
      have hbq : 0 < bitrev k q := by
        rcases Nat.eq_zero_or_pos (bitrev k q) with hz | hp
        · exfalso
          apply hq0
          have := bitrev_inj (k := k) hq (by omega : 0 < 2 ^ k) (by
            rw [hz, bitrev_zero_eq])
          exact this
        · exact hp
      rw [if_pos ⟨hbq, hq⟩]
  · intro q hq
    rw [getD_set_ne _ _ _ _ _ (by omega), hpval q,
      if_neg (by intro ⟨h1', h2'⟩; omega)]

theorem buildLevel_spec (L : Nat) (hL : L ≤ 64) (A : List Nat) (i : Nat) (hiL : i < L)
    (hA : ∀ v ∈ A, v < 2 ^ L) (cur0 : List Nat)
    (hlen0 : 2 ^ i ≤ cur0.length)
    (hcur0 : ∀ p, p < 2 ^ i → cur0.getD p 0 = startOf L A i p) :
    buildLevel L A.length A i cur0 = (planeModel L A i, cur0, npModel L A i) := by
  have hApfx : ∀ v ∈ A, prefixAt L i v < 2 ^ i := fun v hv =>
    prefixAt_lt (hA v hv) (by omega)
  have hApfx1 : ∀ v ∈ A, prefixAt L (i + 1) v < 2 ^ (i + 1) := fun v hv =>
    prefixAt_lt (hA v hv) (by omega)
  have hcnt0 : ∀ j p, cntOf L ([] : List Nat) j p = 0 := by
    intro j p
    unfold cntOf
    rfl
  have hshl : (1 : Nat) <<< (i + 1) = 2 ^ (i + 1) := Nat.one_shiftLeft _
  have hshli : (1 : Nat) <<< i = 2 ^ i := Nat.one_shiftLeft _
  have hinit : wpState L A i cur0 []
      (List.replicate A.length false, cur0, List.replicate (2 ^ (i + 1)) 0) := by
    refine ⟨by simp, ?_, rfl, ?_, fun p _ => rfl, by simp, ?_⟩
    · intro p hp r hr
      rw [hcnt0] at hr
      omega
    · intro p hp
      rw [hcur0 p hp, hcnt0]
      omega
    · intro q hq
      rw [hcnt0, getD_replicate_val]
      simp [hq]
  have hwp := writePass_inv L A i hiL hA cur0 hlen0 A [] rfl _ hinit
  obtain ⟨hblen, hbuf, hclen, hcur, hcpre, hhlen, hhist⟩ := hwp
  unfold buildLevel
  rw [hshl, hshli]
  refine Prod.ext ?_ (Prod.ext ?_ ?_)
  · -- the plane
    show (A.foldl (writeStep L i) _).1 = planeModel L A i
    exact buffer_eq_planeModel L A i hiL hA _ hblen hbuf
  · -- restored cursors
    show (restoreCursors (2 ^ i) (A.foldl (writeStep L i) _).2.1) = cur0
    obtain ⟨hrlen, hrval, hrpre⟩ := restoreCursors_spec i (by omega) _
      (by rw [hclen]; exact hlen0)
    apply List.ext_getElem (by rw [hrlen, hclen])
    intro q hq1 hq2
    rw [← List.getD_eq_getElem _ 0 hq1, ← List.getD_eq_getElem _ 0 hq2]
    by_cases hqk : q < 2 ^ i
    · rw [hrval q hqk]
      by_cases hq0 : q = 0
      · subst hq0
        rw [if_pos rfl, hcur0 0 (by omega), startOf_zero]
      · rw [if_neg hq0]
        have hbq1 : 1 ≤ bitrev i q := by
          rcases Nat.eq_zero_or_pos (bitrev i q) with hz | hp
          · exact absurd (bitrev_inj (k := i) hqk (by omega) (by
              rw [hz, bitrev_zero_eq])) hq0
          · omega
        have hblt := bitrev_lt i q
        have hp' : bitrev i (bitrev i q - 1) < 2 ^ i := bitrev_lt i _
        rw [hcur _ hp']
        have hchain := startOf_layout_succ L A i hApfx (bitrev i q - 1)
          (by omega)
        rw [show bitrev i q - 1 + 1 = bitrev i q by omega, bitrev_bitrev i q hqk]
          at hchain
        rw [← hchain, hcur0 q hqk]
    · rw [hrpre q (by omega), hcpre q (by omega)]
  · -- the node table
    show psLoop (2 ^ (i + 1)) (2 ^ (i + 1)) 0 0 0
        (A.foldl (writeStep L i) _).2.2 = npModel L A i
    have hps := psLoop_inv (i + 1) (by omega)
      (A.foldl (writeStep L i) (List.replicate A.length false, cur0,
        List.replicate (2 ^ (i + 1)) 0)).2.2
      (2 ^ (i + 1)) 0
      (A.foldl (writeStep L i) (List.replicate A.length false, cur0,
        List.replicate (2 ^ (i + 1)) 0)).2.2
      (by omega) hhlen ?hinv
    case hinv =>
      intro q hq
      rw [if_neg (by omega)]
    rw [bitrev_zero_eq] at hps
    simp only [List.range_zero, List.map_nil, List.sum_nil] at hps
    obtain ⟨hpslen, hpsval⟩ := hps
    apply List.ext_getElem
    · rw [hpslen]
      unfold npModel
      rw [List.length_map, List.length_range]
    · intro q hq1 hq2
      rw [← List.getD_eq_getElem _ 0 hq1, ← List.getD_eq_getElem _ 0 hq2]
      have hqlt : q < 2 ^ (i + 1) := by rwa [hpslen] at hq1
      rw [hpsval q hqlt]
      have hnp : (npModel L A i).getD q 0 = startOf L A (i + 1) q := by
        unfold npModel
        rw [List.getD_eq_getElem?_getD, List.getElem?_map, List.getElem?_range hqlt]
        rfl
      rw [hnp]
      have hsum : ((List.range (bitrev (i + 1) q)).map
          (fun m => (A.foldl (writeStep L i) (List.replicate A.length false, cur0,
            List.replicate (2 ^ (i + 1)) 0)).2.2.getD (bitrev (i + 1) m) 0)).sum =
          ((List.range (bitrev (i + 1) q)).map
            (fun m => cntOf L A (i + 1) (bitrev (i + 1) m))).sum := by
        apply congrArg
        apply List.map_congr_left
        intro m hm
        exact hhist _ (bitrev_lt (i + 1) m)
      rw [hsum, ← startOf_layout L A (i + 1) hApfx1 (bitrev (i + 1) q)
        (bitrev_lt (i + 1) q), bitrev_bitrev (i + 1) q hqlt]

/-! ### Whole-builder correctness -/

theorem buildFrom_spec (L : Nat) (hL : L ≤ 64) (A : List Nat)
    (hA : ∀ v ∈ A, v < 2 ^ L) :
    ∀ levels i cur0, i + levels = L →
    2 ^ i ≤ cur0.length →
    (∀ p, p < 2 ^ i → cur0.getD p 0 = startOf L A i p) →
    buildFrom L A.length A levels i cur0 =
      ((List.range' i levels).map (planeModel L A),
       (List.range' i levels).map (npModel L A), cur0) := by
  intro levels
  induction levels with
  | zero =>
    intro i cur0 _ _ _
    rw [buildFrom]
    rfl
  | succ levels ih =>
    intro i cur0 hiL hlen hcur
    rw [buildFrom, buildLevel_spec L hL A i (by omega) hA cur0 hlen hcur]
    have hnp : ∀ p, p < 2 ^ (i + 1) → (npModel L A i).getD p 0 =
        startOf L A (i + 1) p := by
      intro p hp
      unfold npModel
      rw [List.getD_eq_getElem?_getD, List.getElem?_map, List.getElem?_range hp]
      rfl
    have hnplen : 2 ^ (i + 1) ≤ (npModel L A i).length := by
      unfold npModel
      rw [List.length_map, List.length_range]
    rw [ih (i + 1) (npModel L A i) (by omega) hnplen hnp]
    rw [List.range'_succ]
    rfl

theorem getAlphabetNum_mono (l : List Nat) : ∀ acc, acc ≤ l.foldl
    (fun alphabetNum x => if x ≥ alphabetNum then x + 1 else alphabetNum) acc := by
  induction l with
  | nil => intro acc; simp
  | cons x xs ih =>
    intro acc
    rw [List.foldl_cons]
    refine le_trans ?_ (ih _)
    by_cases h : x ≥ acc <;> simp [h] <;> omega

theorem getAlphabetNum_gt (A : List Nat) : ∀ v ∈ A, v < getAlphabetNum A := by
  unfold getAlphabetNum
  generalize hacc : (0 : Nat) = acc
  clear hacc
  induction A generalizing acc with
  | nil => simp
  | cons x xs ih =>
    intro v hv
    rw [List.foldl_cons]
    rcases List.mem_cons.mp hv with rfl | hvxs
    · by_cases h : v ≥ acc
      · simp only [h, if_pos]
        have := getAlphabetNum_mono xs (v + 1)
        omega
      · simp only [if_neg h]
        have := getAlphabetNum_mono xs acc
        omega
    · exact ih _ v hvxs

theorem getAlphabetNum_le (A : List Nat) (B : Nat) (hB : ∀ v ∈ A, v < B) :
    ∀ acc, acc ≤ B → A.foldl
      (fun alphabetNum x => if x ≥ alphabetNum then x + 1 else alphabetNum) acc ≤ B := by
  induction A with
  | nil => intro acc h; simpa using h
  | cons x xs ih =>
    intro acc hacc
    rw [List.foldl_cons]
    have hx : x < B := hB x (List.mem_cons_self x xs)
    have hxs : ∀ v ∈ xs, v < B := fun v hv => hB v (List.mem_cons_of_mem x hv)
    by_cases h : x ≥ acc
    · simp only [h, if_pos]
      exact ih hxs (x + 1) (by omega)
    · simp only [if_neg h]
      exact ih hxs acc hacc

theorem getAlphabetNum_pos (A : List Nat) (hne : A ≠ []) : 0 < getAlphabetNum A := by
  obtain ⟨v, hv⟩ : ∃ v, v ∈ A := by
    cases A with
    | nil => exact absurd rfl hne
    | cons x xs => exact ⟨x, List.mem_cons_self x xs⟩
  have := getAlphabetNum_gt A v hv
  omega

theorem log2Loop_spec (y : Nat) : ∀ fuel b, y >>> (b + fuel) = 0 →
    y >>> log2Loop fuel y b = 0 ∧
    ∀ c, b ≤ c → y >>> c = 0 → log2Loop fuel y b ≤ c := by
  intro fuel
  induction fuel with
  | zero =>
    intro b hb
    rw [log2Loop]
    exact ⟨by simpa using hb, fun c hc _ => hc⟩
  | succ fuel ih =>
    intro b hb
    rw [log2Loop]
    by_cases h : y >>> b = 0
    · rw [if_pos h]
      exact ⟨h, fun c hc _ => hc⟩
    · rw [if_neg h]
      have hre : y >>> (b + 1 + fuel) = 0 := by
        rw [show b + 1 + fuel = b + (fuel + 1) by omega]
        exact hb
      obtain ⟨h1, h2⟩ := ih (b + 1) hre
      refine ⟨h1, fun c hc hyc => ?_⟩
      have hcb : c ≠ b := fun hx => h (hx ▸ hyc)
      exact h2 c (by omega) hyc

theorem shiftRight_eq_zero_iff (y b : Nat) : y >>> b = 0 ↔ y < 2 ^ b := by
  rw [Nat.shiftRight_eq_div_pow]
  exact Nat.div_eq_zero_iff (Nat.pos_pow_of_pos b (by omega))

theorem log2go_ge (x : Nat) (hx : 1 ≤ x) : x ≤ 2 ^ log2go x := by
  unfold log2go
  rw [if_neg (by omega)]
  have hfuel : (x - 1) >>> (0 + (x + 64)) = 0 := by
    rw [shiftRight_eq_zero_iff]
    calc x - 1 < 2 ^ (x - 1 + 1) := by
          have := Nat.lt_two_pow (x - 1)
          have h2 : 2 ^ (x - 1) < 2 ^ (x - 1 + 1) := by
            rw [Nat.pow_succ]
            have := Nat.pos_pow_of_pos (x - 1) (show 0 < 2 by omega)
            omega
          omega
      _ ≤ 2 ^ (0 + (x + 64)) := Nat.pow_le_pow_right (by omega) (by omega)
  obtain ⟨h1, _⟩ := log2Loop_spec (x - 1) (x + 64) 0 hfuel
  rw [shiftRight_eq_zero_iff] at h1
  omega

theorem log2go_le (x B : Nat) (hx : 1 ≤ x) (hB : x ≤ 2 ^ B) : log2go x ≤ B := by
  unfold log2go
  rw [if_neg (by omega)]
  have hfuel : (x - 1) >>> (0 + (x + 64)) = 0 := by
    rw [shiftRight_eq_zero_iff]
    calc x - 1 < 2 ^ (x - 1 + 1) := by
          have := Nat.lt_two_pow (x - 1)
          have h2 : 2 ^ (x - 1) < 2 ^ (x - 1 + 1) := by
            rw [Nat.pow_succ]
            have := Nat.pos_pow_of_pos (x - 1) (show 0 < 2 by omega)
            omega
          omega
      _ ≤ 2 ^ (0 + (x + 64)) := Nat.pow_le_pow_right (by omega) (by omega)
  obtain ⟨_, h2⟩ := log2Loop_spec (x - 1) (x + 64) 0 hfuel
  exact h2 B (by omega) (by rw [shiftRight_eq_zero_iff]; omega)

/-- The builder produces exactly the model planes and node tables. -/
theorem buildWM_spec (A : List Nat) (hne : A ≠ []) (hA : ∀ v ∈ A, v < 2 ^ 63) :
    buildWM A = some
      ⟨A.length, getAlphabetNum A, log2go (getAlphabetNum A),
       (List.range (log2go (getAlphabetNum A))).map
         (planeModel (log2go (getAlphabetNum A)) A),
       (List.range (log2go (getAlphabetNum A))).map
         (npModel (log2go (getAlphabetNum A)) A),
       []⟩ := by
  have hpos := getAlphabetNum_pos A hne
  have hgt := getAlphabetNum_gt A
  have hle : getAlphabetNum A ≤ 2 ^ 63 :=
    getAlphabetNum_le A (2 ^ 63) hA 0 (by omega)
  have hLle : log2go (getAlphabetNum A) ≤ 63 := log2go_le _ 63 (by omega) hle
  have hAL : ∀ v ∈ A, v < 2 ^ log2go (getAlphabetNum A) := by
    intro v hv
    have h1 := hgt v hv
    have h2 := log2go_ge (getAlphabetNum A) (by omega)
    omega
  unfold buildWM
  rw [if_neg (by omega)]
  show (some ⟨A.length, getAlphabetNum A, log2go (getAlphabetNum A),
    (buildFrom (log2go (getAlphabetNum A)) A.length A
      (log2go (getAlphabetNum A)) 0 [0, A.length]).1,
    (buildFrom (log2go (getAlphabetNum A)) A.length A
      (log2go (getAlphabetNum A)) 0 [0, A.length]).2.1, []⟩ : Option WMData) = _
  rw [buildFrom_spec (log2go (getAlphabetNum A)) (by omega) A hAL
    (log2go (getAlphabetNum A)) 0 [0, A.length] (by omega) (by simp)
    (fun p hp => ?_)]
  · rw [← List.range_eq_range']
  · match p, hp with
    | 0, _ => rw [startOf_zero]; rfl

/-! ### Lookup correctness -/

theorem filter_getD_count {α : Type} (p : α → Bool) (d : α) :
    ∀ (l : List α) (j : Nat) (hj : j < l.length), p l[j] = true →
    (l.filter p).getD ((l.take j).countP p) d = l[j] := by
  intro l
  induction l with
  | nil => intro j hj; simp at hj
  | cons x xs ih =>
    intro j hj hp
    cases j with
    | zero =>
      simp only [List.take_zero, List.countP_nil, List.getElem_cons_zero] at hp ⊢
      rw [List.filter_cons, if_pos hp]
      rfl
    | succ j =>
      rw [List.getElem_cons_succ] at hp ⊢
      have hj' : j < xs.length := by simpa using hj
      rw [List.take_succ_cons, List.countP_cons, List.filter_cons]
      by_cases hx : p x
      · rw [if_pos hx, if_pos hx]
        show (x :: xs.filter p).getD ((xs.take j).countP p + 1) d = xs[j]
        rw [show (xs.take j).countP p + 1 = ((xs.take j).countP p) + 1 from rfl]
        simpa using ih j hj' hp
      · rw [if_neg hx, if_neg (by simpa using hx)]
        simpa using ih j hj' hp

theorem countP_take_lt {α : Type} (p : α → Bool) (l : List α) (j : Nat)
    (hj : j < l.length) (hp : p l[j] = true) :
    (l.take j).countP p < l.countP p := by
  conv_rhs => rw [← List.take_append_drop j l]
  rw [List.countP_append, List.drop_eq_getElem_cons hj, List.countP_cons, if_pos hp]
  omega

theorem not_toBool (x : Nat) : (!toBool x) = decide (x = 0) := by
  show (!(if x = 0 then false else true)) = decide (x = 0)
  by_cases h : x = 0 <;> simp [h]

theorem toBool_eq (x : Nat) : toBool x = decide (¬ x = 0) := by
  show (if x = 0 then false else true) = decide (¬ x = 0)
  by_cases h : x = 0 <;> simp [h]

theorem rank0_plane (L : Nat) (A : List Nat) (i j : Nat) :
    bvRank0 (planeModel L A i) j =
      ((seqAt L A i).take j).countP (fun v => decide (bitAt L i v = 0)) := by
  unfold bvRank0 planeModel
  rw [← List.map_take, List.countP_map]
  apply countP_congr_pred
  intro v _
  exact not_toBool _

theorem rank1_plane (L : Nat) (A : List Nat) (i j : Nat) :
    bvRank1 (planeModel L A i) j =
      ((seqAt L A i).take j).countP (fun v => !decide (bitAt L i v = 0)) := by
  unfold bvRank1 planeModel
  rw [← List.map_take, List.countP_map]
  apply countP_congr_pred
  intro v _
  show toBool (bitAt L i v) = _
  rw [toBool_eq]
  by_cases h : bitAt L i v = 0 <;> simp [h]

theorem planeModel_length (L : Nat) (A : List Nat) (i : Nat) :
    (planeModel L A i).length = A.length := by
  unfold planeModel
  rw [List.length_map, seqAt_length]

/-- `nodePos[i][1]` is the number of zero bits at level `i`. -/
theorem startOf_one (L : Nat) (A : List Nat) (i : Nat) (hiL : i < L)
    (hA : ∀ v ∈ A, v < 2 ^ L) :
    startOf L A (i + 1) 1 = A.countP (fun v => decide (bitAt L i v = 0)) := by
  unfold startOf
  apply countP_congr_pred
  intro v hv
  have hb := bitAt_le_one L i v
  have hp := prefixAt_lt (hA v hv) (show i ≤ L by omega)
  have h1 : bitrev (i + 1) 1 = 2 ^ i := by
    have := bitrev_two_mul_add i 0 1 (by omega)
    simpa [bitrev_zero_eq] using this
  have h2 : bitrev (i + 1) (prefixAt L (i + 1) v) =
      bitAt L i v * 2 ^ i + bitrev i (prefixAt L i v) := by
    rw [prefixAt_succ v hiL, bitrev_two_mul_add i _ _ hb]
  rw [h1, h2]
  have hbr := bitrev_lt i (prefixAt L i v)
  by_cases h : bitAt L i v = 0
  · simp only [h, Nat.zero_mul, Nat.zero_add]
    simp [hbr]
  · have h1' : bitAt L i v = 1 := by omega
    simp only [h1', Nat.one_mul]
    simp [h]

theorem countP_seqAt (L : Nat) (A : List Nat) (i : Nat) (p : Nat → Bool) :
    (seqAt L A i).countP p = A.countP p := by
  induction i with
  | zero => rfl
  | succ i ih =>
    show ((seqAt L A i).filter _ ++ (seqAt L A i).filter _).countP p = _
    rw [List.countP_append, List.countP_filter, List.countP_filter,
      ← countP_or_disjoint _ _ _ ?hd]
    case hd =>
      intro v _ ⟨h1, h2⟩
      simp at h1 h2
      omega
    rw [← ih]
    apply countP_congr_pred
    intro v _
    by_cases hp : p v <;> by_cases hb : bitAt L i v = 0 <;> simp [hp, hb]

theorem getD_append {α : Type} (l1 l2 : List α) (n : Nat) (d : α) :
    (l1 ++ l2).getD n d = if n < l1.length then l1.getD n d else l2.getD (n - l1.length) d := by
  rw [List.getD_eq_getElem?_getD, List.getElem?_append]
  split <;> rw [← List.getD_eq_getElem?_getD]

/-- Tracking one element through the stable partition: the Lookup/Select
descent map sends the element at position `j` of level `i` to the same value
at the mapped position of level `i + 1`. -/
theorem partition_step (L : Nat) (A : List Nat) (i j : Nat)
    (hj : j < A.length) :
    (bvRank (planeModel L A i) j (toBool (bitAt L i ((seqAt L A i).getD j 0))) +
      if toBool (bitAt L i ((seqAt L A i).getD j 0)) then
        A.countP (fun w => decide (bitAt L i w = 0)) else 0) < A.length ∧
    (seqAt L A (i + 1)).getD
      (bvRank (planeModel L A i) j (toBool (bitAt L i ((seqAt L A i).getD j 0))) +
        if toBool (bitAt L i ((seqAt L A i).getD j 0)) then
          A.countP (fun w => decide (bitAt L i w = 0)) else 0) 0 =
      (seqAt L A i).getD j 0 := by
  have hjs : j < (seqAt L A i).length := by rwa [seqAt_length]
  have hvj : (seqAt L A i).getD j 0 = (seqAt L A i)[j] :=
    List.getD_eq_getElem _ _ hjs
  have hseq : seqAt L A (i + 1) =
      (seqAt L A i).filter (fun w => decide (bitAt L i w = 0)) ++
      (seqAt L A i).filter (fun w => !decide (bitAt L i w = 0)) := rfl
  have hF0len : ((seqAt L A i).filter (fun w => decide (bitAt L i w = 0))).length =
      A.countP (fun w => decide (bitAt L i w = 0)) := by
    rw [← List.countP_eq_length_filter, countP_seqAt]
  have hF1len : ((seqAt L A i).filter (fun w => !decide (bitAt L i w = 0))).length =
      A.countP (fun w => !decide (bitAt L i w = 0)) := by
    rw [← List.countP_eq_length_filter, countP_seqAt]
  have hlen1 : (seqAt L A (i + 1)).length = A.length := seqAt_length _ _ _
  by_cases hb : bitAt L i ((seqAt L A i).getD j 0) = 0
  · have hbj : bitAt L i (seqAt L A i)[j] = 0 := by rwa [hvj] at hb
    have htb : toBool (bitAt L i ((seqAt L A i).getD j 0)) = false := by
      show (if bitAt L i ((seqAt L A i).getD j 0) = 0 then false else true) = false
      rw [if_pos hb]
    rw [htb]
    simp only [if_false, Bool.false_eq_true, Nat.add_zero]
    have hrank : bvRank (planeModel L A i) j false =
        ((seqAt L A i).take j).countP (fun w => decide (bitAt L i w = 0)) := by
      unfold bvRank
      rw [if_neg (by simp), rank0_plane]
    have hplt : ((seqAt L A i).take j).countP (fun w => decide (bitAt L i w = 0)) <
        ((seqAt L A i).filter (fun w => decide (bitAt L i w = 0))).length := by
      rw [← List.countP_eq_length_filter]
      exact countP_take_lt _ _ j hjs (by simp [hbj])
    constructor
    · rw [hrank]
      calc ((seqAt L A i).take j).countP (fun w => decide (bitAt L i w = 0)) <
          ((seqAt L A i).filter (fun w => decide (bitAt L i w = 0))).length := hplt
        _ = A.countP (fun w => decide (bitAt L i w = 0)) := hF0len
        _ ≤ A.length := List.countP_le_length _
    · rw [hrank, hseq, getD_append, if_pos hplt,
        filter_getD_count _ _ _ j hjs (by simp [hbj]), hvj]
  · have hbj : ¬ bitAt L i (seqAt L A i)[j] = 0 := by rwa [hvj] at hb
    have htb : toBool (bitAt L i ((seqAt L A i).getD j 0)) = true := by
      show (if bitAt L i ((seqAt L A i).getD j 0) = 0 then false else true) = true
      rw [if_neg hb]
    rw [htb]
    simp only [if_true]
    have hrank : bvRank (planeModel L A i) j true =
        ((seqAt L A i).take j).countP (fun w => !decide (bitAt L i w = 0)) := by
      unfold bvRank
      rw [if_pos rfl, rank1_plane]
    have hplt : ((seqAt L A i).take j).countP (fun w => !decide (bitAt L i w = 0)) <
        ((seqAt L A i).filter (fun w => !decide (bitAt L i w = 0))).length := by
      rw [← List.countP_eq_length_filter]
      exact countP_take_lt _ _ j hjs (by simp [hbj])
    have harith : bvRank (planeModel L A i) j true +
        A.countP (fun w => decide (bitAt L i w = 0)) =
        ((seqAt L A i).filter (fun w => decide (bitAt L i w = 0))).length +
        ((seqAt L A i).take j).countP (fun w => !decide (bitAt L i w = 0)) := by
      rw [hrank, hF0len]
      omega
    constructor
    · rw [harith]
      have h2 := hF1len
      have h3 : (seqAt L A (i + 1)).length =
          ((seqAt L A i).filter (fun w => decide (bitAt L i w = 0))).length +
          ((seqAt L A i).filter (fun w => !decide (bitAt L i w = 0))).length := by
        rw [hseq, List.length_append]
      omega
    · rw [harith, hseq, getD_append, if_neg (by omega), Nat.add_sub_cancel_left,
        filter_getD_count _ _ _ j hjs (by simp [hbj]), hvj]
theorem bvGet_planeModel (L : Nat) (A : List Nat) (i index : Nat)
    (h : index < A.length) :
    bvGet (planeModel L A i) index = toBool (bitAt L i ((seqAt L A i).getD index 0)) := by
  have hlen : index < (seqAt L A i).length := by rwa [seqAt_length]
  unfold bvGet planeModel
  rw [List.getD_eq_getElem _ _ (by rwa [List.length_map]),
    List.getElem_map, List.getD_eq_getElem _ _ hlen]

theorem npModel_getElem_one (L : Nat) (A : List Nat) (i : Nat) :
    (npModel L A i)[1]? = some (startOf L A (i + 1) 1) := by
  have h1 : 1 ≤ 2 ^ i := Nat.one_le_two_pow
  have h2 : 2 ^ (i + 1) = 2 ^ i * 2 := pow_succ 2 i
  unfold npModel
  rw [List.getElem?_map, List.getElem?_range (by omega)]
  rfl

theorem shl64_one_small (a : Nat) (h : a < 2 ^ 63) : shl64 a 1 = 2 * a := by
  unfold shl64 U64
  rw [Nat.shiftLeft_eq, Nat.mod_eq_of_lt]
  · ring
  · have : 2 ^ 64 = 2 ^ 63 * 2 := pow_succ 2 63
    omega

theorem add64_small (a b : Nat) (h : a + b < 2 ^ 64) : add64 a b = a + b := by
  unfold add64 U64
  exact Nat.mod_eq_of_lt h

theorem lookupLoop_cons_true (p : List Bool) (bvs : List (List Bool))
    (nps : List (List Nat)) (index c : Nat) (hb : bvGet p index = true) :
    lookupLoop (p :: bvs) nps index c =
      nps.head?.bind (fun row => (row[1]?).bind (fun v =>
        lookupLoop bvs nps.tail (add64 (bvRank p index true) v)
          (shl64 c 1 ||| 1))) := by
  show (let b := bvGet p index
    let bit : Nat := if b then 1 else 0
    let c' := shl64 c 1 ||| bit
    let index' := bvRank p index b
    if b then do
      let row ← nps.head?
      let v ← row[1]?
      lookupLoop bvs nps.tail (add64 index' v) c'
    else
      lookupLoop bvs nps.tail index' c') = _
  rw [hb]
  rfl

theorem lookupLoop_cons_false (p : List Bool) (bvs : List (List Bool))
    (nps : List (List Nat)) (index c : Nat) (hb : bvGet p index = false) :
    lookupLoop (p :: bvs) nps index c =
      lookupLoop bvs nps.tail (bvRank p index false) (shl64 c 1 ||| 0) := by
  show (let b := bvGet p index
    let bit : Nat := if b then 1 else 0
    let c' := shl64 c 1 ||| bit
    let index' := bvRank p index b
    if b then do
      let row ← nps.head?
      let v ← row[1]?
      lookupLoop bvs nps.tail (add64 index' v) c'
    else
      lookupLoop bvs nps.tail index' c') = _
  rw [hb]
  rfl

/-- Invariant of the `Lookup` descent on a built index: starting at level `i`
with the position of an element in the level-`i` layout and its `i`-bit prefix
accumulated, the loop returns that element with `found = true`. -/
theorem lookupLoop_inv (L : Nat) (A : List Nat) (hL : L ≤ 63)
    (hn : A.length < 2 ^ 63) (hA : ∀ v ∈ A, v < 2 ^ L) :
    ∀ (k i index : Nat), i + k = L → index < A.length →
    lookupLoop ((List.range' i k).map (planeModel L A))
        ((List.range' i k).map (npModel L A)) index
        (prefixAt L i ((seqAt L A i).getD index 0)) =
      some ((seqAt L A i).getD index 0, true) := by
  intro k
  induction k with
  | zero =>
    intro i index hik hidx
    have hiL : i = L := by omega
    subst hiL
    show lookupLoop [] [] index (prefixAt i i ((seqAt i A i).getD index 0)) = _
    rw [prefixAt_self]
    rfl
  | succ k ih =>
    intro i index hik hidx
    have hiL : i < L := by omega
    rw [List.range'_succ, List.map_cons, List.map_cons]
    have hv : (seqAt L A i).getD index 0 ∈ A := by
      have : (seqAt L A i).getD index 0 ∈ seqAt L A i := by
        rw [List.getD_eq_getElem _ _ (by rwa [seqAt_length])]
        exact List.getElem_mem _
      revert this
      generalize (seqAt L A i).getD index 0 = w
      intro hw
      have hc : ∀ j, ∀ w, w ∈ seqAt L A j → w ∈ A := by
        intro j
        induction j with
        | zero => intro w hw; exact hw
        | succ j ihj =>
          intro w hw
          rcases List.mem_append.mp hw with h | h
          · exact ihj _ (List.mem_of_mem_filter h)
          · exact ihj _ (List.mem_of_mem_filter h)
      exact hc i w hw
    have hvL : (seqAt L A i).getD index 0 < 2 ^ L := hA _ hv
    have hpfx : prefixAt L i ((seqAt L A i).getD index 0) < 2 ^ 63 := by
      have h1 := prefixAt_lt hvL (Nat.le_of_lt hiL)
      have h2 : 2 ^ i ≤ 2 ^ 63 := Nat.pow_le_pow_right (by omega) (by omega)
      omega
    have hps := partition_step L A i index hidx
    have hble := bitAt_le_one L i ((seqAt L A i).getD index 0)
    by_cases hbit : bitAt L i ((seqAt L A i).getD index 0) = 0
    · have hb : bvGet (planeModel L A i) index = false := by
        rw [bvGet_planeModel L A i index hidx]
        show (if bitAt L i ((seqAt L A i).getD index 0) = 0 then false else true) = false
        rw [if_pos hbit]
      have htb : toBool (bitAt L i ((seqAt L A i).getD index 0)) = false := by
        show (if bitAt L i ((seqAt L A i).getD index 0) = 0 then false else true) = false
        rw [if_pos hbit]
      rw [htb] at hps
      simp only [Bool.false_eq_true, if_false, Nat.add_zero] at hps
      rw [lookupLoop_cons_false _ _ _ _ _ hb]
      have hc' : shl64 (prefixAt L i ((seqAt L A i).getD index 0)) 1 ||| 0 =
          prefixAt L (i + 1) ((seqAt L A i).getD index 0) := by
        rw [shl64_one_small _ hpfx, two_mul_or_bit _ _ (by omega),
          prefixAt_succ _ hiL, hbit]
      rw [hc', ← hps.2]
      show lookupLoop ((List.range' (i + 1) k).map (planeModel L A))
          ((List.range' (i + 1) k).map (npModel L A)) _ _ = _
      exact ih (i + 1) _ (by omega) hps.1
    · have hbit1 : bitAt L i ((seqAt L A i).getD index 0) = 1 := by omega
      have hb : bvGet (planeModel L A i) index = true := by
        rw [bvGet_planeModel L A i index hidx]
        show (if bitAt L i ((seqAt L A i).getD index 0) = 0 then false else true) = true
        rw [if_neg hbit]
      have htb : toBool (bitAt L i ((seqAt L A i).getD index 0)) = true := by
        show (if bitAt L i ((seqAt L A i).getD index 0) = 0 then false else true) = true
        rw [if_neg hbit]
      rw [htb] at hps
      simp only [if_true] at hps
      rw [lookupLoop_cons_true _ _ _ _ _ hb]
      show ((npModel L A i)[1]?).bind _ = _
      rw [npModel_getElem_one,
        startOf_one L A i hiL hA]
      show lookupLoop ((List.range' (i + 1) k).map (planeModel L A))
          ((List.range' (i + 1) k).map (npModel L A))
          (add64 (bvRank (planeModel L A i) index true)
            (A.countP (fun v => decide (bitAt L i v = 0))))
          (shl64 (prefixAt L i ((seqAt L A i).getD index 0)) 1 ||| 1) = _
      have hadd : add64 (bvRank (planeModel L A i) index true)
          (A.countP (fun v => decide (bitAt L i v = 0))) =
          bvRank (planeModel L A i) index true +
          A.countP (fun w => decide (bitAt L i w = 0)) := by
        apply add64_small
        have h64 : 2 ^ 63 < 2 ^ 64 := by norm_num
        omega
      have hc' : shl64 (prefixAt L i ((seqAt L A i).getD index 0)) 1 ||| 1 =
          prefixAt L (i + 1) ((seqAt L A i).getD index 0) := by
        rw [shl64_one_small _ hpfx, two_mul_or_bit _ _ (by omega),
          prefixAt_succ _ hiL, hbit1]
      rw [hadd, hc', ← hps.2]
      exact ih (i + 1) _ (by omega) hps.1
/-- C1: for every index built from a non-empty sequence `A` of length `n`
(values in the `uint64` range modelled by `v < 2^63`, `n < 2^63`),
`Lookup i` returns `(A[i], true)` for every `i < n`, and `Lookup pos`
returns `(NotFound, false)` for every `pos ≥ n`. -/
theorem lookup_identity (A : List Nat) (wm : WMData)
    (hA : ∀ v ∈ A, v < 2 ^ 63) (hn : A.length < 2 ^ 63)
    (hwm : buildWM A = some wm) :
    (∀ i, i < A.length → wm.Lookup i = some (A.getD i 0, true)) ∧
    (∀ pos, A.length ≤ pos → wm.Lookup pos = some (NotFound, false)) := by
  have hne : A ≠ [] := by
    rintro rfl
    exact Option.noConfusion hwm
  rw [buildWM_spec A hne hA] at hwm
  injection hwm with hwm
  subst hwm
  have hα1 : 1 ≤ getAlphabetNum A := getAlphabetNum_pos A hne
  have hαle : getAlphabetNum A ≤ 2 ^ 63 := by
    unfold getAlphabetNum
    exact getAlphabetNum_le A (2 ^ 63) hA 0 (by positivity)
  have hL : log2go (getAlphabetNum A) ≤ 63 :=
    log2go_le _ _ hα1 hαle
  have hAL : ∀ v ∈ A, v < 2 ^ log2go (getAlphabetNum A) := by
    intro v hv
    have h1 := getAlphabetNum_gt A v hv
    have h2 := log2go_ge (getAlphabetNum A) hα1
    omega
  constructor
  · intro i hi
    show (if i ≥ A.length then some (NotFound, false)
      else lookupLoop ((List.range (log2go (getAlphabetNum A))).map
          (planeModel (log2go (getAlphabetNum A)) A))
        ((List.range (log2go (getAlphabetNum A))).map
          (npModel (log2go (getAlphabetNum A)) A)) i 0) = _
    rw [if_neg (by omega), List.range_eq_range']
    have hinv := lookupLoop_inv _ A hL hn hAL (log2go (getAlphabetNum A)) 0 i
      (by omega) hi
    rw [show seqAt (log2go (getAlphabetNum A)) A 0 = A from rfl,
      prefixAt_zero (hAL _ (by rw [List.getD_eq_getElem _ _ hi]; exact List.getElem_mem _))] at hinv
    exact hinv
  · intro pos hpos
    show (if pos ≥ A.length then some (NotFound, false) else _) = _
    rw [if_pos (by omega)]

theorem lookup_identity_witness :
    wmEx.Lookup 3 = some (4, true) ∧ wmEx.Lookup 9 = some (NotFound, false) := by
  have h := lookup_identity srcEx wmEx (by decide) (by decide) (by decide)
  exact ⟨h.1 3 (by decide), h.2 9 (by decide)⟩

/-- C4: counterexample.  On the index built from `A = [2, 3]`, the in-range
query `QuantileRange 0 1 0` (so `beg = 0 < end = 1 < n = 2`, `k = 0 < end - beg`)
must return the smallest element of `A[0..1) = [2]`, i.e. value `2` at
position `0`.  The code returns `(NotFound, 3)`: the returned value `3` is
not even an element of the sub-range and the position is the sentinel, not a
position in `[0, 1)`.  `MinRange 0 1` inherits the same wrong answer. -/
theorem quantileRange_wrong_at_beg_zero :
    (buildWM [2, 3]).bind (fun wm => wm.QuantileRange 0 1 0) = some (NotFound, 3) ∧
    (buildWM [2, 3]).bind (fun wm => wm.MinRange 0 1) = some (NotFound, 3) ∧
    ¬ (3 ∈ ([2, 3].drop 0).take 1) ∧ ¬ (NotFound < 1) := by decide
/-! ### Rank and Select correctness -/

theorem countP_take_mono {α : Type} (p : α → Bool) (l : List α) (pos : Nat) :
    (l.take pos).countP p ≤ l.countP p := by
  conv_rhs => rw [← List.take_append_drop pos l]
  exact countP_prefix_le p _ _

theorem filter_take_countP {α : Type} (p : α → Bool) :
    ∀ (l : List α) (pos : Nat),
    (l.filter p).take ((l.take pos).countP p) = (l.take pos).filter p := by
  intro l
  induction l with
  | nil => intro pos; simp
  | cons x xs ih =>
    intro pos
    cases pos with
    | zero => simp
    | succ pos =>
      rw [List.take_succ_cons, List.filter_cons, List.countP_cons, List.filter_cons]
      by_cases hx : p x
      · rw [if_pos hx, if_pos hx, List.take_succ_cons, ih, if_pos hx]
      · rw [if_neg (by simp [hx]), if_neg (by simp [hx]), Nat.add_zero, ih,
          if_neg hx]

theorem countP_flatten {α : Type} (P : α → Bool) :
    ∀ (Ls : List (List α)), Ls.flatten.countP P = (Ls.map (List.countP P)).sum := by
  intro Ls
  induction Ls with
  | nil => rfl
  | cons x xs ih =>
    rw [List.flatten_cons, List.countP_append, List.map_cons, List.sum_cons, ih]

theorem sum_filter_countP (L : Nat) (A : List Nat) (i : Nat)
    (hA : ∀ v ∈ A, prefixAt L i v < 2 ^ i) (P : Nat → Bool) :
    ∀ m, m ≤ 2 ^ i →
    ((List.range m).map (fun j => A.countP
        (fun v => decide (prefixAt L i v = bitrev i j) && P v))).sum =
      A.countP (fun v => decide (bitrev i (prefixAt L i v) < m) && P v) := by
  intro m
  induction m with
  | zero =>
    intro _
    rw [List.range_zero, List.map_nil, List.sum_nil, eq_comm, List.countP_eq_zero]
    intro v _
    simp
  | succ m ih =>
    intro hm
    rw [List.range_succ, List.map_append, List.sum_append, ih (by omega)]
    simp only [List.map_cons, List.map_nil, List.sum_cons, List.sum_nil]
    have hsplit : A.countP (fun v => decide (bitrev i (prefixAt L i v) < m + 1) && P v) =
        A.countP (fun v => decide (bitrev i (prefixAt L i v) < m) && P v) +
        A.countP (fun v => decide (bitrev i (prefixAt L i v) = m) && P v) := by
      rw [← countP_or_disjoint _ _ _
        (by intro v _ ⟨h1, h2⟩; simp at h1 h2; omega)]
      apply countP_congr_pred
      intro v _
      by_cases h : bitrev i (prefixAt L i v) < m + 1 <;>
        by_cases hP : P v <;> simp [h, hP] <;> omega
    rw [hsplit]
    have hcnt : A.countP (fun v => decide (bitrev i (prefixAt L i v) = m) && P v) =
        A.countP (fun v => decide (prefixAt L i v = bitrev i m) && P v) := by
      apply countP_congr_pred
      intro v hv
      have hp := hA v hv
      by_cases h : prefixAt L i v = bitrev i m
      · simp [h, bitrev_bitrev i m (by omega)]
      · have h2 : bitrev i (prefixAt L i v) ≠ m := by
          intro hcon
          exact h (by rw [← bitrev_bitrev i (prefixAt L i v) hp, hcon])
        simp [h, h2]
    rw [hcnt]
    omega

/-- Counting inside a level prefix that ends `t` elements into the block of
prefix `p`: the full blocks laid out before `p` plus the first `t` elements
of `p`'s block, where `t` counts the prefix-`p` elements among `A.take pos`. -/
theorem take_level_countP (L : Nat) (A : List Nat) (i : Nat)
    (hA : ∀ v ∈ A, v < 2 ^ L) (hiL : i ≤ L) (p pos : Nat) (hp : p < 2 ^ i)
    (P : Nat → Bool) :
    ((seqAt L A i).take (startOf L A i p +
        (A.take pos).countP (fun v => decide (prefixAt L i v = p)))).countP P =
      A.countP (fun v => decide (bitrev i (prefixAt L i v) < bitrev i p) && P v) +
      (A.take pos).countP (fun v => decide (prefixAt L i v = p) && P v) := by
  have hpA : ∀ v ∈ A, prefixAt L i v < 2 ^ i := fun v hv => prefixAt_lt (hA v hv) hiL
  have hm : bitrev i p < 2 ^ i := bitrev_lt i p
  have hbm : bitrev i (bitrev i p) = p := bitrev_bitrev i p hp
  have hflat := seqAt_flatten L A hA i hiL
  have hS : startOf L A i p =
      ((((List.range (2 ^ i)).map
        (fun m => A.filter (fun v => decide (prefixAt L i v = bitrev i m)))).take
          (bitrev i p)).map List.length).sum := by
    conv_lhs => rw [← hbm]
    rw [startOf_layout L A i hpA (bitrev i p) hm,
      ← List.map_take, List.take_range, Nat.min_eq_left (by omega), List.map_map]
    congr 1
    apply List.map_congr_left
    intro j _
    show cntOf L A i (bitrev i j) = _
    rw [cntOf, List.countP_eq_length_filter]
    rfl
  have ht : (A.take pos).countP (fun v => decide (prefixAt L i v = p)) ≤
      (A.filter (fun v => decide (prefixAt L i v = p))).length := by
    rw [← List.countP_eq_length_filter]
    exact countP_take_mono _ _ _
  have hmB : bitrev i p < ((List.range (2 ^ i)).map
      (fun m => A.filter (fun v => decide (prefixAt L i v = bitrev i m)))).length := by
    rw [List.length_map, List.length_range]
    exact hm
  have hdropB : ((List.range (2 ^ i)).map
      (fun m => A.filter (fun v => decide (prefixAt L i v = bitrev i m)))).drop (bitrev i p) =
      A.filter (fun v => decide (prefixAt L i v = p)) ::
      ((List.range (2 ^ i)).map
        (fun m => A.filter (fun v => decide (prefixAt L i v = bitrev i m)))).drop
          (bitrev i p + 1) := by
    rw [List.drop_eq_getElem_cons hmB]
    congr 1
    simp only [List.getElem_map, List.getElem_range]
    rw [hbm]
  rw [hflat, hS, List.take_add, flatten_take, flatten_drop, hdropB,
    List.flatten_cons, List.take_append_of_le_length ht, filter_take_countP,
    List.countP_append]
  have h1 : ((((List.range (2 ^ i)).map
      (fun m => A.filter (fun v => decide (prefixAt L i v = bitrev i m)))).take
        (bitrev i p)).flatten).countP P =
      A.countP (fun v => decide (bitrev i (prefixAt L i v) < bitrev i p) && P v) := by
    rw [countP_flatten, ← List.map_take, List.take_range,
      Nat.min_eq_left (by omega), List.map_map,
      ← sum_filter_countP L A i hpA P (bitrev i p) (by omega)]
    congr 1
    apply List.map_congr_left
    intro j _
    show (A.filter _).countP P = _
    rw [List.countP_filter]
    apply countP_congr_pred
    intro v _
    exact Bool.and_comm _ _
  have h2 : ((A.take pos).filter (fun v => decide (prefixAt L i v = p))).countP P =
      (A.take pos).countP (fun v => decide (prefixAt L i v = p) && P v) := by
    rw [List.countP_filter]
    apply countP_congr_pred
    intro v _
    exact Bool.and_comm _ _
  rw [h1, h2]
theorem sub64_small (a b : Nat) (hba : b ≤ a) (ha : a < 2 ^ 64) :
    sub64 a b = a - b := by
  unfold sub64 U64
  rw [Nat.mod_eq_of_lt (show b < 2 ^ 64 by omega),
    show a + (2 ^ 64 - b) = 2 ^ 64 + (a - b) by omega,
    Nat.add_mod_left, Nat.mod_eq_of_lt (by omega)]

theorem startOf_level_zero (L : Nat) (A : List Nat) (q : Nat) :
    startOf L A 0 q = 0 := by
  unfold startOf
  rw [List.countP_eq_zero]
  intro v _
  simp [bitrev]

/-- One level of the `Rank` descent: the cursor
`startOf(prefix) + |{j < pos : prefix_i(A[j]) = prefix_i(c)}|` maps to the
same shape one level down. -/
theorem rank_desc_step (L : Nat) (A : List Nat) (i c pos : Nat)
    (hA : ∀ v ∈ A, v < 2 ^ L) (hiL : i < L) (hc : c < 2 ^ L) :
    bvRank (planeModel L A i)
        (startOf L A i (prefixAt L i c) +
          (A.take pos).countP (fun v => decide (prefixAt L i v = prefixAt L i c)))
        (toBool (bitAt L i c)) +
      (if toBool (bitAt L i c) then
        A.countP (fun v => decide (bitAt L i v = 0)) else 0) =
      startOf L A (i + 1) (prefixAt L (i + 1) c) +
      (A.take pos).countP
        (fun v => decide (prefixAt L (i + 1) v = prefixAt L (i + 1) c)) := by
  have hp : prefixAt L i c < 2 ^ i := prefixAt_lt hc (Nat.le_of_lt hiL)
  have hbc := bitAt_le_one L i c
  have hsucc : prefixAt L (i + 1) c = 2 * prefixAt L i c + bitAt L i c :=
    prefixAt_succ c hiL
  by_cases hbit : bitAt L i c = 0
  · have htb : toBool (bitAt L i c) = false := by
      show (if bitAt L i c = 0 then false else true) = false
      rw [if_pos hbit]
    rw [htb]
    simp only [Bool.false_eq_true, if_false, Nat.add_zero]
    show bvRank0 (planeModel L A i) _ = _
    rw [rank0_plane,
      take_level_countP L A i hA (Nat.le_of_lt hiL) (prefixAt L i c) pos hp
        (fun v => decide (bitAt L i v = 0))]
    have hq : prefixAt L (i + 1) c = 2 * prefixAt L i c := by omega
    congr 1
    · rw [hq]
      unfold startOf
      apply countP_congr_pred
      intro v hv
      have hbv := bitAt_le_one L i v
      have hpv : prefixAt L i v < 2 ^ i := prefixAt_lt (hA v hv) (Nat.le_of_lt hiL)
      rw [prefixAt_succ v hiL,
        bitrev_two_mul_add i (prefixAt L i v) (bitAt L i v) hbv,
        show (2 * prefixAt L i c : Nat) = 2 * prefixAt L i c + 0 from rfl,
        bitrev_two_mul_add i (prefixAt L i c) 0 (by omega)]
      have hrv := bitrev_lt i (prefixAt L i v)
      have hrc := bitrev_lt i (prefixAt L i c)
      by_cases hb0 : bitAt L i v = 0
      · simp [hb0]
      · have hb1 : bitAt L i v = 1 := by omega
        simp [hb1]
        omega
    · apply countP_congr_pred
      intro v hv
      have hbv := bitAt_le_one L i v
      rw [prefixAt_succ v hiL, hq]
      by_cases hpp : prefixAt L i v = prefixAt L i c <;>
        by_cases hb0 : bitAt L i v = 0 <;> simp [hpp, hb0] <;> omega
  · have hbit1 : bitAt L i c = 1 := by omega
    have htb : toBool (bitAt L i c) = true := by
      show (if bitAt L i c = 0 then false else true) = true
      rw [if_neg hbit]
    rw [htb]
    simp only [if_true]
    show bvRank1 (planeModel L A i) _ + _ = _
    rw [rank1_plane,
      take_level_countP L A i hA (Nat.le_of_lt hiL) (prefixAt L i c) pos hp
        (fun v => !decide (bitAt L i v = 0))]
    have hq : prefixAt L (i + 1) c = 2 * prefixAt L i c + 1 := by omega
    have h1 : A.countP (fun v =>
          decide (bitrev i (prefixAt L i v) < bitrev i (prefixAt L i c)) &&
          !decide (bitAt L i v = 0)) +
        A.countP (fun v => decide (bitAt L i v = 0)) =
        startOf L A (i + 1) (prefixAt L (i + 1) c) := by
      rw [hq]
      unfold startOf
      rw [← countP_or_disjoint _ _ _
        (by intro v _ ⟨hx, hy⟩; simp at hx hy; exact absurd hy hx.2)]
      apply countP_congr_pred
      intro v hv
      have hbv := bitAt_le_one L i v
      have hpv : prefixAt L i v < 2 ^ i := prefixAt_lt (hA v hv) (Nat.le_of_lt hiL)
      rw [prefixAt_succ v hiL,
        bitrev_two_mul_add i (prefixAt L i v) (bitAt L i v) hbv,
        bitrev_two_mul_add i (prefixAt L i c) 1 (by omega)]
      have hrv := bitrev_lt i (prefixAt L i v)
      have hrc := bitrev_lt i (prefixAt L i c)
      by_cases hb0 : bitAt L i v = 0
      · simp [hb0]
        omega
      · have hb1 : bitAt L i v = 1 := by omega
        simp [hb1]
    have h2 : (A.take pos).countP (fun v =>
          decide (prefixAt L i v = prefixAt L i c) && !decide (bitAt L i v = 0)) =
        (A.take pos).countP
          (fun v => decide (prefixAt L (i + 1) v = prefixAt L (i + 1) c)) := by
      apply countP_congr_pred
      intro v hv
      have hbv := bitAt_le_one L i v
      rw [prefixAt_succ v hiL, hq]
      by_cases hpp : prefixAt L i v = prefixAt L i c <;>
        by_cases hb0 : bitAt L i v = 0 <;> simp [hpp, hb0] <;> omega
    omega
theorem npModel_getElem (L : Nat) (A : List Nat) (i q : Nat)
    (hq : q < 2 ^ (i + 1)) :
    (npModel L A i)[q]? = some (startOf L A (i + 1) q) := by
  unfold npModel
  rw [List.getElem?_map, List.getElem?_range hq]
  rfl

theorem rankLoop_cons (abn c rem : Nat) (p : List Bool) (bvs : List (List Bool))
    (nps : List (List Nat)) (i endPos : Nat) :
    rankLoop abn c (rem + 1) (p :: bvs) nps i endPos =
      (if toBool (bitAt abn i c) then
        nps.head?.bind (fun row => (row[1]?).bind (fun v =>
          rankLoop abn c rem bvs nps.tail (i + 1)
            (add64 (bvRank p endPos (toBool (bitAt abn i c))) v)))
      else rankLoop abn c rem bvs nps.tail (i + 1)
        (bvRank p endPos (toBool (bitAt abn i c)))) := rfl

/-- Invariant of the `Rank` descent: from level `i` with the cursor at
`startOf(prefix_i(c)) + |{j < pos : prefix_i(A[j]) = prefix_i(c)}|`, the loop
lands on `startOf(c) + |{j < pos : A[j] = c}|` at the bottom. -/
theorem rankLoop_inv (L : Nat) (A : List Nat) (c : Nat)
    (hn : A.length < 2 ^ 63) (hA : ∀ v ∈ A, v < 2 ^ L) (hc : c < 2 ^ L)
    (pos : Nat) :
    ∀ (k i : Nat), i + k = L →
    rankLoop L c k ((List.range' i k).map (planeModel L A))
        ((List.range' i k).map (npModel L A)) i
        (startOf L A i (prefixAt L i c) +
          (A.take pos).countP (fun v => decide (prefixAt L i v = prefixAt L i c))) =
      some (startOf L A L c + (A.take pos).countP (fun v => decide (v = c))) := by
  intro k
  induction k with
  | zero =>
    intro i hik
    have hLi : L = i := by omega
    subst hLi
    show some _ = some _
    rw [prefixAt_self L c]
    congr 2
    apply countP_congr_pred
    intro v _
    rw [prefixAt_self L v]
  | succ k ih =>
    intro i hik
    have hiL : i < L := by omega
    rw [List.range'_succ, List.map_cons, List.map_cons, rankLoop_cons]
    have hps := rank_desc_step L A i c pos hA hiL hc
    have hele : startOf L A i (prefixAt L i c) +
        (A.take pos).countP (fun v => decide (prefixAt L i v = prefixAt L i c)) ≤
        A.length := by
      have h1 := startOf_add_cnt_le L A i (prefixAt L i c)
      have h2 : (A.take pos).countP (fun v => decide (prefixAt L i v = prefixAt L i c)) ≤
          cntOf L A i (prefixAt L i c) := countP_take_mono _ _ _
      omega
    by_cases hbit : bitAt L i c = 0
    · have htb : toBool (bitAt L i c) = false := by
        show (if bitAt L i c = 0 then false else true) = false
        rw [if_pos hbit]
      rw [htb]
      simp only [Bool.false_eq_true, if_false, List.tail_cons]
      rw [htb] at hps
      simp only [Bool.false_eq_true, if_false, Nat.add_zero] at hps
      rw [hps]
      exact ih (i + 1) (by omega)
    · have htb : toBool (bitAt L i c) = true := by
        show (if bitAt L i c = 0 then false else true) = true
        rw [if_neg hbit]
      rw [htb]
      simp only [if_true, List.head?_cons, List.tail_cons, Option.some_bind]
      rw [npModel_getElem_one]
      simp only [Option.some_bind]
      rw [startOf_one L A i hiL hA]
      have hrle : bvRank (planeModel L A i)
          (startOf L A i (prefixAt L i c) +
            (A.take pos).countP (fun v => decide (prefixAt L i v = prefixAt L i c)))
          true ≤ A.length := by
        show bvRank1 _ _ ≤ _
        calc bvRank1 (planeModel L A i) _ ≤
            ((planeModel L A i).take _).length := List.countP_le_length _
          _ ≤ _ := by
            rw [List.length_take, planeModel_length]
            omega
      have hZle : A.countP (fun v => decide (bitAt L i v = 0)) ≤ A.length :=
        List.countP_le_length _
      rw [add64_small _ _ (by omega)]
      rw [htb] at hps
      simp only [if_true] at hps
      rw [hps]
      exact ih (i + 1) (by omega)

/-- `Rank` is correct on every built index with at least two distinct symbol
values: for `c < σ` and `1 ≤ pos ≤ n` it returns the number of occurrences
of `c` in `A[0, pos)` with the `true` flag. -/
theorem rank_correct (A : List Nat) (wm : WMData)
    (hA : ∀ v ∈ A, v < 2 ^ 63) (hn : A.length < 2 ^ 63)
    (hwm : buildWM A = some wm) (hσ : 2 ≤ getAlphabetNum A)
    (c pos : Nat) (hc : c < getAlphabetNum A) (hpos1 : 1 ≤ pos)
    (hpos2 : pos ≤ A.length) :
    wm.Rank c pos = some ((A.take pos).countP (fun v => decide (v = c)), true) := by
  have hne : A ≠ [] := by rintro rfl; exact Option.noConfusion hwm
  rw [buildWM_spec A hne hA] at hwm
  injection hwm with hwm
  subst hwm
  have hα1 : 1 ≤ getAlphabetNum A := by omega
  have hαle : getAlphabetNum A ≤ 2 ^ 63 := by
    unfold getAlphabetNum
    exact getAlphabetNum_le A (2 ^ 63) hA 0 (by positivity)
  have hL63 : log2go (getAlphabetNum A) ≤ 63 := log2go_le _ _ hα1 hαle
  have hαge := log2go_ge (getAlphabetNum A) hα1
  have hL1 : 1 ≤ log2go (getAlphabetNum A) := by
    by_contra h
    have h0 : log2go (getAlphabetNum A) = 0 := by omega
    rw [h0] at hαge
    simp at hαge
    omega
  have hcL : c < 2 ^ log2go (getAlphabetNum A) := by omega
  have hAL : ∀ v ∈ A, v < 2 ^ log2go (getAlphabetNum A) := fun v hv =>
    lt_of_lt_of_le (getAlphabetNum_gt A v hv) hαge
  show (if c ≥ getAlphabetNum A ∨ pos > A.length then some (NotFound, false)
    else if pos = 0 then some (0, false)
    else do
      let row ← ((List.range (log2go (getAlphabetNum A))).map
        (npModel (log2go (getAlphabetNum A)) A))[sub64 (log2go (getAlphabetNum A)) 1]?
      let beginPos ← row[c]?
      let endPos ← rankLoop (log2go (getAlphabetNum A)) c (log2go (getAlphabetNum A))
        ((List.range (log2go (getAlphabetNum A))).map
          (planeModel (log2go (getAlphabetNum A)) A))
        ((List.range (log2go (getAlphabetNum A))).map
          (npModel (log2go (getAlphabetNum A)) A)) 0 pos
      some (sub64 endPos beginPos, true)) = _
  rw [if_neg (by omega), if_neg (by omega)]
  rw [sub64_small _ _ (by omega) (by omega)]
  rw [List.getElem?_map,
    List.getElem?_range (show log2go (getAlphabetNum A) - 1 < log2go (getAlphabetNum A) by omega)]
  show ((npModel (log2go (getAlphabetNum A)) A (log2go (getAlphabetNum A) - 1))[c]?).bind _ = _
  rw [npModel_getElem _ _ _ _ (by
    rw [show log2go (getAlphabetNum A) - 1 + 1 = log2go (getAlphabetNum A) by omega]
    exact hcL)]
  rw [show log2go (getAlphabetNum A) - 1 + 1 = log2go (getAlphabetNum A) by omega,
    Option.some_bind]
  have he0 : startOf (log2go (getAlphabetNum A)) A 0
        (prefixAt (log2go (getAlphabetNum A)) 0 c) +
      (A.take pos).countP (fun v => decide (prefixAt (log2go (getAlphabetNum A)) 0 v =
        prefixAt (log2go (getAlphabetNum A)) 0 c)) = pos := by
    rw [startOf_level_zero, prefixAt_zero hcL]
    have hall : (A.take pos).countP (fun v =>
        decide (prefixAt (log2go (getAlphabetNum A)) 0 v = 0)) = (A.take pos).length := by
      rw [List.countP_eq_length]
      intro v hv
      simp [prefixAt_zero (hAL v (List.mem_of_mem_take hv))]
    rw [hall, List.length_take]
    omega
  have hinv := rankLoop_inv (log2go (getAlphabetNum A)) A c hn hAL hcL pos
    (log2go (getAlphabetNum A)) 0 (by omega)
  rw [he0, ← List.range_eq_range'] at hinv
  rw [hinv]
  have hsub : sub64 (startOf (log2go (getAlphabetNum A)) A (log2go (getAlphabetNum A)) c +
        (A.take pos).countP (fun v => decide (v = c)))
      (startOf (log2go (getAlphabetNum A)) A (log2go (getAlphabetNum A)) c) =
      (A.take pos).countP (fun v => decide (v = c)) := by
    have h1 := startOf_add_cnt_le (log2go (getAlphabetNum A)) A
      (log2go (getAlphabetNum A)) c
    have h2 : (A.take pos).countP (fun v => decide (v = c)) ≤
        cntOf (log2go (getAlphabetNum A)) A (log2go (getAlphabetNum A)) c := by
      apply le_trans (countP_take_mono _ _ _)
      unfold cntOf
      apply Nat.le_of_eq
      apply countP_congr_pred
      intro v _
      rw [prefixAt_self]
    rw [sub64_small _ _ (by omega) (by omega)]
    omega
  show some (sub64 (startOf (log2go (getAlphabetNum A)) A (log2go (getAlphabetNum A)) c +
      (A.take pos).countP (fun v => decide (v = c)))
    (startOf (log2go (getAlphabetNum A)) A (log2go (getAlphabetNum A)) c), true) = _
  rw [hsub]
theorem countP_take_succ {α : Type} (pr : α → Bool) (l : List α) (p : Nat)
    (hp : p < l.length) :
    (l.take (p + 1)).countP pr =
      (l.take p).countP pr + (if pr l[p] then 1 else 0) := by
  rw [List.take_succ, List.getElem?_eq_getElem hp]
  rw [List.countP_append]
  congr 1
  show List.countP pr [l[p]] = _
  rw [List.countP_cons, List.countP_nil]
  omega

theorem bvRank_succ (bv : List Bool) (j : Nat) (b : Bool) (hj : j < bv.length) :
    bvRank bv (j + 1) b =
      bvRank bv j b + (if bv.getD j false = b then 1 else 0) := by
  have hget : bv.getD j false = bv[j] := List.getD_eq_getElem bv false hj
  cases b with
  | false =>
    show bvRank0 bv (j + 1) = bvRank0 bv j + _
    unfold bvRank0
    rw [countP_take_succ _ bv j hj, hget]
    by_cases hx : bv[j] = false <;> simp [hx]
  | true =>
    show bvRank1 bv (j + 1) = bvRank1 bv j + _
    unfold bvRank1
    rw [countP_take_succ _ bv j hj, hget]

theorem bvSelect_rank1 : ∀ (bv : List Bool) (q : Nat), q < bv.length →
    bv.getD q false = true → bvSelect bv (bvRank1 bv q) true = some q := by
  intro bv
  induction bv with
  | nil => intro q hq; simp at hq
  | cons x xs ih =>
    intro q hq hget
    cases q with
    | zero =>
      have hx : x = true := by simpa using hget
      show bvSelect (x :: xs) ((List.take 0 (x :: xs)).countP _) true = _
      rw [List.take_zero, List.countP_nil]
      unfold bvSelect
      rw [if_pos (by simp [hx]), if_pos rfl]
    | succ q =>
      have hq' : q < xs.length := by simpa using hq
      have hget' : xs.getD q false = true := by simpa using hget
      show bvSelect (x :: xs) ((List.take (q + 1) (x :: xs)).countP _) true = _
      rw [List.take_succ_cons, List.countP_cons]
      unfold bvSelect
      by_cases hx : x = true
      · rw [if_pos (by simp [hx]), if_neg (by simp [hx]),
          show (xs.take q).countP (fun b => b) + (if (fun b => b) x then 1 else 0) - 1 =
            (xs.take q).countP (fun b => b) by simp [hx]]
        rw [show (xs.take q).countP (fun b => b) = bvRank1 xs q from rfl, ih q hq' hget']
        rfl
      · rw [if_neg (by simp [hx]),
          show (xs.take q).countP (fun b => b) + (if (fun b => b) x then 1 else 0) =
            (xs.take q).countP (fun b => b) by simp [hx]]
        rw [show (xs.take q).countP (fun b => b) = bvRank1 xs q from rfl, ih q hq' hget']
        rfl

theorem bvSelect_rank0 : ∀ (bv : List Bool) (q : Nat), q < bv.length →
    bv.getD q false = false → bvSelect bv (bvRank0 bv q) false = some q := by
  intro bv
  induction bv with
  | nil => intro q hq; simp at hq
  | cons x xs ih =>
    intro q hq hget
    cases q with
    | zero =>
      have hx : x = false := by simpa using hget
      show bvSelect (x :: xs) ((List.take 0 (x :: xs)).countP _) false = _
      rw [List.take_zero, List.countP_nil]
      unfold bvSelect
      rw [if_pos (by simp [hx]), if_pos rfl]
    | succ q =>
      have hq' : q < xs.length := by simpa using hq
      have hget' : xs.getD q false = false := by simpa using hget
      show bvSelect (x :: xs) ((List.take (q + 1) (x :: xs)).countP _) false = _
      rw [List.take_succ_cons, List.countP_cons]
      unfold bvSelect
      by_cases hx : x = false
      · rw [if_pos (by simp [hx]), if_neg (by simp [hx]),
          show (xs.take q).countP (fun b => !b) + (if (fun b => !b) x then 1 else 0) - 1 =
            (xs.take q).countP (fun b => !b) by simp [hx]]
        rw [show (xs.take q).countP (fun b => !b) = bvRank0 xs q from rfl, ih q hq' hget']
        rfl
      · rw [if_neg (by simp [hx]),
          show (xs.take q).countP (fun b => !b) + (if (fun b => !b) x then 1 else 0) =
            (xs.take q).countP (fun b => !b) by simp [hx]]
        rw [show (xs.take q).countP (fun b => !b) = bvRank0 xs q from rfl, ih q hq' hget']
        rfl

theorem exists_kth_occurrence {α : Type} [Inhabited α] (pr : α → Bool) :
    ∀ (l : List α) (k : Nat), 1 ≤ k → k ≤ l.countP pr →
    ∃ p, p < l.length ∧ pr (l.getD p default) = true ∧
      (l.take (p + 1)).countP pr = k := by
  intro l
  induction l with
  | nil => intro k hk1 hk2; simp at hk2; omega
  | cons x xs ih =>
    intro k hk1 hk2
    rw [List.countP_cons] at hk2
    by_cases hx : pr x
    · rw [if_pos hx] at hk2
      by_cases hk : k = 1
      · refine ⟨0, by simp, by simpa using hx, ?_⟩
        rw [show (0:Nat) + 1 = 1 from rfl, List.take_succ_cons, List.take_zero,
          List.countP_cons, List.countP_nil, if_pos hx, hk]
      · obtain ⟨p, hp1, hp2, hp3⟩ := ih (k - 1) (by omega) (by omega)
        refine ⟨p + 1, by simp; omega, by simpa using hp2, ?_⟩
        rw [List.take_succ_cons, List.countP_cons, if_pos hx, hp3]
        omega
    · rw [if_neg hx] at hk2
      obtain ⟨p, hp1, hp2, hp3⟩ := ih k hk1 (by omega)
      refine ⟨p + 1, by simp; omega, by simpa using hp2, ?_⟩
      rw [List.take_succ_cons, List.countP_cons, if_neg hx, hp3]
      omega

/-- The `Rank`-style cursor at each level points one past the trace of the
occurrence at position `p`: the element just before the cursor is `c`. -/
theorem cursor_val (L : Nat) (A : List Nat) (c p : Nat)
    (hA : ∀ v ∈ A, v < 2 ^ L) (hp : p < A.length) (hpc : A.getD p 0 = c) :
    ∀ i, i ≤ L →
    1 ≤ startOf L A i (prefixAt L i c) +
        (A.take (p + 1)).countP (fun v => decide (prefixAt L i v = prefixAt L i c)) ∧
    startOf L A i (prefixAt L i c) +
        (A.take (p + 1)).countP (fun v => decide (prefixAt L i v = prefixAt L i c)) ≤
      A.length ∧
    (seqAt L A i).getD (startOf L A i (prefixAt L i c) +
        (A.take (p + 1)).countP (fun v => decide (prefixAt L i v = prefixAt L i c)) - 1)
      0 = c := by
  have hcL : c < 2 ^ L := by
    rw [← hpc, List.getD_eq_getElem A 0 hp]
    exact hA _ (List.getElem_mem _)
  have hcp : A[p] = c := by rwa [List.getD_eq_getElem A 0 hp] at hpc
  intro i
  induction i with
  | zero =>
    intro _
    have h1 : 1 ≤ (A.take (p + 1)).countP
        (fun v => decide (prefixAt L 0 v = prefixAt L 0 c)) := by
      rw [countP_take_succ _ A p hp, if_pos (by simp [hcp])]
      omega
    have h2 : startOf L A 0 (prefixAt L 0 c) = 0 := startOf_level_zero L A _
    have h3 : (A.take (p + 1)).countP
        (fun v => decide (prefixAt L 0 v = prefixAt L 0 c)) = p + 1 := by
      rw [prefixAt_zero hcL]
      have hall : ∀ v ∈ A.take (p + 1), (fun v => decide (prefixAt L 0 v = 0)) v = true := by
        intro v hv
        simp [prefixAt_zero (hA v (List.mem_of_mem_take hv))]
      rw [List.countP_eq_length.mpr hall, List.length_take]
      omega
    refine ⟨by omega, by omega, ?_⟩
    rw [h2, h3]
    show A.getD (0 + (p + 1) - 1) 0 = c
    rw [show 0 + (p + 1) - 1 = p by omega, hpc]
  | succ i ihi =>
    intro hi1
    have hiL : i < L := by omega
    obtain ⟨h1, h2, h3⟩ := ihi (by omega)
    have hdesc := rank_desc_step L A i c (p + 1) hA hiL hcL
    have hj : startOf L A i (prefixAt L i c) +
        (A.take (p + 1)).countP (fun v => decide (prefixAt L i v = prefixAt L i c)) - 1 <
        A.length := by omega
    have hps := partition_step L A i
      (startOf L A i (prefixAt L i c) +
        (A.take (p + 1)).countP (fun v => decide (prefixAt L i v = prefixAt L i c)) - 1) hj
    rw [h3] at hps
    have hgetb : (planeModel L A i).getD
        (startOf L A i (prefixAt L i c) +
          (A.take (p + 1)).countP (fun v => decide (prefixAt L i v = prefixAt L i c)) - 1)
        false = toBool (bitAt L i c) := by
      have hbg := bvGet_planeModel L A i
        (startOf L A i (prefixAt L i c) +
          (A.take (p + 1)).countP (fun v => decide (prefixAt L i v = prefixAt L i c)) - 1) hj
      rw [h3] at hbg
      exact hbg
    have hsucc : bvRank (planeModel L A i)
        (startOf L A i (prefixAt L i c) +
          (A.take (p + 1)).countP (fun v => decide (prefixAt L i v = prefixAt L i c)))
        (toBool (bitAt L i c)) =
        bvRank (planeModel L A i)
          (startOf L A i (prefixAt L i c) +
            (A.take (p + 1)).countP (fun v => decide (prefixAt L i v = prefixAt L i c)) - 1)
          (toBool (bitAt L i c)) + 1 := by
      have he : startOf L A i (prefixAt L i c) +
          (A.take (p + 1)).countP (fun v => decide (prefixAt L i v = prefixAt L i c)) =
          (startOf L A i (prefixAt L i c) +
            (A.take (p + 1)).countP (fun v => decide (prefixAt L i v = prefixAt L i c)) - 1) +
          1 := by omega
      conv_lhs => rw [he]
      rw [bvRank_succ _ _ _ (by rw [planeModel_length]; omega), hgetb, if_pos rfl]
    rw [hsucc] at hdesc
    refine ⟨by omega, by omega, ?_⟩
    have hidx : startOf L A (i + 1) (prefixAt L (i + 1) c) +
        (A.take (p + 1)).countP
          (fun v => decide (prefixAt L (i + 1) v = prefixAt L (i + 1) c)) - 1 =
        bvRank (planeModel L A i)
          (startOf L A i (prefixAt L i c) +
            (A.take (p + 1)).countP (fun v => decide (prefixAt L i v = prefixAt L i c)) - 1)
          (toBool (bitAt L i c)) +
        (if toBool (bitAt L i c) then
          A.countP (fun v => decide (bitAt L i v = 0)) else 0) := by
      by_cases hbb : toBool (bitAt L i c) <;> simp [hbb] at hdesc ⊢ <;> omega
    rw [hidx]
    exact hps.2
theorem bvRank_le (bv : List Bool) (x : Nat) (b : Bool) : bvRank bv x b ≤ x := by
  have h : ∀ p : Bool → Bool, (bv.take x).countP p ≤ x := fun p =>
    le_trans (List.countP_le_length p) (List.length_take_le x bv)
  cases b
  · exact h _
  · exact h _

theorem sfpAscLoop_cons (wm : WMData) (c rem index : Nat) :
    sfpAscLoop wm c (rem + 1) index =
      (if toBool (bitAt wm.alphabetBitNum rem c) then
        (wm.nodePos[rem]?).bind (fun row => (row[1]?).bind (fun v =>
          (wm.bv[rem]?).bind (fun plane =>
            match bvSelect plane (sub64 (sub64 index v) 1)
                (toBool (bitAt wm.alphabetBitNum rem c)) with
            | none => some (NotFound, false)
            | some s => sfpAscLoop wm c rem (add64 s 1))))
      else (wm.bv[rem]?).bind (fun plane =>
        match bvSelect plane (sub64 index 1)
            (toBool (bitAt wm.alphabetBitNum rem c)) with
        | none => some (NotFound, false)
        | some s => sfpAscLoop wm c rem (add64 s 1))) := rfl

/-- Invariant of the `SelectFromPos` ascent on a built index: starting at
fuel `i` with the level-`i` cursor of the occurrence at position `p`, the
loop reconstructs `p`. -/
theorem sfpAscLoop_inv (L : Nat) (A : List Nat) (wm : WMData) (c p : Nat)
    (hn : A.length < 2 ^ 63) (hA : ∀ v ∈ A, v < 2 ^ L)
    (hp : p < A.length) (hpc : A.getD p 0 = c)
    (habn : wm.alphabetBitNum = L)
    (hbv : wm.bv = (List.range L).map (planeModel L A))
    (hnp : wm.nodePos = (List.range L).map (npModel L A)) :
    ∀ i, i ≤ L →
    sfpAscLoop wm c i (startOf L A i (prefixAt L i c) +
      (A.take (p + 1)).countP (fun v => decide (prefixAt L i v = prefixAt L i c))) =
      some (p, true) := by
  have hcL : c < 2 ^ L := by
    rw [← hpc, List.getD_eq_getElem A 0 hp]
    exact hA _ (List.getElem_mem _)
  intro i
  induction i with
  | zero =>
    intro _
    have h2 : startOf L A 0 (prefixAt L 0 c) = 0 := startOf_level_zero L A _
    have h3 : (A.take (p + 1)).countP
        (fun v => decide (prefixAt L 0 v = prefixAt L 0 c)) = p + 1 := by
      rw [prefixAt_zero hcL]
      have hall : ∀ v ∈ A.take (p + 1),
          (fun v => decide (prefixAt L 0 v = 0)) v = true := by
        intro v hv
        simp [prefixAt_zero (hA v (List.mem_of_mem_take hv))]
      rw [List.countP_eq_length.mpr hall, List.length_take]
      omega
    show some (sub64 (startOf L A 0 (prefixAt L 0 c) +
      (A.take (p + 1)).countP (fun v => decide (prefixAt L 0 v = prefixAt L 0 c))) 1,
      true) = some (p, true)
    rw [h2, h3, sub64_small _ _ (by omega) (by omega),
      show 0 + (p + 1) - 1 = p by omega]
  | succ i ihi =>
    intro hi1
    have hiL : i < L := by omega
    rw [sfpAscLoop_cons, habn]
    obtain ⟨h1, h2, h3⟩ := cursor_val L A c p hA hp hpc i (by omega)
    have hdesc := rank_desc_step L A i c (p + 1) hA hiL hcL
    have hplane : wm.bv[i]? = some (planeModel L A i) := by
      rw [hbv, List.getElem?_map, List.getElem?_range hiL]
      rfl
    have hj : startOf L A i (prefixAt L i c) +
        (A.take (p + 1)).countP (fun v => decide (prefixAt L i v = prefixAt L i c)) - 1 <
        A.length := by omega
    have hgetb : (planeModel L A i).getD
        (startOf L A i (prefixAt L i c) +
          (A.take (p + 1)).countP (fun v => decide (prefixAt L i v = prefixAt L i c)) - 1)
        false = toBool (bitAt L i c) := by
      have hbg := bvGet_planeModel L A i
        (startOf L A i (prefixAt L i c) +
          (A.take (p + 1)).countP (fun v => decide (prefixAt L i v = prefixAt L i c)) - 1) hj
      rw [h3] at hbg
      exact hbg
    have hsucc : bvRank (planeModel L A i)
        (startOf L A i (prefixAt L i c) +
          (A.take (p + 1)).countP (fun v => decide (prefixAt L i v = prefixAt L i c)))
        (toBool (bitAt L i c)) =
        bvRank (planeModel L A i)
          (startOf L A i (prefixAt L i c) +
            (A.take (p + 1)).countP (fun v => decide (prefixAt L i v = prefixAt L i c)) - 1)
          (toBool (bitAt L i c)) + 1 := by
      have he : startOf L A i (prefixAt L i c) +
          (A.take (p + 1)).countP (fun v => decide (prefixAt L i v = prefixAt L i c)) =
          (startOf L A i (prefixAt L i c) +
            (A.take (p + 1)).countP (fun v => decide (prefixAt L i v = prefixAt L i c)) - 1) +
          1 := by omega
      conv_lhs => rw [he]
      rw [bvRank_succ _ _ _ (by rw [planeModel_length]; omega), hgetb, if_pos rfl]
    have hranklt : bvRank (planeModel L A i)
        (startOf L A i (prefixAt L i c) +
          (A.take (p + 1)).countP (fun v => decide (prefixAt L i v = prefixAt L i c)))
        (toBool (bitAt L i c)) ≤ A.length := le_trans (bvRank_le _ _ _) h2
    by_cases hbit : bitAt L i c = 0
    · have htb : toBool (bitAt L i c) = false := by
        show (if bitAt L i c = 0 then false else true) = false
        rw [if_pos hbit]
      rw [htb]
      simp only [Bool.false_eq_true, if_false]
      rw [htb] at hdesc hsucc hgetb hranklt
      simp only [Bool.false_eq_true, if_false, Nat.add_zero] at hdesc
      rw [hplane]
      simp only [Option.some_bind]
      rw [← hdesc, hsucc, sub64_small _ _ (by omega) (by omega),
        Nat.add_sub_cancel]
      have hsel : bvSelect (planeModel L A i)
          (bvRank (planeModel L A i)
            (startOf L A i (prefixAt L i c) +
              (A.take (p + 1)).countP
                (fun v => decide (prefixAt L i v = prefixAt L i c)) - 1) false)
          false = some (startOf L A i (prefixAt L i c) +
            (A.take (p + 1)).countP
              (fun v => decide (prefixAt L i v = prefixAt L i c)) - 1) := by
        show bvSelect _ (bvRank0 _ _) false = _
        exact bvSelect_rank0 _ _ (by rw [planeModel_length]; omega) hgetb
      rw [hsel]
      show sfpAscLoop wm c i (add64 (startOf L A i (prefixAt L i c) +
        (A.take (p + 1)).countP
          (fun v => decide (prefixAt L i v = prefixAt L i c)) - 1) 1) = _
      rw [add64_small _ _ (by omega),
        show startOf L A i (prefixAt L i c) +
          (A.take (p + 1)).countP
            (fun v => decide (prefixAt L i v = prefixAt L i c)) - 1 + 1 =
          startOf L A i (prefixAt L i c) +
          (A.take (p + 1)).countP
            (fun v => decide (prefixAt L i v = prefixAt L i c)) by omega]
      exact ihi (by omega)
    · have htb : toBool (bitAt L i c) = true := by
        show (if bitAt L i c = 0 then false else true) = true
        rw [if_neg hbit]
      rw [htb]
      simp only [if_true]
      rw [htb] at hdesc hsucc hgetb hranklt
      simp only [if_true] at hdesc
      have hnpi : wm.nodePos[i]? = some (npModel L A i) := by
        rw [hnp, List.getElem?_map, List.getElem?_range hiL]
        rfl
      rw [hnpi]
      simp only [Option.some_bind]
      rw [npModel_getElem_one]
      simp only [Option.some_bind]
      rw [startOf_one L A i hiL hA, hplane]
      simp only [Option.some_bind]
      have hZle : A.countP (fun v => decide (bitAt L i v = 0)) ≤ A.length :=
        List.countP_le_length _
      rw [← hdesc,
        sub64_small
          (bvRank (planeModel L A i)
            (startOf L A i (prefixAt L i c) +
              (A.take (p + 1)).countP
                (fun v => decide (prefixAt L i v = prefixAt L i c))) true +
            A.countP (fun v => decide (bitAt L i v = 0)))
          (A.countP (fun v => decide (bitAt L i v = 0)))
          (by omega) (by omega),
        Nat.add_sub_cancel, hsucc, sub64_small _ _ (by omega) (by omega),
        Nat.add_sub_cancel]
      have hsel : bvSelect (planeModel L A i)
          (bvRank (planeModel L A i)
            (startOf L A i (prefixAt L i c) +
              (A.take (p + 1)).countP
                (fun v => decide (prefixAt L i v = prefixAt L i c)) - 1) true)
          true = some (startOf L A i (prefixAt L i c) +
            (A.take (p + 1)).countP
              (fun v => decide (prefixAt L i v = prefixAt L i c)) - 1) := by
        show bvSelect _ (bvRank1 _ _) true = _
        exact bvSelect_rank1 _ _ (by rw [planeModel_length]; omega) hgetb
      rw [hsel]
      show sfpAscLoop wm c i (add64 (startOf L A i (prefixAt L i c) +
        (A.take (p + 1)).countP
          (fun v => decide (prefixAt L i v = prefixAt L i c)) - 1) 1) = _
      rw [add64_small _ _ (by omega),
        show startOf L A i (prefixAt L i c) +
          (A.take (p + 1)).countP
            (fun v => decide (prefixAt L i v = prefixAt L i c)) - 1 + 1 =
          startOf L A i (prefixAt L i c) +
          (A.take (p + 1)).countP
            (fun v => decide (prefixAt L i v = prefixAt L i c)) by omega]
      exact ihi (by omega)
/-- C3 (amended): `Select` is 1-indexed.  For every index built from a
sequence with values `< 2^63` and length `< 2^63` and alphabet size at least
2, and every `c` and `1 ≤ k ≤ Freq(c)`, `Select(c, k)` returns `(p, true)`
where `p` is the position of the `k`-th occurrence of `c`: `A[p] = c` and
`Rank(c, p + 1) = (k, true)`. -/
theorem select_one_indexed (A : List Nat) (wm : WMData)
    (hA : ∀ v ∈ A, v < 2 ^ 63) (hn : A.length < 2 ^ 63)
    (hwm : buildWM A = some wm) (hσ : 2 ≤ getAlphabetNum A)
    (c k : Nat) (hk1 : 1 ≤ k) (hk2 : k ≤ A.countP (fun v => decide (v = c))) :
    ∃ p, wm.Select c k = some (p, true) ∧ p < A.length ∧ A.getD p 0 = c ∧
      wm.Rank c (p + 1) = some (k, true) := by
  have hne : A ≠ [] := by rintro rfl; exact Option.noConfusion hwm
  have hrec := buildWM_spec A hne hA
  rw [hwm] at hrec
  injection hrec with hrec
  obtain ⟨L, hLdef⟩ : ∃ L, log2go (getAlphabetNum A) = L := ⟨_, rfl⟩
  have hsize : wm.size = A.length := by rw [hrec]
  have halpha : wm.alphabetNum = getAlphabetNum A := by rw [hrec]
  have habn : wm.alphabetBitNum = L := by rw [hrec]; exact hLdef
  have hbvf : wm.bv = (List.range L).map (planeModel L A) := by
    rw [hrec]
    show (List.range (log2go (getAlphabetNum A))).map
      (planeModel (log2go (getAlphabetNum A)) A) = _
    rw [hLdef]
  have hnpf : wm.nodePos = (List.range L).map (npModel L A) := by
    rw [hrec]
    show (List.range (log2go (getAlphabetNum A))).map
      (npModel (log2go (getAlphabetNum A)) A) = _
    rw [hLdef]
  have hα1 : 1 ≤ getAlphabetNum A := by omega
  have hαle : getAlphabetNum A ≤ 2 ^ 63 := by
    unfold getAlphabetNum
    exact getAlphabetNum_le A (2 ^ 63) hA 0 (by positivity)
  have hL63 : L ≤ 63 := hLdef ▸ log2go_le _ _ hα1 hαle
  have hαge : getAlphabetNum A ≤ 2 ^ L := hLdef ▸ log2go_ge _ hα1
  have hL1 : 1 ≤ L := by
    by_contra h
    have h0 : L = 0 := by omega
    rw [h0] at hαge
    simp at hαge
    omega
  have hAL : ∀ v ∈ A, v < 2 ^ L := fun v hv =>
    lt_of_lt_of_le (getAlphabetNum_gt A v hv) hαge
  obtain ⟨p, hp1, hp2, hp3⟩ :=
    exists_kth_occurrence (fun v => decide (v = c)) A k hk1 hk2
  have hpc : A.getD p 0 = c := of_decide_eq_true hp2
  have hc : c < getAlphabetNum A := by
    rw [← hpc]
    apply getAlphabetNum_gt
    rw [List.getD_eq_getElem A 0 hp1]
    exact List.getElem_mem _
  have hcL : c < 2 ^ L := by omega
  have hrankn := rank_correct A wm hA hn hwm hσ c A.length hc (by omega) (le_refl _)
  have hFreq : wm.Freq c = some (A.countP (fun v => decide (v = c))) := by
    show (wm.Rank c wm.size).map (fun r => r.1) = _
    rw [hsize, hrankn, List.take_length]
    rfl
  have hSle : startOf L A L c ≤ A.length := List.countP_le_length _
  have hksmall : k ≤ A.length := le_trans hk2 (List.countP_le_length _)
  have hsel : wm.Select c k = some (p, true) := by
    show (if c ≥ wm.alphabetNum then some (NotFound, false)
      else if 0 ≥ wm.size then some (NotFound, false)
      else do
        let fr ← wm.Freq c
        if k > fr then some (NotFound, false)
        else do
          let index ← if 0 = 0 then do
              let row ← wm.nodePos[sub64 wm.alphabetBitNum 1]?
              row[c]?
            else
              sfpDescLoop wm.alphabetBitNum c wm.alphabetBitNum wm.bv wm.nodePos 0 0
          sfpAscLoop wm c wm.alphabetBitNum (add64 index k)) = _
    rw [halpha, if_neg (by omega), hsize, if_neg (by omega), hFreq]
    show (if k > A.countP (fun v => decide (v = c)) then some (NotFound, false)
      else do
        let index ← if 0 = 0 then do
            let row ← wm.nodePos[sub64 wm.alphabetBitNum 1]?
            row[c]?
          else
            sfpDescLoop wm.alphabetBitNum c wm.alphabetBitNum wm.bv wm.nodePos 0 0
        sfpAscLoop wm c wm.alphabetBitNum (add64 index k)) = _
    rw [if_neg (by omega), if_pos rfl, habn,
      sub64_small _ _ (by omega) (by omega), hnpf,
      List.getElem?_map, List.getElem?_range (show L - 1 < L by omega)]
    show ((npModel L A (L - 1))[c]?).bind
      (fun index => sfpAscLoop wm c L (add64 index k)) = _
    rw [npModel_getElem _ _ _ _ (by
        rw [show L - 1 + 1 = L by omega]
        exact hcL),
      show L - 1 + 1 = L by omega, Option.some_bind,
      add64_small _ _ (by omega)]
    have heL : startOf L A L c + k =
        startOf L A L (prefixAt L L c) +
        (A.take (p + 1)).countP
          (fun v => decide (prefixAt L L v = prefixAt L L c)) := by
      rw [prefixAt_self]
      congr 1
      rw [← hp3]
      apply countP_congr_pred
      intro v _
      rw [prefixAt_self]
    rw [heL]
    exact sfpAscLoop_inv L A wm c p hn hAL hp1 hpc habn hbvf hnpf L (le_refl L)
  have hrankp := rank_correct A wm hA hn hwm hσ c (p + 1) hc (by omega) (by omega)
  rw [hp3] at hrankp
  exact ⟨p, hsel, hp1, hpc, hrankp⟩

theorem select_one_indexed_witness :
    2 ≤ getAlphabetNum srcEx ∧
    ∃ p, wmEx.Select 2 1 = some (p, true) ∧ p < srcEx.length ∧
      srcEx.getD p 0 = 2 ∧ wmEx.Rank 2 (p + 1) = some (1, true) := by
  refine ⟨by decide, ?_⟩
  exact select_one_indexed srcEx wmEx (by decide) (by decide) (by decide)
    (by decide) 2 1 (by decide) (by decide)
/-! ### Round-trip of the binary codec -/

theorem u64ToBytes_length (x : Nat) : (u64ToBytes x).length = 8 := rfl

theorem take8_u64 (x : Nat) (t : List Nat) :
    (u64ToBytes x ++ t).take 8 = u64ToBytes x := rfl

theorem drop8_u64 (x : Nat) (t : List Nat) :
    (u64ToBytes x ++ t).drop 8 = t := rfl

theorem u64_roundtrip (x : Nat) (hx : x < 2 ^ 64) :
    bytesToU64 (u64ToBytes x) = x := by
  show x % 256 % 256 + (x >>> 8) % 256 % 256 * 2 ^ 8 +
    (x >>> 16) % 256 % 256 * 2 ^ 16 + (x >>> 24) % 256 % 256 * 2 ^ 24 +
    (x >>> 32) % 256 % 256 * 2 ^ 32 + (x >>> 40) % 256 % 256 * 2 ^ 40 +
    (x >>> 48) % 256 % 256 * 2 ^ 48 + (x >>> 56) % 256 % 256 * 2 ^ 56 = x
  simp only [Nat.shiftRight_eq_div_pow]
  omega

theorem mul64_small (a b : Nat) (h : a * b < 2 ^ 64) : mul64 a b = a * b := by
  unfold mul64 U64
  exact Nat.mod_eq_of_lt h

theorem u64s_flatten_length (row : List Nat) :
    ((row.map u64ToBytes).flatten).length = 8 * row.length := by
  induction row with
  | nil => rfl
  | cons x rest ih =>
    rw [List.map_cons, List.flatten_cons, List.length_append, ih,
      u64ToBytes_length, List.length_cons]
    ring

theorem read_header_u64 (pre suf : List Nat) (x : Nat)
    (hlen : (pre ++ (u64ToBytes x ++ suf)).length < 2 ^ 64) :
    goSlice (pre ++ (u64ToBytes x ++ suf)) pre.length (add64 pre.length 8) =
      some (u64ToBytes x) := by
  have hL : (pre ++ (u64ToBytes x ++ suf)).length =
      pre.length + 8 + suf.length := by
    rw [List.length_append, List.length_append, u64ToBytes_length]
    ring
  have hadd : add64 pre.length 8 = pre.length + 8 := add64_small _ _ (by omega)
  unfold goSlice
  rw [hadd, if_pos ⟨by omega, by omega⟩, List.drop_append_of_le_length (le_refl _),
    List.drop_length, List.nil_append,
    show pre.length + 8 - pre.length = 8 by omega, take8_u64]

theorem readU64s_spec (data : List Nat) (hlen : data.length < 2 ^ 64) :
    ∀ (row pre suf acc : List Nat),
    data = pre ++ ((row.map u64ToBytes).flatten ++ suf) →
    (∀ x ∈ row, x < 2 ^ 64) →
    readU64sLoop row.length data pre.length acc =
      .ok (acc.reverse ++ row, pre.length + 8 * row.length) := by
  intro row
  induction row with
  | nil =>
    intro pre suf acc hdata hx
    show GoResult.ok (acc.reverse, pre.length) = _
    rw [List.append_nil, List.length_nil, Nat.mul_zero, Nat.add_zero]
  | cons x rest ih =>
    intro pre suf acc hdata hx
    have hdata' : data = (pre ++ u64ToBytes x) ++
        ((rest.map u64ToBytes).flatten ++ suf) := by
      rw [hdata, List.map_cons, List.flatten_cons, List.append_assoc,
        List.append_assoc]
    have hslice : goSlice data pre.length (add64 pre.length 8) =
        some (u64ToBytes x) := by
      have h2 : data = pre ++ (u64ToBytes x ++
          ((rest.map u64ToBytes).flatten ++ suf)) := by
        rw [hdata', List.append_assoc]
      rw [h2]
      exact read_header_u64 _ _ _ (by rw [← h2]; exact hlen)
    have hadd : add64 pre.length 8 = pre.length + 8 := by
      apply add64_small
      have h8 : pre.length + 8 ≤ data.length := by
        rw [hdata', List.length_append, List.length_append, u64ToBytes_length]
        omega
      omega
    show (match goSlice data pre.length (add64 pre.length 8) with
      | none => GoResult.oob
      | some buf => readU64sLoop rest.length data (add64 pre.length 8)
          (bytesToU64 buf :: acc)) = _
    rw [hslice]
    show readU64sLoop rest.length data (add64 pre.length 8)
      (bytesToU64 (u64ToBytes x) :: acc) = _
    rw [hadd, u64_roundtrip x (hx x (List.mem_cons_self _ _))]
    have hih := ih (pre ++ u64ToBytes x) suf (x :: acc) hdata'
      (fun y hy => hx y (List.mem_cons_of_mem _ hy))
    rw [List.length_append, u64ToBytes_length] at hih
    rw [hih, List.reverse_cons, List.append_assoc]
    show GoResult.ok (acc.reverse ++ (x :: rest),
      pre.length + 8 + 8 * rest.length) = _
    congr 1
    rw [List.length_cons]
    ring
theorem bvMarshal_length (bv : List Bool) : (bvMarshal bv).length = 8 + bv.length := by
  unfold bvMarshal
  rw [List.length_append, List.length_map, u64ToBytes_length]

theorem bv_roundtrip (bv : List Bool) (h : bv.length < 2 ^ 64) :
    bvUnmarshal (bvMarshal bv) = some bv := by
  show (if (bvMarshal bv).length < 8 then none
    else
      let n := bytesToU64 ((bvMarshal bv).take 8)
      let rest := (bvMarshal bv).drop 8
      if rest.length = n ∧ rest.all (fun b => b ≤ 1) then
        some (rest.map (fun b => b == 1))
      else none) = some bv
  rw [if_neg (by rw [bvMarshal_length]; omega)]
  show (if ((bvMarshal bv).drop 8).length = bytesToU64 ((bvMarshal bv).take 8) ∧
      ((bvMarshal bv).drop 8).all (fun b => b ≤ 1) then
      some (((bvMarshal bv).drop 8).map (fun b => b == 1))
    else none) = some bv
  have htake : (bvMarshal bv).take 8 = u64ToBytes bv.length := take8_u64 _ _
  have hdrop : (bvMarshal bv).drop 8 = bv.map (fun b => if b then 1 else 0) :=
    drop8_u64 _ _
  have hall : (bv.map (fun b => if b then 1 else 0)).all (fun b => b ≤ 1) = true := by
    rw [List.all_eq_true]
    intro b hb
    obtain ⟨a, _, rfl⟩ := List.mem_map.mp hb
    cases a <;> simp
  rw [htake, hdrop, u64_roundtrip _ h,
    if_pos ⟨by rw [List.length_map], hall⟩, List.map_map]
  have : ∀ a ∈ bv, ((fun b => b == 1) ∘ (fun b => if b then 1 else 0)) a = id a := by
    intro a _
    cases a <;> rfl
  rw [List.map_congr_left this, List.map_id]

theorem readPlanes_spec (data : List Nat) (hlen : data.length < 2 ^ 64) :
    ∀ (planes : List (List Bool)) (pre suf : List Nat) (acc : List (List Bool)),
    data = pre ++
      (((planes.map (fun bv => u64ToBytes (bvMarshal bv).length ++ bvMarshal bv)).flatten) ++
        suf) →
    readPlanesLoop planes.length data pre.length acc =
      .ok (acc.reverse ++ planes,
        pre.length + (planes.map (fun bv => 16 + bv.length)).sum) := by
  intro planes
  induction planes with
  | nil =>
    intro pre suf acc hdata
    show GoResult.ok (acc.reverse, pre.length) = _
    rw [List.append_nil, List.map_nil, List.sum_nil, Nat.add_zero]
  | cons bv rest ih =>
    intro pre suf acc hdata
    have hchunk : data = pre ++ (u64ToBytes (bvMarshal bv).length ++
        (bvMarshal bv ++
          (((rest.map (fun bv => u64ToBytes (bvMarshal bv).length ++ bvMarshal bv)).flatten) ++
            suf))) := by
      rw [hdata, List.map_cons, List.flatten_cons]
      simp only [List.append_assoc]
    have hlens : data.length = pre.length + 8 + (8 + bv.length) +
        ((rest.map (fun bv => u64ToBytes (bvMarshal bv).length ++ bvMarshal bv)).flatten).length +
        suf.length := by
      rw [hchunk]
      simp only [List.length_append, u64ToBytes_length, bvMarshal_length]
      omega
    have hadd : add64 pre.length 8 = pre.length + 8 := add64_small _ _ (by omega)
    have hslice : goSlice data pre.length (add64 pre.length 8) =
        some (u64ToBytes (bvMarshal bv).length) := by
      rw [hchunk]
      exact read_header_u64 _ _ _ (by rw [← hchunk]; exact hlen)
    have hadd2 : add64 (pre.length + 8) (bvMarshal bv).length =
        pre.length + 8 + (8 + bv.length) := by
      rw [bvMarshal_length]
      exact add64_small _ _ (by omega)
    show (if data.length < add64 pre.length 8 then GoResult.invalidFormat
      else
        match goSlice data pre.length (add64 pre.length 8) with
        | none => GoResult.oob
        | some buf =>
          if data.length < add64 (add64 pre.length 8) (bytesToU64 buf) then
            GoResult.invalidFormat
          else
            match goSlice data (add64 pre.length 8)
                (add64 (add64 pre.length 8) (bytesToU64 buf)) with
            | none => GoResult.oob
            | some buf2 =>
              match bvUnmarshal buf2 with
              | none => GoResult.invalidFormat
              | some bv2 => readPlanesLoop rest.length data
                  (add64 (add64 pre.length 8) (bytesToU64 buf)) (bv2 :: acc)) = _
    rw [if_neg (by omega), hslice]
    show (if data.length < add64 (add64 pre.length 8)
        (bytesToU64 (u64ToBytes (bvMarshal bv).length)) then GoResult.invalidFormat
      else
        match goSlice data (add64 pre.length 8)
            (add64 (add64 pre.length 8) (bytesToU64 (u64ToBytes (bvMarshal bv).length))) with
        | none => GoResult.oob
        | some buf2 =>
          match bvUnmarshal buf2 with
          | none => GoResult.invalidFormat
          | some bv2 => readPlanesLoop rest.length data
              (add64 (add64 pre.length 8) (bytesToU64 (u64ToBytes (bvMarshal bv).length)))
              (bv2 :: acc)) = _
    rw [hadd, u64_roundtrip _ (by rw [bvMarshal_length]; omega), hadd2,
      if_neg (by omega)]
    have hslice2 : goSlice data (pre.length + 8) (pre.length + 8 + (8 + bv.length)) =
        some (bvMarshal bv) := by
      unfold goSlice
      rw [if_pos ⟨by omega, by omega⟩]
      have hpre2 : data = (pre ++ u64ToBytes (bvMarshal bv).length) ++
          (bvMarshal bv ++
            (((rest.map (fun bv => u64ToBytes (bvMarshal bv).length ++ bvMarshal bv)).flatten) ++
              suf)) := by
        rw [hchunk]
        simp only [List.append_assoc]
      have hplen2 : (pre ++ u64ToBytes (bvMarshal bv).length).length = pre.length + 8 := by
        rw [List.length_append, u64ToBytes_length]
      rw [hpre2, ← hplen2, List.drop_append_of_le_length (le_refl _),
        List.drop_length, List.nil_append, hplen2,
        show pre.length + 8 + (8 + bv.length) - (pre.length + 8) = (bvMarshal bv).length by
          rw [bvMarshal_length]; omega,
        List.take_append_of_le_length (le_refl _), List.take_length]
    rw [hslice2]
    show (match bvUnmarshal (bvMarshal bv) with
      | none => GoResult.invalidFormat
      | some bv2 => readPlanesLoop rest.length data
          (pre.length + 8 + (8 + bv.length)) (bv2 :: acc)) = _
    rw [bv_roundtrip bv (by omega)]
    show readPlanesLoop rest.length data (pre.length + 8 + (8 + bv.length))
      (bv :: acc) = _
    have hdata' : data = (pre ++ (u64ToBytes (bvMarshal bv).length ++ bvMarshal bv)) ++
        (((rest.map (fun bv => u64ToBytes (bvMarshal bv).length ++ bvMarshal bv)).flatten) ++
          suf) := by
      rw [hchunk]
      simp only [List.append_assoc]
    have hih := ih (pre ++ (u64ToBytes (bvMarshal bv).length ++ bvMarshal bv)) suf
      (bv :: acc) hdata'
    rw [List.length_append, List.length_append, u64ToBytes_length, bvMarshal_length] at hih
    rw [show pre.length + (8 + (8 + bv.length)) = pre.length + 8 + (8 + bv.length) by omega]
      at hih
    rw [hih, List.reverse_cons, List.append_assoc]
    show GoResult.ok (acc.reverse ++ (bv :: rest), _) = _
    congr 1
    rw [List.map_cons, List.sum_cons]
    congr 1
    omega

theorem readNodePos_spec (data : List Nat) (hlen : data.length < 2 ^ 64) :
    ∀ (nps : List (List Nat)) (pre suf : List Nat) (acc : List (List Nat)),
    data = pre ++
      (((nps.map (fun row => u64ToBytes row.length ++ (row.map u64ToBytes).flatten)).flatten) ++
        suf) →
    (∀ row ∈ nps, ∀ x ∈ row, x < 2 ^ 64) →
    readNodePosLoop nps.length data pre.length acc =
      .ok (acc.reverse ++ nps,
        pre.length + (nps.map (fun row => 8 + 8 * row.length)).sum) := by
  intro nps
  induction nps with
  | nil =>
    intro pre suf acc hdata hrows
    show GoResult.ok (acc.reverse, pre.length) = _
    rw [List.append_nil, List.map_nil, List.sum_nil, Nat.add_zero]
  | cons row rest ih =>
    intro pre suf acc hdata hrows
    have hchunk : data = pre ++ (u64ToBytes row.length ++
        ((row.map u64ToBytes).flatten ++
          (((rest.map (fun row => u64ToBytes row.length ++ (row.map u64ToBytes).flatten)).flatten) ++
            suf))) := by
      rw [hdata, List.map_cons, List.flatten_cons]
      simp only [List.append_assoc]
    have hlens : data.length = pre.length + 8 + 8 * row.length +
        ((rest.map (fun row => u64ToBytes row.length ++ (row.map u64ToBytes).flatten)).flatten).length +
        suf.length := by
      rw [hchunk]
      simp only [List.length_append, u64ToBytes_length, u64s_flatten_length]
      omega
    have hadd : add64 pre.length 8 = pre.length + 8 := add64_small _ _ (by omega)
    have hslice : goSlice data pre.length (add64 pre.length 8) =
        some (u64ToBytes row.length) := by
      rw [hchunk]
      exact read_header_u64 _ _ _ (by rw [← hchunk]; exact hlen)
    have hadd2 : add64 (pre.length + 8) (8 * row.length) =
        pre.length + 8 + 8 * row.length := add64_small _ _ (by omega)
    show (if data.length < add64 pre.length 8 then GoResult.invalidFormat
      else
        match goSlice data pre.length (add64 pre.length 8) with
        | none => GoResult.oob
        | some buf =>
          if data.length < add64 (add64 pre.length 8) (mul64 8 (bytesToU64 buf)) then
            GoResult.invalidFormat
          else
            match readU64sLoop (bytesToU64 buf) data (add64 pre.length 8) [] with
            | .oob => GoResult.oob
            | .invalidFormat => GoResult.invalidFormat
            | .ok (row2, offset2) => readNodePosLoop rest.length data offset2
                (row2 :: acc)) = _
    rw [if_neg (by omega), hslice]
    show (if data.length < add64 (add64 pre.length 8)
        (mul64 8 (bytesToU64 (u64ToBytes row.length))) then GoResult.invalidFormat
      else
        match readU64sLoop (bytesToU64 (u64ToBytes row.length)) data
            (add64 pre.length 8) [] with
        | .oob => GoResult.oob
        | .invalidFormat => GoResult.invalidFormat
        | .ok (row2, offset2) => readNodePosLoop rest.length data offset2
            (row2 :: acc)) = _
    rw [hadd, u64_roundtrip _ (by omega), mul64_small _ _ (by omega), hadd2,
      if_neg (by omega)]
    have hdatau : data = (pre ++ u64ToBytes row.length) ++
        ((row.map u64ToBytes).flatten ++
          (((rest.map (fun row => u64ToBytes row.length ++ (row.map u64ToBytes).flatten)).flatten) ++
            suf)) := by
      rw [hchunk]
      simp only [List.append_assoc]
    have hu64s := readU64s_spec data hlen row (pre ++ u64ToBytes row.length)
      ((((rest.map (fun row => u64ToBytes row.length ++ (row.map u64ToBytes).flatten)).flatten) ++
        suf)) [] hdatau (hrows row (List.mem_cons_self _ _))
    rw [List.length_append, u64ToBytes_length, List.reverse_nil,
      List.nil_append] at hu64s
    rw [hu64s]
    show readNodePosLoop rest.length data (pre.length + 8 + 8 * row.length)
      (row :: acc) = _
    have hdata' : data = (pre ++ (u64ToBytes row.length ++ (row.map u64ToBytes).flatten)) ++
        (((rest.map (fun row => u64ToBytes row.length ++ (row.map u64ToBytes).flatten)).flatten) ++
          suf) := by
      rw [hchunk]
      simp only [List.append_assoc]
    have hih := ih (pre ++ (u64ToBytes row.length ++ (row.map u64ToBytes).flatten)) suf
      (row :: acc) hdata' (fun r hr => hrows r (List.mem_cons_of_mem _ hr))
    rw [List.length_append, List.length_append, u64ToBytes_length,
      u64s_flatten_length] at hih
    rw [show pre.length + (8 + 8 * row.length) = pre.length + 8 + 8 * row.length by omega]
      at hih
    rw [hih, List.reverse_cons, List.append_assoc]
    show GoResult.ok (acc.reverse ++ (row :: rest), _) = _
    congr 1
    rw [List.map_cons, List.sum_cons]
    congr 1
    omega
theorem planes_flatten_length (planes : List (List Bool)) :
    ((planes.map (fun bv => u64ToBytes (bvMarshal bv).length ++ bvMarshal bv)).flatten).length =
      (planes.map (fun bv => 16 + bv.length)).sum := by
  induction planes with
  | nil => rfl
  | cons bv rest ih =>
    rw [List.map_cons, List.flatten_cons, List.length_append, ih,
      List.length_append, u64ToBytes_length, bvMarshal_length,
      List.map_cons, List.sum_cons]
    omega

theorem nps_flatten_length (nps : List (List Nat)) :
    ((nps.map (fun row => u64ToBytes row.length ++ (row.map u64ToBytes).flatten)).flatten).length =
      (nps.map (fun row => 8 + 8 * row.length)).sum := by
  induction nps with
  | nil => rfl
  | cons row rest ih =>
    rw [List.map_cons, List.flatten_cons, List.length_append, ih,
      List.length_append, u64ToBytes_length, u64s_flatten_length,
      List.map_cons, List.sum_cons]

/-- `UnmarshalBinary` parses `MarshalBinary`'s output back into the identical
index, whenever the `uint64` header fields and entries are in range and the
stream fits in a `uint64` length. -/
theorem unmarshal_marshal (wm : WMData)
    (hsz : wm.size < 2 ^ 64) (hαn : wm.alphabetNum < 2 ^ 64)
    (habn : wm.alphabetBitNum < 2 ^ 64)
    (hbvlen : wm.bv.length < 2 ^ 64) (hnplen : wm.nodePos.length < 2 ^ 64)
    (hsepl : wm.seps.length < 2 ^ 64)
    (hrows : ∀ row ∈ wm.nodePos, ∀ x ∈ row, x < 2 ^ 64)
    (hseps : ∀ x ∈ wm.seps, x < 2 ^ 64)
    (htot : (wm.MarshalBinary).length < 2 ^ 64) :
    UnmarshalBinary wm.MarshalBinary = GoResult.ok wm := by
  have hdata : wm.MarshalBinary = u64ToBytes wm.size ++ (u64ToBytes wm.alphabetNum ++
      (u64ToBytes wm.alphabetBitNum ++ (u64ToBytes wm.bv.length ++
      (((wm.bv.map (fun bv => u64ToBytes (bvMarshal bv).length ++ bvMarshal bv)).flatten) ++ (u64ToBytes wm.nodePos.length ++
      (((wm.nodePos.map (fun row => u64ToBytes row.length ++ (row.map u64ToBytes).flatten)).flatten) ++ (u64ToBytes wm.seps.length ++ ((wm.seps.map u64ToBytes).flatten)))))))) := by
    show u64ToBytes wm.size ++ u64ToBytes wm.alphabetNum ++ u64ToBytes wm.alphabetBitNum ++
      u64ToBytes wm.bv.length ++ ((wm.bv.map (fun bv => u64ToBytes (bvMarshal bv).length ++ bvMarshal bv)).flatten) ++ u64ToBytes wm.nodePos.length ++
      ((wm.nodePos.map (fun row => u64ToBytes row.length ++ (row.map u64ToBytes).flatten)).flatten) ++ u64ToBytes wm.seps.length ++ ((wm.seps.map u64ToBytes).flatten) = _
    simp only [List.append_assoc]
  have hlen_eq : wm.MarshalBinary.length = 32 + (wm.bv.map (fun bv => 16 + bv.length)).sum + 8 + (wm.nodePos.map (fun row => 8 + 8 * row.length)).sum + 8 +
      8 * wm.seps.length := by
    rw [hdata]
    simp only [List.length_append, u64ToBytes_length, planes_flatten_length,
      nps_flatten_length, u64s_flatten_length]
    omega
  have hs0 : goSlice wm.MarshalBinary 0 8 = some (u64ToBytes wm.size) := by
    rw [hdata]
    exact read_header_u64 [] _ wm.size (by rw [← hdata]; exact htot)
  have hs1 : goSlice wm.MarshalBinary 8 16 = some (u64ToBytes wm.alphabetNum) := by
    have hd : wm.MarshalBinary = u64ToBytes wm.size ++ (u64ToBytes wm.alphabetNum ++
        (u64ToBytes wm.alphabetBitNum ++ (u64ToBytes wm.bv.length ++
        (((wm.bv.map (fun bv => u64ToBytes (bvMarshal bv).length ++ bvMarshal bv)).flatten) ++ (u64ToBytes wm.nodePos.length ++
        (((wm.nodePos.map (fun row => u64ToBytes row.length ++ (row.map u64ToBytes).flatten)).flatten) ++ (u64ToBytes wm.seps.length ++ ((wm.seps.map u64ToBytes).flatten)))))))) := hdata
    rw [hd]
    exact read_header_u64 (u64ToBytes wm.size) _ wm.alphabetNum
      (by rw [← hd]; exact htot)
  have hs2 : goSlice wm.MarshalBinary 16 24 = some (u64ToBytes wm.alphabetBitNum) := by
    have hd : wm.MarshalBinary = (u64ToBytes wm.size ++ u64ToBytes wm.alphabetNum) ++
        (u64ToBytes wm.alphabetBitNum ++ (u64ToBytes wm.bv.length ++
        (((wm.bv.map (fun bv => u64ToBytes (bvMarshal bv).length ++ bvMarshal bv)).flatten) ++ (u64ToBytes wm.nodePos.length ++
        (((wm.nodePos.map (fun row => u64ToBytes row.length ++ (row.map u64ToBytes).flatten)).flatten) ++ (u64ToBytes wm.seps.length ++ ((wm.seps.map u64ToBytes).flatten))))))) := by
      rw [hdata]
      simp only [List.append_assoc]
    rw [hd]
    exact read_header_u64 (u64ToBytes wm.size ++ u64ToBytes wm.alphabetNum) _
      wm.alphabetBitNum (by rw [← hd]; exact htot)
  have hs3 : goSlice wm.MarshalBinary 24 32 = some (u64ToBytes wm.bv.length) := by
    have hd : wm.MarshalBinary = (u64ToBytes wm.size ++ u64ToBytes wm.alphabetNum ++
        u64ToBytes wm.alphabetBitNum) ++ (u64ToBytes wm.bv.length ++
        (((wm.bv.map (fun bv => u64ToBytes (bvMarshal bv).length ++ bvMarshal bv)).flatten) ++ (u64ToBytes wm.nodePos.length ++
        (((wm.nodePos.map (fun row => u64ToBytes row.length ++ (row.map u64ToBytes).flatten)).flatten) ++ (u64ToBytes wm.seps.length ++ ((wm.seps.map u64ToBytes).flatten)))))) := by
      rw [hdata]
      simp only [List.append_assoc]
    rw [hd]
    exact read_header_u64 (u64ToBytes wm.size ++ u64ToBytes wm.alphabetNum ++
      u64ToBytes wm.alphabetBitNum) _ wm.bv.length (by rw [← hd]; exact htot)
  have hplanes : readPlanesLoop wm.bv.length wm.MarshalBinary 32 [] =
      GoResult.ok (wm.bv, 32 + (wm.bv.map (fun bv => 16 + bv.length)).sum) := by
    have hd : wm.MarshalBinary = (u64ToBytes wm.size ++ u64ToBytes wm.alphabetNum ++
        u64ToBytes wm.alphabetBitNum ++ u64ToBytes wm.bv.length) ++
        (((wm.bv.map (fun bv => u64ToBytes (bvMarshal bv).length ++ bvMarshal bv)).flatten) ++ (u64ToBytes wm.nodePos.length ++
        (((wm.nodePos.map (fun row => u64ToBytes row.length ++ (row.map u64ToBytes).flatten)).flatten) ++ (u64ToBytes wm.seps.length ++ ((wm.seps.map u64ToBytes).flatten))))) := by
      rw [hdata]
      simp only [List.append_assoc]
    have hsp := readPlanes_spec wm.MarshalBinary htot wm.bv
      (u64ToBytes wm.size ++ u64ToBytes wm.alphabetNum ++
        u64ToBytes wm.alphabetBitNum ++ u64ToBytes wm.bv.length)
      (u64ToBytes wm.nodePos.length ++ (((wm.nodePos.map (fun row => u64ToBytes row.length ++ (row.map u64ToBytes).flatten)).flatten) ++ (u64ToBytes wm.seps.length ++ ((wm.seps.map u64ToBytes).flatten))))
      [] hd
    rw [show (u64ToBytes wm.size ++ u64ToBytes wm.alphabetNum ++
        u64ToBytes wm.alphabetBitNum ++ u64ToBytes wm.bv.length).length = 32 by rfl,
      List.reverse_nil, List.nil_append] at hsp
    exact hsp
  have hadd5 : add64 (32 + (wm.bv.map (fun bv => 16 + bv.length)).sum) 8 = 32 + (wm.bv.map (fun bv => 16 + bv.length)).sum + 8 := by
    apply add64_small
    omega
  have hs5 : goSlice wm.MarshalBinary (32 + (wm.bv.map (fun bv => 16 + bv.length)).sum) (add64 (32 + (wm.bv.map (fun bv => 16 + bv.length)).sum) 8) =
      some (u64ToBytes wm.nodePos.length) := by
    have hd : wm.MarshalBinary = (u64ToBytes wm.size ++ u64ToBytes wm.alphabetNum ++
        u64ToBytes wm.alphabetBitNum ++ u64ToBytes wm.bv.length ++ ((wm.bv.map (fun bv => u64ToBytes (bvMarshal bv).length ++ bvMarshal bv)).flatten)) ++
        (u64ToBytes wm.nodePos.length ++
        (((wm.nodePos.map (fun row => u64ToBytes row.length ++ (row.map u64ToBytes).flatten)).flatten) ++ (u64ToBytes wm.seps.length ++ ((wm.seps.map u64ToBytes).flatten)))) := by
      rw [hdata]
      simp only [List.append_assoc]
    have hplen : (u64ToBytes wm.size ++ u64ToBytes wm.alphabetNum ++
        u64ToBytes wm.alphabetBitNum ++ u64ToBytes wm.bv.length ++ ((wm.bv.map (fun bv => u64ToBytes (bvMarshal bv).length ++ bvMarshal bv)).flatten)).length =
        32 + (wm.bv.map (fun bv => 16 + bv.length)).sum := by
      simp only [List.length_append, u64ToBytes_length, planes_flatten_length]
    have hsg := read_header_u64 (u64ToBytes wm.size ++ u64ToBytes wm.alphabetNum ++
      u64ToBytes wm.alphabetBitNum ++ u64ToBytes wm.bv.length ++ ((wm.bv.map (fun bv => u64ToBytes (bvMarshal bv).length ++ bvMarshal bv)).flatten)) _
      wm.nodePos.length (by rw [← hd]; exact htot)
    rw [hplen] at hsg
    rw [hd]
    exact hsg
  have hnps : readNodePosLoop wm.nodePos.length wm.MarshalBinary (32 + (wm.bv.map (fun bv => 16 + bv.length)).sum + 8) [] =
      GoResult.ok (wm.nodePos, 32 + (wm.bv.map (fun bv => 16 + bv.length)).sum + 8 + (wm.nodePos.map (fun row => 8 + 8 * row.length)).sum) := by
    have hd : wm.MarshalBinary = (u64ToBytes wm.size ++ u64ToBytes wm.alphabetNum ++
        u64ToBytes wm.alphabetBitNum ++ u64ToBytes wm.bv.length ++ ((wm.bv.map (fun bv => u64ToBytes (bvMarshal bv).length ++ bvMarshal bv)).flatten) ++
        u64ToBytes wm.nodePos.length) ++
        (((wm.nodePos.map (fun row => u64ToBytes row.length ++ (row.map u64ToBytes).flatten)).flatten) ++ (u64ToBytes wm.seps.length ++ ((wm.seps.map u64ToBytes).flatten))) := by
      rw [hdata]
      simp only [List.append_assoc]
    have hplen : (u64ToBytes wm.size ++ u64ToBytes wm.alphabetNum ++
        u64ToBytes wm.alphabetBitNum ++ u64ToBytes wm.bv.length ++ ((wm.bv.map (fun bv => u64ToBytes (bvMarshal bv).length ++ bvMarshal bv)).flatten) ++
        u64ToBytes wm.nodePos.length).length = 32 + (wm.bv.map (fun bv => 16 + bv.length)).sum + 8 := by
      simp only [List.length_append, u64ToBytes_length, planes_flatten_length]
    have hsp := readNodePos_spec wm.MarshalBinary htot wm.nodePos
      (u64ToBytes wm.size ++ u64ToBytes wm.alphabetNum ++
        u64ToBytes wm.alphabetBitNum ++ u64ToBytes wm.bv.length ++ ((wm.bv.map (fun bv => u64ToBytes (bvMarshal bv).length ++ bvMarshal bv)).flatten) ++
        u64ToBytes wm.nodePos.length)
      (u64ToBytes wm.seps.length ++ ((wm.seps.map u64ToBytes).flatten)) [] hd hrows
    rw [hplen, List.reverse_nil, List.nil_append] at hsp
    exact hsp
  have hadd7 : add64 (32 + (wm.bv.map (fun bv => 16 + bv.length)).sum + 8 + (wm.nodePos.map (fun row => 8 + 8 * row.length)).sum) 8 = 32 + (wm.bv.map (fun bv => 16 + bv.length)).sum + 8 + (wm.nodePos.map (fun row => 8 + 8 * row.length)).sum + 8 := by
    apply add64_small
    omega
  have hs7 : goSlice wm.MarshalBinary (32 + (wm.bv.map (fun bv => 16 + bv.length)).sum + 8 + (wm.nodePos.map (fun row => 8 + 8 * row.length)).sum) (add64 (32 + (wm.bv.map (fun bv => 16 + bv.length)).sum + 8 + (wm.nodePos.map (fun row => 8 + 8 * row.length)).sum) 8) =
      some (u64ToBytes wm.seps.length) := by
    have hd : wm.MarshalBinary = (u64ToBytes wm.size ++ u64ToBytes wm.alphabetNum ++
        u64ToBytes wm.alphabetBitNum ++ u64ToBytes wm.bv.length ++ ((wm.bv.map (fun bv => u64ToBytes (bvMarshal bv).length ++ bvMarshal bv)).flatten) ++
        u64ToBytes wm.nodePos.length ++ ((wm.nodePos.map (fun row => u64ToBytes row.length ++ (row.map u64ToBytes).flatten)).flatten)) ++
        (u64ToBytes wm.seps.length ++ ((wm.seps.map u64ToBytes).flatten)) := by
      rw [hdata]
      simp only [List.append_assoc]
    have hplen : (u64ToBytes wm.size ++ u64ToBytes wm.alphabetNum ++
        u64ToBytes wm.alphabetBitNum ++ u64ToBytes wm.bv.length ++ ((wm.bv.map (fun bv => u64ToBytes (bvMarshal bv).length ++ bvMarshal bv)).flatten) ++
        u64ToBytes wm.nodePos.length ++ ((wm.nodePos.map (fun row => u64ToBytes row.length ++ (row.map u64ToBytes).flatten)).flatten)).length = 32 + (wm.bv.map (fun bv => 16 + bv.length)).sum + 8 + (wm.nodePos.map (fun row => 8 + 8 * row.length)).sum := by
      simp only [List.length_append, u64ToBytes_length, planes_flatten_length,
        nps_flatten_length]
    have hsg := read_header_u64 (u64ToBytes wm.size ++ u64ToBytes wm.alphabetNum ++
      u64ToBytes wm.alphabetBitNum ++ u64ToBytes wm.bv.length ++ ((wm.bv.map (fun bv => u64ToBytes (bvMarshal bv).length ++ bvMarshal bv)).flatten) ++
      u64ToBytes wm.nodePos.length ++ ((wm.nodePos.map (fun row => u64ToBytes row.length ++ (row.map u64ToBytes).flatten)).flatten)) _ wm.seps.length
      (by rw [← hd]; exact htot)
    rw [hplen] at hsg
    rw [hd]
    exact hsg
  have hseps_loop : readU64sLoop wm.seps.length wm.MarshalBinary
      (32 + (wm.bv.map (fun bv => 16 + bv.length)).sum + 8 + (wm.nodePos.map (fun row => 8 + 8 * row.length)).sum + 8) [] =
      GoResult.ok (wm.seps, 32 + (wm.bv.map (fun bv => 16 + bv.length)).sum + 8 + (wm.nodePos.map (fun row => 8 + 8 * row.length)).sum + 8 + 8 * wm.seps.length) := by
    have hd : wm.MarshalBinary = (u64ToBytes wm.size ++ u64ToBytes wm.alphabetNum ++
        u64ToBytes wm.alphabetBitNum ++ u64ToBytes wm.bv.length ++ ((wm.bv.map (fun bv => u64ToBytes (bvMarshal bv).length ++ bvMarshal bv)).flatten) ++
        u64ToBytes wm.nodePos.length ++ ((wm.nodePos.map (fun row => u64ToBytes row.length ++ (row.map u64ToBytes).flatten)).flatten) ++ u64ToBytes wm.seps.length) ++
        (((wm.seps.map u64ToBytes).flatten) ++ []) := by
      rw [hdata]
      simp only [List.append_assoc, List.append_nil]
    have hplen : (u64ToBytes wm.size ++ u64ToBytes wm.alphabetNum ++
        u64ToBytes wm.alphabetBitNum ++ u64ToBytes wm.bv.length ++ ((wm.bv.map (fun bv => u64ToBytes (bvMarshal bv).length ++ bvMarshal bv)).flatten) ++
        u64ToBytes wm.nodePos.length ++ ((wm.nodePos.map (fun row => u64ToBytes row.length ++ (row.map u64ToBytes).flatten)).flatten) ++ u64ToBytes wm.seps.length).length =
        32 + (wm.bv.map (fun bv => 16 + bv.length)).sum + 8 + (wm.nodePos.map (fun row => 8 + 8 * row.length)).sum + 8 := by
      simp only [List.length_append, u64ToBytes_length, planes_flatten_length,
        nps_flatten_length]
    have hsp := readU64s_spec wm.MarshalBinary htot wm.seps
      (u64ToBytes wm.size ++ u64ToBytes wm.alphabetNum ++
        u64ToBytes wm.alphabetBitNum ++ u64ToBytes wm.bv.length ++ ((wm.bv.map (fun bv => u64ToBytes (bvMarshal bv).length ++ bvMarshal bv)).flatten) ++
        u64ToBytes wm.nodePos.length ++ ((wm.nodePos.map (fun row => u64ToBytes row.length ++ (row.map u64ToBytes).flatten)).flatten) ++ u64ToBytes wm.seps.length)
      [] [] hd hseps
    rw [hplen, List.reverse_nil, List.nil_append] at hsp
    exact hsp
  show (if wm.MarshalBinary.length < 8 then GoResult.invalidFormat
else
  match goSlice wm.MarshalBinary 0 8 with
  | none => GoResult.oob
  | some buf0 =>
    (if wm.MarshalBinary.length < 16 then GoResult.invalidFormat
else
  match goSlice wm.MarshalBinary 8 16 with
  | none => GoResult.oob
  | some buf1 =>
    (if wm.MarshalBinary.length < 24 then GoResult.invalidFormat
else
  match goSlice wm.MarshalBinary 16 24 with
  | none => GoResult.oob
  | some buf2 =>
    (if wm.MarshalBinary.length < 32 then GoResult.invalidFormat
else
  match goSlice wm.MarshalBinary 24 32 with
  | none => GoResult.oob
  | some buf3 =>
    (match readPlanesLoop (bytesToU64 buf3) wm.MarshalBinary 32 [] with
| GoResult.oob => GoResult.oob
| GoResult.invalidFormat => GoResult.invalidFormat
| GoResult.ok (planes2, o5v) =>
  (if wm.MarshalBinary.length < add64 o5v 8 then GoResult.invalidFormat
else
  match goSlice wm.MarshalBinary o5v (add64 o5v 8) with
  | none => GoResult.oob
  | some buf5 =>
    (match readNodePosLoop (bytesToU64 buf5) wm.MarshalBinary (add64 o5v 8) [] with
| GoResult.oob => GoResult.oob
| GoResult.invalidFormat => GoResult.invalidFormat
| GoResult.ok (nodePos2, o7v) =>
  (if wm.MarshalBinary.length < add64 o7v 8 then GoResult.invalidFormat
  else
    match goSlice wm.MarshalBinary o7v (add64 o7v 8) with
    | none => GoResult.oob
    | some buf7 =>
      (if wm.MarshalBinary.length < add64 (add64 o7v 8) (mul64 (bytesToU64 buf7) 8) then
        GoResult.invalidFormat
      else
        match readU64sLoop (bytesToU64 buf7) wm.MarshalBinary (add64 o7v 8) [] with
        | GoResult.oob => GoResult.oob
        | GoResult.invalidFormat => GoResult.invalidFormat
        | GoResult.ok (seps2, _) =>
          GoResult.ok ⟨(bytesToU64 buf0), (bytesToU64 buf1), (bytesToU64 buf2), planes2, nodePos2, seps2⟩))))))))) = GoResult.ok wm
  rw [if_neg (by omega), hs0]
  show (if wm.MarshalBinary.length < 16 then GoResult.invalidFormat
else
  match goSlice wm.MarshalBinary 8 16 with
  | none => GoResult.oob
  | some buf1 =>
    (if wm.MarshalBinary.length < 24 then GoResult.invalidFormat
else
  match goSlice wm.MarshalBinary 16 24 with
  | none => GoResult.oob
  | some buf2 =>
    (if wm.MarshalBinary.length < 32 then GoResult.invalidFormat
else
  match goSlice wm.MarshalBinary 24 32 with
  | none => GoResult.oob
  | some buf3 =>
    (match readPlanesLoop (bytesToU64 buf3) wm.MarshalBinary 32 [] with
| GoResult.oob => GoResult.oob
| GoResult.invalidFormat => GoResult.invalidFormat
| GoResult.ok (planes2, o5v) =>
  (if wm.MarshalBinary.length < add64 o5v 8 then GoResult.invalidFormat
else
  match goSlice wm.MarshalBinary o5v (add64 o5v 8) with
  | none => GoResult.oob
  | some buf5 =>
    (match readNodePosLoop (bytesToU64 buf5) wm.MarshalBinary (add64 o5v 8) [] with
| GoResult.oob => GoResult.oob
| GoResult.invalidFormat => GoResult.invalidFormat
| GoResult.ok (nodePos2, o7v) =>
  (if wm.MarshalBinary.length < add64 o7v 8 then GoResult.invalidFormat
  else
    match goSlice wm.MarshalBinary o7v (add64 o7v 8) with
    | none => GoResult.oob
    | some buf7 =>
      (if wm.MarshalBinary.length < add64 (add64 o7v 8) (mul64 (bytesToU64 buf7) 8) then
        GoResult.invalidFormat
      else
        match readU64sLoop (bytesToU64 buf7) wm.MarshalBinary (add64 o7v 8) [] with
        | GoResult.oob => GoResult.oob
        | GoResult.invalidFormat => GoResult.invalidFormat
        | GoResult.ok (seps2, _) =>
          GoResult.ok ⟨(bytesToU64 (u64ToBytes wm.size)), (bytesToU64 buf1), (bytesToU64 buf2), planes2, nodePos2, seps2⟩)))))))) = GoResult.ok wm
  rw [u64_roundtrip wm.size hsz, if_neg (by omega), hs1]
  show (if wm.MarshalBinary.length < 24 then GoResult.invalidFormat
else
  match goSlice wm.MarshalBinary 16 24 with
  | none => GoResult.oob
  | some buf2 =>
    (if wm.MarshalBinary.length < 32 then GoResult.invalidFormat
else
  match goSlice wm.MarshalBinary 24 32 with
  | none => GoResult.oob
  | some buf3 =>
    (match readPlanesLoop (bytesToU64 buf3) wm.MarshalBinary 32 [] with
| GoResult.oob => GoResult.oob
| GoResult.invalidFormat => GoResult.invalidFormat
| GoResult.ok (planes2, o5v) =>
  (if wm.MarshalBinary.length < add64 o5v 8 then GoResult.invalidFormat
else
  match goSlice wm.MarshalBinary o5v (add64 o5v 8) with
  | none => GoResult.oob
  | some buf5 =>
    (match readNodePosLoop (bytesToU64 buf5) wm.MarshalBinary (add64 o5v 8) [] with
| GoResult.oob => GoResult.oob
| GoResult.invalidFormat => GoResult.invalidFormat
| GoResult.ok (nodePos2, o7v) =>
  (if wm.MarshalBinary.length < add64 o7v 8 then GoResult.invalidFormat
  else
    match goSlice wm.MarshalBinary o7v (add64 o7v 8) with
    | none => GoResult.oob
    | some buf7 =>
      (if wm.MarshalBinary.length < add64 (add64 o7v 8) (mul64 (bytesToU64 buf7) 8) then
        GoResult.invalidFormat
      else
        match readU64sLoop (bytesToU64 buf7) wm.MarshalBinary (add64 o7v 8) [] with
        | GoResult.oob => GoResult.oob
        | GoResult.invalidFormat => GoResult.invalidFormat
        | GoResult.ok (seps2, _) =>
          GoResult.ok ⟨wm.size, (bytesToU64 (u64ToBytes wm.alphabetNum)), (bytesToU64 buf2), planes2, nodePos2, seps2⟩))))))) = GoResult.ok wm
  rw [u64_roundtrip wm.alphabetNum hαn, if_neg (by omega), hs2]
  show (if wm.MarshalBinary.length < 32 then GoResult.invalidFormat
else
  match goSlice wm.MarshalBinary 24 32 with
  | none => GoResult.oob
  | some buf3 =>
    (match readPlanesLoop (bytesToU64 buf3) wm.MarshalBinary 32 [] with
| GoResult.oob => GoResult.oob
| GoResult.invalidFormat => GoResult.invalidFormat
| GoResult.ok (planes2, o5v) =>
  (if wm.MarshalBinary.length < add64 o5v 8 then GoResult.invalidFormat
else
  match goSlice wm.MarshalBinary o5v (add64 o5v 8) with
  | none => GoResult.oob
  | some buf5 =>
    (match readNodePosLoop (bytesToU64 buf5) wm.MarshalBinary (add64 o5v 8) [] with
| GoResult.oob => GoResult.oob
| GoResult.invalidFormat => GoResult.invalidFormat
| GoResult.ok (nodePos2, o7v) =>
  (if wm.MarshalBinary.length < add64 o7v 8 then GoResult.invalidFormat
  else
    match goSlice wm.MarshalBinary o7v (add64 o7v 8) with
    | none => GoResult.oob
    | some buf7 =>
      (if wm.MarshalBinary.length < add64 (add64 o7v 8) (mul64 (bytesToU64 buf7) 8) then
        GoResult.invalidFormat
      else
        match readU64sLoop (bytesToU64 buf7) wm.MarshalBinary (add64 o7v 8) [] with
        | GoResult.oob => GoResult.oob
        | GoResult.invalidFormat => GoResult.invalidFormat
        | GoResult.ok (seps2, _) =>
          GoResult.ok ⟨wm.size, wm.alphabetNum, (bytesToU64 (u64ToBytes wm.alphabetBitNum)), planes2, nodePos2, seps2⟩)))))) = GoResult.ok wm
  rw [u64_roundtrip wm.alphabetBitNum habn, if_neg (by omega), hs3]
  show (match readPlanesLoop (bytesToU64 (u64ToBytes wm.bv.length)) wm.MarshalBinary 32 [] with
| GoResult.oob => GoResult.oob
| GoResult.invalidFormat => GoResult.invalidFormat
| GoResult.ok (planes2, o5v) =>
  (if wm.MarshalBinary.length < add64 o5v 8 then GoResult.invalidFormat
else
  match goSlice wm.MarshalBinary o5v (add64 o5v 8) with
  | none => GoResult.oob
  | some buf5 =>
    (match readNodePosLoop (bytesToU64 buf5) wm.MarshalBinary (add64 o5v 8) [] with
| GoResult.oob => GoResult.oob
| GoResult.invalidFormat => GoResult.invalidFormat
| GoResult.ok (nodePos2, o7v) =>
  (if wm.MarshalBinary.length < add64 o7v 8 then GoResult.invalidFormat
  else
    match goSlice wm.MarshalBinary o7v (add64 o7v 8) with
    | none => GoResult.oob
    | some buf7 =>
      (if wm.MarshalBinary.length < add64 (add64 o7v 8) (mul64 (bytesToU64 buf7) 8) then
        GoResult.invalidFormat
      else
        match readU64sLoop (bytesToU64 buf7) wm.MarshalBinary (add64 o7v 8) [] with
        | GoResult.oob => GoResult.oob
        | GoResult.invalidFormat => GoResult.invalidFormat
        | GoResult.ok (seps2, _) =>
          GoResult.ok ⟨wm.size, wm.alphabetNum, wm.alphabetBitNum, planes2, nodePos2, seps2⟩))))) = GoResult.ok wm
  rw [u64_roundtrip wm.bv.length hbvlen, hplanes]
  show (if wm.MarshalBinary.length < add64 (32 + (wm.bv.map (fun bv => 16 + bv.length)).sum) 8 then GoResult.invalidFormat
else
  match goSlice wm.MarshalBinary (32 + (wm.bv.map (fun bv => 16 + bv.length)).sum) (add64 (32 + (wm.bv.map (fun bv => 16 + bv.length)).sum) 8) with
  | none => GoResult.oob
  | some buf5 =>
    (match readNodePosLoop (bytesToU64 buf5) wm.MarshalBinary (add64 (32 + (wm.bv.map (fun bv => 16 + bv.length)).sum) 8) [] with
| GoResult.oob => GoResult.oob
| GoResult.invalidFormat => GoResult.invalidFormat
| GoResult.ok (nodePos2, o7v) =>
  (if wm.MarshalBinary.length < add64 o7v 8 then GoResult.invalidFormat
  else
    match goSlice wm.MarshalBinary o7v (add64 o7v 8) with
    | none => GoResult.oob
    | some buf7 =>
      (if wm.MarshalBinary.length < add64 (add64 o7v 8) (mul64 (bytesToU64 buf7) 8) then
        GoResult.invalidFormat
      else
        match readU64sLoop (bytesToU64 buf7) wm.MarshalBinary (add64 o7v 8) [] with
        | GoResult.oob => GoResult.oob
        | GoResult.invalidFormat => GoResult.invalidFormat
        | GoResult.ok (seps2, _) =>
          GoResult.ok ⟨wm.size, wm.alphabetNum, wm.alphabetBitNum, wm.bv, nodePos2, seps2⟩)))) = GoResult.ok wm
  rw [if_neg (by omega), hs5]
  show (match readNodePosLoop (bytesToU64 (u64ToBytes wm.nodePos.length)) wm.MarshalBinary (add64 (32 + (wm.bv.map (fun bv => 16 + bv.length)).sum) 8) [] with
| GoResult.oob => GoResult.oob
| GoResult.invalidFormat => GoResult.invalidFormat
| GoResult.ok (nodePos2, o7v) =>
  (if wm.MarshalBinary.length < add64 o7v 8 then GoResult.invalidFormat
  else
    match goSlice wm.MarshalBinary o7v (add64 o7v 8) with
    | none => GoResult.oob
    | some buf7 =>
      (if wm.MarshalBinary.length < add64 (add64 o7v 8) (mul64 (bytesToU64 buf7) 8) then
        GoResult.invalidFormat
      else
        match readU64sLoop (bytesToU64 buf7) wm.MarshalBinary (add64 o7v 8) [] with
        | GoResult.oob => GoResult.oob
        | GoResult.invalidFormat => GoResult.invalidFormat
        | GoResult.ok (seps2, _) =>
          GoResult.ok ⟨wm.size, wm.alphabetNum, wm.alphabetBitNum, wm.bv, nodePos2, seps2⟩))) = GoResult.ok wm
  rw [u64_roundtrip wm.nodePos.length hnplen, hadd5, hnps]
  show (if wm.MarshalBinary.length < add64 (32 + (wm.bv.map (fun bv => 16 + bv.length)).sum + 8 + (wm.nodePos.map (fun row => 8 + 8 * row.length)).sum) 8 then GoResult.invalidFormat
else
  match goSlice wm.MarshalBinary (32 + (wm.bv.map (fun bv => 16 + bv.length)).sum + 8 + (wm.nodePos.map (fun row => 8 + 8 * row.length)).sum) (add64 (32 + (wm.bv.map (fun bv => 16 + bv.length)).sum + 8 + (wm.nodePos.map (fun row => 8 + 8 * row.length)).sum) 8) with
  | none => GoResult.oob
  | some buf7 =>
    (if wm.MarshalBinary.length < add64 (add64 (32 + (wm.bv.map (fun bv => 16 + bv.length)).sum + 8 + (wm.nodePos.map (fun row => 8 + 8 * row.length)).sum) 8) (mul64 (bytesToU64 buf7) 8) then GoResult.invalidFormat
else
  match readU64sLoop (bytesToU64 buf7) wm.MarshalBinary (add64 (32 + (wm.bv.map (fun bv => 16 + bv.length)).sum + 8 + (wm.nodePos.map (fun row => 8 + 8 * row.length)).sum) 8) [] with
  | GoResult.oob => GoResult.oob
  | GoResult.invalidFormat => GoResult.invalidFormat
  | GoResult.ok (seps2, _) =>
    GoResult.ok ⟨wm.size, wm.alphabetNum, wm.alphabetBitNum, wm.bv, wm.nodePos, seps2⟩)) = GoResult.ok wm
  rw [if_neg (by omega), hs7]
  show (if wm.MarshalBinary.length < add64 (add64 (32 + (wm.bv.map (fun bv => 16 + bv.length)).sum + 8 + (wm.nodePos.map (fun row => 8 + 8 * row.length)).sum) 8) (mul64 (bytesToU64 (u64ToBytes wm.seps.length)) 8) then GoResult.invalidFormat
else
  match readU64sLoop (bytesToU64 (u64ToBytes wm.seps.length)) wm.MarshalBinary (add64 (32 + (wm.bv.map (fun bv => 16 + bv.length)).sum + 8 + (wm.nodePos.map (fun row => 8 + 8 * row.length)).sum) 8) [] with
  | GoResult.oob => GoResult.oob
  | GoResult.invalidFormat => GoResult.invalidFormat
  | GoResult.ok (seps2, _) =>
    GoResult.ok ⟨wm.size, wm.alphabetNum, wm.alphabetBitNum, wm.bv, wm.nodePos, seps2⟩) = GoResult.ok wm
  have hadd8 : add64 (32 + (wm.bv.map (fun bv => 16 + bv.length)).sum + 8 +
      (wm.nodePos.map (fun row => 8 + 8 * row.length)).sum + 8) (wm.seps.length * 8) =
      32 + (wm.bv.map (fun bv => 16 + bv.length)).sum + 8 +
      (wm.nodePos.map (fun row => 8 + 8 * row.length)).sum + 8 + wm.seps.length * 8 := by
    apply add64_small
    omega
  rw [u64_roundtrip wm.seps.length hsepl, hadd7,
    mul64_small wm.seps.length 8 (by omega), hadd8, if_neg (by omega), hseps_loop]
/-- C8: the codec round-trips every index `Build` produces.
`UnmarshalBinary (MarshalBinary wm)` succeeds with an index equal to `wm` in
every field, so the round-tripped index answers every query identically and
re-serializing it reproduces the same byte stream.  The stream-length bound
models the `uint64` limit on Go slice lengths. -/
theorem marshal_unmarshal_roundtrip (A : List Nat) (wm : WMData)
    (hA : ∀ v ∈ A, v < 2 ^ 63) (hn : A.length < 2 ^ 63)
    (hwm : buildWM A = some wm)
    (htot : (wm.MarshalBinary).length < 2 ^ 64) :
    UnmarshalBinary wm.MarshalBinary = GoResult.ok wm ∧
    (∀ wm2, UnmarshalBinary wm.MarshalBinary = GoResult.ok wm2 →
      wm2.MarshalBinary = wm.MarshalBinary) := by
  have hne : A ≠ [] := by rintro rfl; exact Option.noConfusion hwm
  have hrec := buildWM_spec A hne hA
  rw [hwm] at hrec
  injection hrec with hrec
  have hα1 : 1 ≤ getAlphabetNum A := getAlphabetNum_pos A hne
  have hαle : getAlphabetNum A ≤ 2 ^ 63 := by
    unfold getAlphabetNum
    exact getAlphabetNum_le A (2 ^ 63) hA 0 (by positivity)
  have hL63 : log2go (getAlphabetNum A) ≤ 63 := log2go_le _ _ hα1 hαle
  have hsz : wm.size < 2 ^ 64 := by
    rw [hrec]
    show A.length < 2 ^ 64
    omega
  have hαn : wm.alphabetNum < 2 ^ 64 := by
    rw [hrec]
    show getAlphabetNum A < 2 ^ 64
    omega
  have habn : wm.alphabetBitNum < 2 ^ 64 := by
    rw [hrec]
    show log2go (getAlphabetNum A) < 2 ^ 64
    omega
  have hbvlen : wm.bv.length < 2 ^ 64 := by
    rw [hrec]
    show ((List.range (log2go (getAlphabetNum A))).map _).length < 2 ^ 64
    rw [List.length_map, List.length_range]
    omega
  have hnplen : wm.nodePos.length < 2 ^ 64 := by
    rw [hrec]
    show ((List.range (log2go (getAlphabetNum A))).map _).length < 2 ^ 64
    rw [List.length_map, List.length_range]
    omega
  have hsepl : wm.seps.length < 2 ^ 64 := by
    rw [hrec]
    show ([] : List Nat).length < 2 ^ 64
    simp
  have hrows : ∀ row ∈ wm.nodePos, ∀ x ∈ row, x < 2 ^ 64 := by
    rw [hrec]
    intro row hrow x hx
    obtain ⟨i, _, rfl⟩ := List.mem_map.mp hrow
    obtain ⟨q, _, rfl⟩ := List.mem_map.mp hx
    have hle : startOf (log2go (getAlphabetNum A)) A (i + 1) q ≤ A.length :=
      List.countP_le_length _
    omega
  have hseps : ∀ x ∈ wm.seps, x < 2 ^ 64 := by
    rw [hrec]
    intro x hx
    simp at hx
  have h1 := unmarshal_marshal wm hsz hαn habn hbvlen hnplen hsepl hrows hseps htot
  refine ⟨h1, ?_⟩
  intro wm2 h2
  rw [h1] at h2
  injection h2 with h2
  rw [h2]

set_option maxRecDepth 100000 in
theorem marshal_unmarshal_roundtrip_witness :
    UnmarshalBinary wmEx.MarshalBinary = GoResult.ok wmEx ∧
    wmEx.MarshalBinary.length = 256 := by
  have h := marshal_unmarshal_roundtrip srcEx wmEx (by decide) (by decide)
    (by decide) (by decide)
  exact ⟨h.1, by decide⟩
